import Mathlib

/-!
# parray: non-owning array views, their comparison traits and the split/join tools

A verification development over a shallow embedding of `parray.h` and
`parray_tools.h`.

Modelling conventions

* Memory is a finite run of cells, `Mem α = List (Option α)`.  A pointer is an
  address (`Nat`); address `0` is the null pointer.  Dereferencing an address
  that holds no element (`none`, or past the end of memory) is undefined
  behaviour in C++ and is `none` here; every function that reads memory returns
  an `Option`, and `none` propagates.
* Elements are modelled by their values in a type `α`; `==` and `<` of the
  element type are equality and the order of `α`, as they are for the integer and
  character types.  For an element type whose `==` is another relation (NaN of a
  floating-point type) the equality side is restated in the namespace `by_op` with
  the operator as a parameter.  The compile-time facts about
  an element type (which type is left once `const`/`volatile` are removed, and
  whether it is `volatile`) live in an `ElemType` descriptor, from which the
  source's `is_char`, `is_byte`, `is_scalar`, `is_case1..3` are computed.
* `for(;;)` loops that scan for a terminator carry a fuel argument; the entry
  points pass `m.length + 1`, which no run that stays inside memory can use up.
  The split loops carry fuel too; their entry points pass the length of the
  view plus one (plus two for the skip-empty form).
* A functor argument `f` is a state transformer: it takes its state and the
  sub-array and returns the new state (and its `bool` result for the split
  functors).  A `deque` or a range of views is a `List`.
* The whitespace classifier of the trim functions (`std::isspace`, `std::iswspace`) depends
  on the locale and is a parameter; `std::search` is modelled as the forward-iterator loop
  of the C++ standard.  The integer value of an element, which `bitset_delim` converts to
  its `IntT`, is given by a function `val : α → Int`.  `int` and `unsigned` are 32 bits
  wide; arithmetic on a value of `IntT` is done in the promoted type and wraps there.
-/

namespace adv

/-! ## Memory and element types -/

/-- Memory: cell `a` holds `some x` when address `a` stores the element `x`. -/
abbrev Mem (α : Type) := List (Option α)

/-- The read `*p`: `none` when `p` is not a readable address. -/
def deref {α : Type} (m : Mem α) (p : Nat) : Option α := m.getD p none

/-- The null pointer. -/
def nullptr : Nat := 0

/-- The element types the header distinguishes, with `const`/`volatile` removed. -/
inductive BaseType where
  | char
  | wchar_t
  | char16_t
  | char32_t
  | unsigned_char
  | scalar (id : Nat)
  | class_type (id : Nat)
  deriving DecidableEq

/-- An element type `T`: its cv-unqualified type and whether it is `volatile`
(`const` changes no behaviour in the header). -/
structure ElemType where
  base : BaseType
  is_volatile : Bool
  deriving DecidableEq

/-- The alias `remove_cv<T>`. -/
def remove_cv (T : ElemType) : ElemType := ⟨T.base, false⟩

/-- The test `is_same<remove_cv<T>, remove_cv<U>>`. -/
def is_same_base (T U : ElemType) : Bool := decide (T.base = U.base)

/-- The constant `is_char<T>`. -/
def is_char (T : ElemType) : Bool :=
  decide (T.base = BaseType.char) || decide (T.base = BaseType.wchar_t)
    || decide (T.base = BaseType.char16_t) || decide (T.base = BaseType.char32_t)

/-- The constant `is_byte<T>`. -/
def is_byte (T : ElemType) : Bool := decide (T.base = BaseType.unsigned_char)

/-- The constant `is_scalar<T>`: every base type but a class type. -/
def is_scalar (T : ElemType) : Bool :=
  match T.base with
  | BaseType.class_type _ => false
  | _ => true

/-! ## Standard-library primitives used by the traits

These are not code of the repository; they follow the C++ standard's wording. -/

/-- The function `char_traits<C>::eq(a, b)`: `a == b`. -/
def char_traits_eq {α : Type} [LinearOrder α] (a b : α) : Bool := decide (a = b)

/-- The function `char_traits<C>::lt(a, b)`: `a < b` in the order of the character type. -/
def char_traits_lt {α : Type} [LinearOrder α] (a b : α) : Bool := decide (a < b)

/-- The function `char_traits<C>::compare(s1, s2, n)`: walks both runs, returns a
negative value at the first position where `lt(s1[i], s2[i])`, a positive one
where `lt(s2[i], s1[i])`, and `0` when all `n` positions are equal. -/
def char_traits_compare {α : Type} [LinearOrder α] (m : Mem α) : Nat → Nat → Nat → Option Int
  | _, _, 0 => some 0
  | s1, s2, n + 1 =>
    match deref m s1, deref m s2 with
    | some a, some b =>
      if char_traits_lt a b then some (-1)
      else if char_traits_lt b a then some 1
      else char_traits_compare m (s1 + 1) (s2 + 1) n
    | _, _ => none

/-- The function `memcmp(l, r, n)` on one-byte elements: the sign of the first
differing byte pair, bytes taken as `unsigned char`, `0` if there is none. -/
def memcmp {α : Type} [LinearOrder α] (m : Mem α) : Nat → Nat → Nat → Option Int
  | _, _, 0 => some 0
  | l, r, n + 1 =>
    match deref m l, deref m r with
    | some a, some b =>
      if a < b then some (-1)
      else if b < a then some 1
      else memcmp m (l + 1) (r + 1) n
    | _, _ => none

/-! ## `parray_traits`: arrays -/

namespace parray_traits

variable {α : Type} [LinearOrder α]

/-- The helper `same_ptr(l, r)`. -/
def same_ptr (l r : Nat) : Bool := decide (l = r)

/-- The overload set `elem_eq`: `char_traits::eq` for two character types with the same
base type, `l == r` for everything else. -/
def elem_eq (L R : ElemType) (l r : α) : Bool :=
  if is_same_base L R && is_char L then char_traits_eq l r else decide (l = r)

/-- The overload set `elem_lt`: `char_traits::lt` for two character types with the same
base type, `l < r` for everything else. -/
def elem_lt (L R : ElemType) (l r : α) : Bool :=
  if is_same_base L R && is_char L then char_traits_lt l r else decide (l < r)

/-- The loop `generic_eq(len, l, r)`. -/
def generic_eq (L R : ElemType) (m : Mem α) : Nat → Nat → Nat → Option Bool
  | 0, _, _ => some true
  | len + 1, l, r =>
    match deref m l, deref m r with
    | some a, some b =>
      if !elem_eq L R a b then some false else generic_eq L R m len (l + 1) (r + 1)
    | _, _ => none

/-- The loop `generic_lt(len, l, r)`. -/
def generic_lt (L R : ElemType) (m : Mem α) : Nat → Nat → Nat → Option Bool
  | 0, _, _ => some false
  | len + 1, l, r =>
    match deref m l, deref m r with
    | some a, some b =>
      if !elem_eq L R a b then some (elem_lt L R a b) else generic_lt L R m len (l + 1) (r + 1)
    | _, _ => none

/-- The constant `is_case1<L, R>`: non-volatile characters of one base type. -/
def is_case1 (L R : ElemType) : Bool :=
  !L.is_volatile && !R.is_volatile && is_char L && is_char R && is_same_base L R

/-- The constant `is_case2<L, R>`: non-volatile bytes. -/
def is_case2 (L R : ElemType) : Bool :=
  !L.is_volatile && !R.is_volatile && is_byte L && is_byte R

/-- The constant `is_case3<L, R>`: everything else. -/
def is_case3 (L R : ElemType) : Bool := !(is_case1 L R || is_case2 L R)

/-- The overload set `ar_eq(len, l, r)`, selected by `is_case1..3`. -/
def ar_eq (L R : ElemType) (m : Mem α) (len l r : Nat) : Option Bool :=
  if is_case1 L R then (char_traits_compare m l r len).map (fun c => decide (c = 0))
  else if is_case2 L R then (memcmp m l r len).map (fun c => decide (c = 0))
  else generic_eq L R m len l r

/-- The overload set `ar_lt(len, l, r)`, selected by `is_case1..3`. -/
def ar_lt (L R : ElemType) (m : Mem α) (len l r : Nat) : Option Bool :=
  if is_case1 L R then (char_traits_compare m l r len).map (fun c => decide (c < 0))
  else if is_case2 L R then (memcmp m l r len).map (fun c => decide (c < 0))
  else generic_lt L R m len l r

/-- The overload set `ar_eq_`: scalars take the identical-address shortcut
`same_ptr(l, r) || ar_eq(len, l, r)`, other types call `ar_eq` alone. -/
def ar_eq_ (L R : ElemType) (m : Mem α) (len l r : Nat) : Option Bool :=
  if is_scalar L && is_scalar R then
    (if same_ptr l r then some true else ar_eq L R m len l r)
  else ar_eq L R m len l r

/-- The overload set `ar_lt_`: scalars take `!same_ptr(l, r) && ar_lt(len, l, r)`,
other types call `ar_lt` alone. -/
def ar_lt_ (L R : ElemType) (m : Mem α) (len l r : Nat) : Option Bool :=
  if is_scalar L && is_scalar R then
    (if !same_ptr l r then ar_lt L R m len l r else some false)
  else ar_lt L R m len l r

/-- The comparison `eq`: `l_len == r_len && ar_eq_(l_len, l, r)`. -/
def eq (L R : ElemType) (m : Mem α) (l_len l r_len r : Nat) : Option Bool :=
  if l_len = r_len then ar_eq_ L R m l_len l r else some false

/-- The comparison `eq_not`: `!eq(l_len, l, r_len, r)`. -/
def eq_not (L R : ElemType) (m : Mem α) (l_len l r_len r : Nat) : Option Bool :=
  (eq L R m l_len l r_len r).map not

/-- The comparison `lt`: `l_len < r_len || (l_len == r_len && ar_lt_(l_len, l, r))`. -/
def lt (L R : ElemType) (m : Mem α) (l_len l r_len r : Nat) : Option Bool :=
  if l_len < r_len then some true
  else if l_len = r_len then ar_lt_ L R m l_len l r else some false

/-- The comparison `gt`: `lt(r_len, r, l_len, l)`. -/
def gt (L R : ElemType) (m : Mem α) (l_len l r_len r : Nat) : Option Bool :=
  lt R L m r_len r l_len l

/-- The comparison `lt_eq`: `!lt(r_len, r, l_len, l)`. -/
def lt_eq (L R : ElemType) (m : Mem α) (l_len l r_len r : Nat) : Option Bool :=
  (lt R L m r_len r l_len l).map not

/-- The comparison `gt_eq`: `!lt(l_len, l, r_len, r)`. -/
def gt_eq (L R : ElemType) (m : Mem α) (l_len l r_len r : Nat) : Option Bool :=
  (lt L R m l_len l r_len r).map not

/-! ## `parray_traits`: null-terminated strings

The C++ overloads of one name are told apart by a suffix: no suffix for
`(L*, R*)`, `_n` for `(size_t l_len, L* l, R* r)`, `_rn` for `(L* l, size_t r_len, R* r)`. -/

variable [Zero α]

/-- The loop of `ntbs_ar_eq(L* l, R* r)`; `0` is the value-initialised `l_nul`. -/
def ntbs_ar_eq_loop (L R : ElemType) (m : Mem α) : Nat → Nat → Nat → Option Bool
  | 0, _, _ => none
  | fuel + 1, l, r =>
    match deref m l, deref m r with
    | some a, some b =>
      if elem_eq L R a b then
        if !elem_eq L (remove_cv L) a 0 then ntbs_ar_eq_loop L R m fuel (l + 1) (r + 1)
        else some true
      else some false
    | _, _ => none

/-- The function `ntbs_ar_eq(L* l, R* r)`. -/
def ntbs_ar_eq (L R : ElemType) (m : Mem α) (l r : Nat) : Option Bool :=
  ntbs_ar_eq_loop L R m (m.length + 1) l r

/-- The loop of `ntbs_ar_eq(size_t l_len, L* l, R* r)`: `*r` is read first, `*l` only
when neither side is done. -/
def ntbs_ar_eq_n_loop (L R : ElemType) (m : Mem α) (l_end : Nat) : Nat → Nat → Nat → Option Bool
  | 0, _, _ => none
  | fuel + 1, l, r =>
    match deref m r with
    | none => none
    | some b =>
      let l_done := decide (l = l_end)
      let r_done := elem_eq R (remove_cv R) b 0
      if l_done || r_done then some (l_done && r_done)
      else
        match deref m l with
        | none => none
        | some a =>
          if !elem_eq L R a b then some false
          else ntbs_ar_eq_n_loop L R m l_end fuel (l + 1) (r + 1)

/-- The function `ntbs_ar_eq(size_t l_len, L* l, R* r)`. -/
def ntbs_ar_eq_n (L R : ElemType) (m : Mem α) (l_len l r : Nat) : Option Bool :=
  ntbs_ar_eq_n_loop L R m (l + l_len) (m.length + 1) l r

/-- The inner loop of `ntbs_ar_lt(L* l, R* r)`, entered after the first difference with
`lexicographical_lt` already computed: walks both tails to see which side ends first. -/
def ntbs_ar_lt_tail (L R : ElemType) (m : Mem α) (lexicographical_lt : Bool) :
    Nat → Nat → Nat → Option Bool
  | 0, _, _ => none
  | fuel + 1, l, r =>
    match deref m l, deref m r with
    | some a, some b =>
      let l_done := elem_eq L (remove_cv L) a 0
      let r_done := elem_eq R (remove_cv R) b 0
      if l_done || r_done then some (if l_done && r_done then lexicographical_lt else l_done)
      else ntbs_ar_lt_tail L R m lexicographical_lt fuel (l + 1) (r + 1)
    | _, _ => none

/-- The outer loop of `ntbs_ar_lt(L* l, R* r)`. -/
def ntbs_ar_lt_loop (L R : ElemType) (m : Mem α) : Nat → Nat → Nat → Option Bool
  | 0, _, _ => none
  | fuel + 1, l, r =>
    match deref m l, deref m r with
    | some a, some b =>
      if elem_eq L R a b then
        if !elem_eq L (remove_cv L) a 0 then ntbs_ar_lt_loop L R m fuel (l + 1) (r + 1)
        else some false
      else
        if elem_eq L (remove_cv L) a 0 then some true
        else if elem_eq R (remove_cv R) b 0 then some false
        else ntbs_ar_lt_tail L R m (elem_lt L R a b) fuel (l + 1) (r + 1)
    | _, _ => none

/-- The function `ntbs_ar_lt(L* l, R* r)`. -/
def ntbs_ar_lt (L R : ElemType) (m : Mem α) (l r : Nat) : Option Bool :=
  ntbs_ar_lt_loop L R m (m.length + 1) l r

/-- The inner loop of `ntbs_ar_lt(size_t l_len, L* l, R* r)`. -/
def ntbs_ar_lt_n_tail (R : ElemType) (m : Mem α) (l_end : Nat) (lexicographical_lt : Bool) :
    Nat → Nat → Nat → Option Bool
  | 0, _, _ => none
  | fuel + 1, l, r =>
    match deref m r with
    | none => none
    | some b =>
      let l_done := decide (l = l_end)
      let r_done := elem_eq R (remove_cv R) b 0
      if l_done || r_done then some (if l_done && r_done then lexicographical_lt else l_done)
      else ntbs_ar_lt_n_tail R m l_end lexicographical_lt fuel (l + 1) (r + 1)

/-- The outer loop of `ntbs_ar_lt(size_t l_len, L* l, R* r)`. -/
def ntbs_ar_lt_n_loop (L R : ElemType) (m : Mem α) (l_end : Nat) : Nat → Nat → Nat → Option Bool
  | 0, _, _ => none
  | fuel + 1, l, r =>
    match deref m r with
    | none => none
    | some b =>
      let l_done := decide (l = l_end)
      let r_done := elem_eq R (remove_cv R) b 0
      if l_done || r_done then some (l_done && !r_done)
      else
        match deref m l with
        | none => none
        | some a =>
          if !elem_eq L R a b then
            ntbs_ar_lt_n_tail R m l_end (elem_lt L R a b) fuel (l + 1) (r + 1)
          else ntbs_ar_lt_n_loop L R m l_end fuel (l + 1) (r + 1)

/-- The function `ntbs_ar_lt(size_t l_len, L* l, R* r)`. -/
def ntbs_ar_lt_n (L R : ElemType) (m : Mem α) (l_len l r : Nat) : Option Bool :=
  ntbs_ar_lt_n_loop L R m (l + l_len) (m.length + 1) l r

/-- The inner loop of `ntbs_ar_lt(L* l, size_t r_len, R* r)`. -/
def ntbs_ar_lt_rn_tail (L : ElemType) (m : Mem α) (r_end : Nat) (lexicographical_lt : Bool) :
    Nat → Nat → Nat → Option Bool
  | 0, _, _ => none
  | fuel + 1, l, r =>
    match deref m l with
    | none => none
    | some a =>
      let l_done := elem_eq L (remove_cv L) a 0
      let r_done := decide (r = r_end)
      if l_done || r_done then some (if l_done && r_done then lexicographical_lt else l_done)
      else ntbs_ar_lt_rn_tail L m r_end lexicographical_lt fuel (l + 1) (r + 1)

/-- The outer loop of `ntbs_ar_lt(L* l, size_t r_len, R* r)`. -/
def ntbs_ar_lt_rn_loop (L R : ElemType) (m : Mem α) (r_end : Nat) : Nat → Nat → Nat → Option Bool
  | 0, _, _ => none
  | fuel + 1, l, r =>
    match deref m l with
    | none => none
    | some a =>
      let l_done := elem_eq L (remove_cv L) a 0
      let r_done := decide (r = r_end)
      if l_done || r_done then some (l_done && !r_done)
      else
        match deref m r with
        | none => none
        | some b =>
          if !elem_eq L R a b then
            ntbs_ar_lt_rn_tail L m r_end (elem_lt L R a b) fuel (l + 1) (r + 1)
          else ntbs_ar_lt_rn_loop L R m r_end fuel (l + 1) (r + 1)

/-- The function `ntbs_ar_lt(L* l, size_t r_len, R* r)`. -/
def ntbs_ar_lt_rn (L R : ElemType) (m : Mem α) (l r_len r : Nat) : Option Bool :=
  ntbs_ar_lt_rn_loop L R m (r + r_len) (m.length + 1) l r

/-- The overload set `ntbs_ar_eq_`: `same_ptr(l, r) || ntbs_ar_eq(l, r)` for scalars. -/
def ntbs_ar_eq_ (L R : ElemType) (m : Mem α) (l r : Nat) : Option Bool :=
  if is_scalar L && is_scalar R then
    (if same_ptr l r then some true else ntbs_ar_eq L R m l r)
  else ntbs_ar_eq L R m l r

/-- The overload set `ntbs_ar_lt_`: `!same_ptr(l, r) && ntbs_ar_lt(l, r)` for scalars. -/
def ntbs_ar_lt_ (L R : ElemType) (m : Mem α) (l r : Nat) : Option Bool :=
  if is_scalar L && is_scalar R then
    (if !same_ptr l r then ntbs_ar_lt L R m l r else some false)
  else ntbs_ar_lt L R m l r

/-- The loop shared by both `ntbs_len` overloads: count elements up to the first one
equal to the zero value. -/
def ntbs_len_loop (T : ElemType) (m : Mem α) : Nat → Nat → Nat → Option Nat
  | 0, _, _ => none
  | fuel + 1, p, count =>
    match deref m p with
    | none => none
    | some a =>
      if !elem_eq T (remove_cv T) a 0 then ntbs_len_loop T m fuel (p + 1) (count + 1)
      else some count

/-- The standard function `char_traits<C>::length(p)`: the index of the first element
equal to `C()`. -/
def char_traits_length (m : Mem α) : Nat → Nat → Nat → Option Nat
  | 0, _, _ => none
  | fuel + 1, p, i =>
    match deref m p with
    | none => none
    | some a => if char_traits_eq a 0 then some i else char_traits_length m fuel (p + 1) (i + 1)

/-- The overload set `ntbs_len(p)`: `char_traits::length` for non-volatile characters,
the counting loop otherwise. -/
def ntbs_len (T : ElemType) (m : Mem α) (p : Nat) : Option Nat :=
  if is_char T && !T.is_volatile then char_traits_length m (m.length + 1) p 0
  else ntbs_len_loop T m (m.length + 1) p 0

/-- The comparison `ntbs_eq(L* l, R* r)`. -/
def ntbs_eq (L R : ElemType) (m : Mem α) (l r : Nat) : Option Bool := ntbs_ar_eq_ L R m l r

/-- The comparison `ntbs_not_eq(L* l, R* r)`. -/
def ntbs_not_eq (L R : ElemType) (m : Mem α) (l r : Nat) : Option Bool :=
  (ntbs_eq L R m l r).map not

/-- The comparison `ntbs_lt(L* l, R* r)`. -/
def ntbs_lt (L R : ElemType) (m : Mem α) (l r : Nat) : Option Bool := ntbs_ar_lt_ L R m l r

/-- The comparison `ntbs_gt(L* l, R* r)`: `ntbs_lt(r, l)`. -/
def ntbs_gt (L R : ElemType) (m : Mem α) (l r : Nat) : Option Bool := ntbs_lt R L m r l

/-- The comparison `ntbs_lt_eq(L* l, R* r)`: `!ntbs_lt(r, l)`. -/
def ntbs_lt_eq (L R : ElemType) (m : Mem α) (l r : Nat) : Option Bool :=
  (ntbs_lt R L m r l).map not

/-- The comparison `ntbs_gt_eq(L* l, R* r)`: `!ntbs_lt(l, r)`. -/
def ntbs_gt_eq (L R : ElemType) (m : Mem α) (l r : Nat) : Option Bool :=
  (ntbs_lt L R m l r).map not

/-- The comparison `ntbs_eq(size_t l_len, L* l, R* r)`. -/
def ntbs_eq_n (L R : ElemType) (m : Mem α) (l_len l r : Nat) : Option Bool :=
  ntbs_ar_eq_n L R m l_len l r

/-- The comparison `ntbs_not_eq(size_t l_len, L* l, R* r)`. -/
def ntbs_not_eq_n (L R : ElemType) (m : Mem α) (l_len l r : Nat) : Option Bool :=
  (ntbs_eq_n L R m l_len l r).map not

/-- The comparison `ntbs_lt(size_t l_len, L* l, R* r)`. -/
def ntbs_lt_n (L R : ElemType) (m : Mem α) (l_len l r : Nat) : Option Bool :=
  ntbs_ar_lt_n L R m l_len l r

/-- The comparison `ntbs_lt(L* l, size_t r_len, R* r)`. -/
def ntbs_lt_rn (L R : ElemType) (m : Mem α) (l r_len r : Nat) : Option Bool :=
  ntbs_ar_lt_rn L R m l r_len r

/-- The comparison `ntbs_gt(size_t l_len, L* l, R* r)`: `ntbs_lt(r, l_len, l)`. -/
def ntbs_gt_n (L R : ElemType) (m : Mem α) (l_len l r : Nat) : Option Bool :=
  ntbs_lt_rn R L m r l_len l

/-- The comparison `ntbs_lt_eq(size_t l_len, L* l, R* r)`: `!ntbs_lt(r, l_len, l)`. -/
def ntbs_lt_eq_n (L R : ElemType) (m : Mem α) (l_len l r : Nat) : Option Bool :=
  (ntbs_lt_rn R L m r l_len l).map not

/-- The comparison `ntbs_gt_eq(size_t l_len, L* l, R* r)`: `!ntbs_lt(l_len, l, r)`. -/
def ntbs_gt_eq_n (L R : ElemType) (m : Mem α) (l_len l r : Nat) : Option Bool :=
  (ntbs_lt_n L R m l_len l r).map not

/-- The comparison `ntbs_eq(L* l, size_t r_len, R* r)`: `ntbs_eq(r_len, r, l)`. -/
def ntbs_eq_rn (L R : ElemType) (m : Mem α) (l r_len r : Nat) : Option Bool :=
  ntbs_eq_n R L m r_len r l

/-- The comparison `ntbs_not_eq(L* l, size_t r_len, R* r)`. -/
def ntbs_not_eq_rn (L R : ElemType) (m : Mem α) (l r_len r : Nat) : Option Bool :=
  (ntbs_eq_rn L R m l r_len r).map not

/-- The comparison `ntbs_gt(L* l, size_t r_len, R* r)`: `ntbs_lt(r_len, r, l)`. -/
def ntbs_gt_rn (L R : ElemType) (m : Mem α) (l r_len r : Nat) : Option Bool :=
  ntbs_lt_n R L m r_len r l

/-- The comparison `ntbs_lt_eq(L* l, size_t r_len, R* r)`: `!ntbs_lt(r_len, r, l)`. -/
def ntbs_lt_eq_rn (L R : ElemType) (m : Mem α) (l r_len r : Nat) : Option Bool :=
  (ntbs_lt_n R L m r_len r l).map not

/-- The comparison `ntbs_gt_eq(L* l, size_t r_len, R* r)`: `!ntbs_lt(l, r_len, r)`. -/
def ntbs_gt_eq_rn (L R : ElemType) (m : Mem α) (l r_len r : Nat) : Option Bool :=
  (ntbs_lt_rn L R m l r_len r).map not

end parray_traits

/-- A sequence terminated at offset `n`: the address `p + n` holds the zero value and the
`n` addresses before it hold non-zero elements. -/
def terminated_at {α : Type} [Zero α] (m : Mem α) (p n : Nat) : Prop :=
  deref m (p + n) = some 0 ∧
    ∀ i, i < n → (deref m (p + i)).isSome = true ∧ deref m (p + i) ≠ some 0

instance {α : Type} [Zero α] [DecidableEq α] (m : Mem α) (p n : Nat) :
    Decidable (terminated_at m p n) := by
  unfold terminated_at; infer_instance

/-! ## The view type -/

/-- The view `parray<T>`: a length and a pointer; `p` is not used when `len = 0`. -/
structure parray (T : ElemType) where
  len : Nat
  p : Nat
  deriving DecidableEq

namespace parray

variable {α : Type} [LinearOrder α] {T E : ElemType}

/-- The constant `parray::zero()`: length 0 and a null pointer. -/
def zero (T : ElemType) : parray T := ⟨0, nullptr⟩

/-- The accessor `size()`. -/
def size (v : parray T) : Nat := v.len

/-- The accessor `empty()`. -/
def empty (v : parray T) : Bool := decide (v.len = 0)

/-- The accessor `operator[]`: `p[i]`, unchecked. -/
def index (m : Mem α) (v : parray T) (i : Nat) : Option α := deref m (v.p + i)

/-- The operator `l == r` on two views. -/
def op_eq (m : Mem α) (l : parray T) (r : parray E) : Option Bool :=
  parray_traits.eq T E m l.len l.p r.len r.p

/-- The operator `l != r` on two views. -/
def op_ne (m : Mem α) (l : parray T) (r : parray E) : Option Bool :=
  parray_traits.eq_not T E m l.len l.p r.len r.p

/-- The operator `l < r` on two views. -/
def op_lt (m : Mem α) (l : parray T) (r : parray E) : Option Bool :=
  parray_traits.lt T E m l.len l.p r.len r.p

/-- The operator `l > r` on two views. -/
def op_gt (m : Mem α) (l : parray T) (r : parray E) : Option Bool :=
  parray_traits.gt T E m l.len l.p r.len r.p

/-- The operator `l <= r` on two views. -/
def op_le (m : Mem α) (l : parray T) (r : parray E) : Option Bool :=
  parray_traits.lt_eq T E m l.len l.p r.len r.p

/-- The operator `l >= r` on two views. -/
def op_ge (m : Mem α) (l : parray T) (r : parray E) : Option Bool :=
  parray_traits.gt_eq T E m l.len l.p r.len r.p

/-- Every element of the view can be read: addresses `p .. p + len - 1` hold elements. -/
def readable (m : Mem α) (v : parray T) : Prop :=
  ∀ i, i < v.len → (deref m (v.p + i)).isSome = true

instance (m : Mem α) (v : parray T) : Decidable (readable m v) := by
  unfold readable; infer_instance

end parray

/-! ## Null-terminated string handles -/

/-- The handle `ntbs_t<T>`: a pointer to a run of elements ended by the zero value. -/
structure ntbs_t (T : ElemType) where
  p : Nat
  deriving DecidableEq

/-- The function `ntbs(p)`. -/
def ntbs (T : ElemType) (p : Nat) : ntbs_t T := ⟨p⟩

/-- The function `ntba(r)` on a character array of `len > 0` elements at address `r`:
the view `{len - 1, r}`. -/
def ntba (T : ElemType) (len r : Nat) : parray T := ⟨len - 1, r⟩

namespace ntbs_t

variable {α : Type} [LinearOrder α] [Zero α] {T E : ElemType}

/-- The explicit conversion to a view: `{Traits::ntbs_len(p), p}`. -/
def to_parray (m : Mem α) (s : ntbs_t T) : Option (parray T) :=
  (parray_traits.ntbs_len T m s.p).map (fun n => ⟨n, s.p⟩)

/-- The operator `l == r` on two handles. -/
def op_eq (m : Mem α) (l : ntbs_t T) (r : ntbs_t E) : Option Bool :=
  parray_traits.ntbs_eq T E m l.p r.p

/-- The operator `l != r` on two handles. -/
def op_ne (m : Mem α) (l : ntbs_t T) (r : ntbs_t E) : Option Bool :=
  parray_traits.ntbs_not_eq T E m l.p r.p

/-- The operator `l < r` on two handles. -/
def op_lt (m : Mem α) (l : ntbs_t T) (r : ntbs_t E) : Option Bool :=
  parray_traits.ntbs_lt T E m l.p r.p

/-- The operator `l > r` on two handles. -/
def op_gt (m : Mem α) (l : ntbs_t T) (r : ntbs_t E) : Option Bool :=
  parray_traits.ntbs_gt T E m l.p r.p

/-- The operator `l <= r` on two handles. -/
def op_le (m : Mem α) (l : ntbs_t T) (r : ntbs_t E) : Option Bool :=
  parray_traits.ntbs_lt_eq T E m l.p r.p

/-- The operator `l >= r` on two handles. -/
def op_ge (m : Mem α) (l : ntbs_t T) (r : ntbs_t E) : Option Bool :=
  parray_traits.ntbs_gt_eq T E m l.p r.p

/-- The operator `l == r`, handle against view. -/
def op_eq_parray (m : Mem α) (l : ntbs_t T) (r : parray E) : Option Bool :=
  parray_traits.ntbs_eq_rn T E m l.p r.len r.p

/-- The operator `l < r`, handle against view. -/
def op_lt_parray (m : Mem α) (l : ntbs_t T) (r : parray E) : Option Bool :=
  parray_traits.ntbs_lt_rn T E m l.p r.len r.p

/-- The operator `l > r`, handle against view. -/
def op_gt_parray (m : Mem α) (l : ntbs_t T) (r : parray E) : Option Bool :=
  parray_traits.ntbs_gt_rn T E m l.p r.len r.p

/-- The operator `l == r`, view against handle. -/
def parray_op_eq (m : Mem α) (l : parray E) (r : ntbs_t T) : Option Bool :=
  parray_traits.ntbs_eq_n E T m l.len l.p r.p

/-- The operator `l < r`, view against handle. -/
def parray_op_lt (m : Mem α) (l : parray E) (r : ntbs_t T) : Option Bool :=
  parray_traits.ntbs_lt_n E T m l.len l.p r.p

/-- The operator `l > r`, view against handle. -/
def parray_op_gt (m : Mem α) (l : parray E) (r : ntbs_t T) : Option Bool :=
  parray_traits.ntbs_gt_n E T m l.len l.p r.p

end ntbs_t

/-! ## Iterators and the standard algorithms used by the tools -/

/-- An iterator of the tools: a raw pointer `T*`, or a `std::reverse_iterator<T*>`, held by
its `base()`; a reverse iterator reads the element just before its base. -/
inductive Iter where
  | ptr (p : Nat)
  | rev (base : Nat)
  deriving DecidableEq

namespace Iter

/-- The read `*it`. -/
def deref {α : Type} (m : Mem α) : Iter → Option α
  | ptr p => adv.deref m p
  | rev b => if b = 0 then none else adv.deref m (b - 1)

/-- The step `++it`. -/
def next : Iter → Iter
  | ptr p => ptr (p + 1)
  | rev b => rev (b - 1)

/-- The underlying pointer: the pointer itself, or `base()` of a reverse iterator. -/
def base : Iter → Nat
  | ptr p => p
  | rev b => b

/-- The value-initialised iterator `I()` of the same kind: a null pointer. -/
def null : Iter → Iter
  | ptr _ => ptr nullptr
  | rev _ => rev nullptr

/-- The difference `last - first`. -/
def dist : Iter → Iter → Nat
  | ptr p, ptr e => e - p
  | rev b, rev e => b - e
  | _, _ => 0

end Iter

/-- The loop of `std::find_if(first, last, pred)`; the predicate may read memory. A range
whose end is not reached within `last - first` steps is not a valid range. -/
def find_if_loop {α : Type} (m : Mem α) (pred : α → Option Bool) (last : Iter) :
    Nat → Iter → Option Iter
  | 0, first => if first = last then some first else none
  | n + 1, first =>
    if first = last then some first
    else
      match first.deref m with
      | none => none
      | some a =>
        match pred a with
        | none => none
        | some true => some first
        | some false => find_if_loop m pred last n first.next

/-- The algorithm `std::find_if(first, last, pred)`. -/
def find_if {α : Type} (m : Mem α) (first last : Iter) (pred : α → Option Bool) : Option Iter :=
  find_if_loop m pred last (first.dist last) first

/-- The algorithm `std::find(first, last, value)`: the first position with `*i == value`. -/
def find {α : Type} [DecidableEq α] (m : Mem α) (first last : Iter) (value : α) : Option Iter :=
  find_if m first last (fun a => some (decide (a = value)))

/-- The algorithm `std::find_first_of(first, last, s_first, s_last)`: the first position whose
element equals some element of `[s_first, s_last)`. -/
def find_first_of {α : Type} [DecidableEq α] (m : Mem α) (first last s_first s_last : Iter) :
    Option Iter :=
  find_if m first last
    (fun a => (find m s_first s_last a).map (fun j => decide (j ≠ s_last)))

/-! ## Delimiters -/

/-- The delimiter `single_delim<T>`: one value. -/
structure single_delim (α : Type) where
  delim : α

namespace single_delim

variable {α : Type} [DecidableEq α]

/-- The member `find_first(p, p_end)`: `find(p, p_end, delim)`. -/
def find_first (d : single_delim α) (m : Mem α) (p p_end : Iter) : Option Iter :=
  find m p p_end d.delim

/-- The member `skip_all(p, p_end)`: `find_if` with `v != delim`. -/
def skip_all (d : single_delim α) (m : Mem α) (p p_end : Iter) : Option Iter :=
  find_if m p p_end (fun v => some (decide (v ≠ d.delim)))

/-- The member `skip_one(p)`: `++p`. -/
def skip_one (_d : single_delim α) (p : Iter) : Iter := p.next

end single_delim

/-- The delimiter `multi_delim<E>`: any value of a view. -/
structure multi_delim (E : ElemType) where
  delim : parray E

namespace multi_delim

variable {α : Type} [DecidableEq α] {E : ElemType}

/-- The member `find_first(p, p_end)`: `find_first_of` over the delimiter view. -/
def find_first (d : multi_delim E) (m : Mem α) (p p_end : Iter) : Option Iter :=
  find_first_of m p p_end (Iter.ptr d.delim.p) (Iter.ptr (d.delim.p + d.delim.len))

/-- The member `skip_all(p, p_end)`: `find_if` with `find(delim.p, d_end, v) == d_end`. -/
def skip_all (d : multi_delim E) (m : Mem α) (p p_end : Iter) : Option Iter :=
  find_if m p p_end
    (fun v => (find m (Iter.ptr d.delim.p) (Iter.ptr (d.delim.p + d.delim.len)) v).map
      (fun j => decide (j = Iter.ptr (d.delim.p + d.delim.len))))

/-- The member `skip_one(p)`: `++p`. -/
def skip_one (_d : multi_delim E) (p : Iter) : Iter := p.next

end multi_delim

/-- The integer type `IntT` of a bitmap delimiter: its width and signedness. -/
structure IntT where
  bits : Nat
  is_signed : Bool
  deriving DecidableEq

/-- The conversion `IntT tmp = v` of an integer value: reduction modulo `2 ^ bits`, into the
signed range when `IntT` is signed. -/
def IntT.convert (t : IntT) (v : Int) : Int :=
  if t.is_signed then (v + 2 ^ (t.bits - 1)) % 2 ^ t.bits - 2 ^ (t.bits - 1)
  else v % 2 ^ t.bits

/-- The width of `unsigned`, the parameter type of `idx_`, `mask_`, `set_`, `clr_`, `get_`. -/
def unsigned_bits : Nat := 32

/-- The width of `int`, the type that narrower integer types are promoted to. -/
def int_bits : Nat := 32

/-- The integral promotion of `IntT`, the type in which `maxV - minV` and `maxV - minV + 1`
are computed: `int` for a type narrower than `int`, the type itself otherwise. -/
def IntT.promote (t : IntT) : IntT := if t.bits < int_bits then ⟨int_bits, true⟩ else t

/-- The conversion of an `int` expression to `unsigned`. -/
def to_unsigned (v : Int) : Nat := (v % 2 ^ unsigned_bits).toNat

/-- The delimiter `bitset_delim<IntT, minV, maxV>`: the template arguments, the platform's
`chunk_bits = sizeof(unsigned long) * CHAR_BIT`, and the `data` array of chunks. -/
structure bitset_delim where
  int_t : IntT
  minV : Int
  maxV : Int
  chunk_bits : Nat
  data : List Nat
  deriving DecidableEq

namespace bitset_delim

/-- The constant `chunk_count = ((maxV - minV + 1) + chunk_bits - 1) / chunk_bits`. The
difference `maxV - minV` and the sum `maxV - minV + 1` are values of the promoted `IntT` and
wrap there: for `IntT = unsigned` and the range `[0, 2 ^ 32 - 1]` the sum is `0`, and so is
`chunk_count`. The sum with `chunk_bits` and the division are taken in `size_t`, which is wide
enough for the sums that arise from a 32-bit difference; a negative intermediate value
(overflow of a signed `IntT`) gives no chunks. -/
def chunk_count (int_t : IntT) (minV maxV : Int) (chunk_bits : Nat) : Nat :=
  ((int_t.promote.convert (int_t.promote.convert (maxV - minV) + 1) + chunk_bits - 1)
    / chunk_bits).toNat

/-- The helper `idx_(i)`. -/
def idx_ (b : bitset_delim) (i : Nat) : Nat := i / b.chunk_bits

/-- The helper `mask_(i)`: `1ul << (i % chunk_bits)`. -/
def mask_ (b : bitset_delim) (i : Nat) : Nat := 1 <<< (i % b.chunk_bits)

/-- The helper `set_(i)`: `data[idx_(i)] |= mask_(i)`. -/
def set_ (b : bitset_delim) (i : Nat) : bitset_delim :=
  ⟨b.int_t, b.minV, b.maxV, b.chunk_bits,
    List.set b.data (b.idx_ i) (b.data.getD (b.idx_ i) 0 ||| b.mask_ i)⟩

/-- The helper `clr_(i)`: `data[idx_(i)] &= ~mask_(i)`. -/
def clr_ (b : bitset_delim) (i : Nat) : bitset_delim :=
  ⟨b.int_t, b.minV, b.maxV, b.chunk_bits,
    List.set b.data (b.idx_ i) (b.data.getD (b.idx_ i) 0 &&& (2 ^ b.chunk_bits - 1 - b.mask_ i))⟩

/-- The helper `get_(i)`: `data[idx_(i)] & mask_(i)` is non-zero. -/
def get_ (b : bitset_delim) (i : Nat) : Bool :=
  decide (b.data.getD (b.idx_ i) 0 &&& b.mask_ i ≠ 0)

/-- The member `clear_all()`. -/
def clear_all (b : bitset_delim) : bitset_delim :=
  ⟨b.int_t, b.minV, b.maxV, b.chunk_bits, List.replicate b.data.length 0⟩

/-- The member `set_all()`. -/
def set_all (b : bitset_delim) : bitset_delim :=
  ⟨b.int_t, b.minV, b.maxV, b.chunk_bits, List.replicate b.data.length (2 ^ b.chunk_bits - 1)⟩

/-- The default constructor: `chunk_count` chunks, all cleared. -/
def mk_empty (int_t : IntT) (minV maxV : Int) (chunk_bits : Nat) : bitset_delim :=
  ⟨int_t, minV, maxV, chunk_bits, List.replicate (chunk_count int_t minV maxV chunk_bits) 0⟩

/-- The member `set_bit(v)`, on the integer value of `v`. -/
def set_bit (b : bitset_delim) (v : Int) : bitset_delim :=
  let tmp := b.int_t.convert v
  if b.minV ≤ tmp ∧ tmp ≤ b.maxV then b.set_ (to_unsigned (tmp - b.minV)) else b

/-- The member `clear_bit(v)`, on the integer value of `v`. -/
def clear_bit (b : bitset_delim) (v : Int) : bitset_delim :=
  let tmp := b.int_t.convert v
  if b.minV ≤ tmp ∧ tmp ≤ b.maxV then b.clr_ (to_unsigned (tmp - b.minV)) else b

/-- The member `is_set(v)`, on the integer value of `v`. -/
def is_set (b : bitset_delim) (v : Int) : Bool :=
  let tmp := b.int_t.convert v
  if b.minV ≤ tmp ∧ tmp ≤ b.maxV then b.get_ (to_unsigned (tmp - b.minV)) else false

/-- The loop of the constructor from a view: `set_bit(v[i])` for `i = 0 .. len - 1`. -/
def of_parray_loop {α : Type} (val : α → Int) (m : Mem α) :
    Nat → Nat → bitset_delim → Option bitset_delim
  | 0, _, b => some b
  | n + 1, p, b =>
    match adv.deref m p with
    | none => none
    | some a => of_parray_loop val m n (p + 1) (b.set_bit (val a))

/-- The constructor `bitset_delim(parray v)`; `val` is the integer value of an element. -/
def of_parray {α : Type} {T : ElemType} (int_t : IntT) (minV maxV : Int) (chunk_bits : Nat)
    (val : α → Int) (m : Mem α) (v : parray T) : Option bitset_delim :=
  of_parray_loop val m v.len v.p (mk_empty int_t minV maxV chunk_bits)

/-- The member `find_first(p, p_end)`: `find_if` with `is_set(v)`. -/
def find_first {α : Type} (b : bitset_delim) (val : α → Int) (m : Mem α) (p p_end : Iter) :
    Option Iter :=
  find_if m p p_end (fun v => some (b.is_set (val v)))

/-- The member `skip_all(p, p_end)`: `find_if` with `!is_set(v)`. -/
def skip_all {α : Type} (b : bitset_delim) (val : α → Int) (m : Mem α) (p p_end : Iter) :
    Option Iter :=
  find_if m p p_end (fun v => some (!b.is_set (val v)))

/-- The member `skip_one(p)`: `++p`. -/
def skip_one (_b : bitset_delim) (p : Iter) : Iter := p.next

end bitset_delim

/-- A delimiter argument `D` of the split functions: one of the three delimiter classes. For
the bitmap, `val` gives the integer value that an element converts to. -/
inductive Delim (α : Type) where
  | single (d : single_delim α)
  | multi {E : ElemType} (d : multi_delim E)
  | bitset (d : bitset_delim) (val : α → Int)

namespace Delim

variable {α : Type} [DecidableEq α]

/-- The call `delim.find_first(p, p_end)`. -/
def find_first (d : Delim α) (m : Mem α) (p p_end : Iter) : Option Iter :=
  match d with
  | single s => s.find_first m p p_end
  | multi s => s.find_first m p p_end
  | bitset b val => b.find_first val m p p_end

/-- The call `delim.skip_all(p, p_end)`. -/
def skip_all (d : Delim α) (m : Mem α) (p p_end : Iter) : Option Iter :=
  match d with
  | single s => s.skip_all m p p_end
  | multi s => s.skip_all m p p_end
  | bitset b val => b.skip_all val m p p_end

/-- The call `delim.skip_one(p)`. -/
def skip_one (d : Delim α) (p : Iter) : Iter :=
  match d with
  | single s => s.skip_one p
  | multi s => s.skip_one p
  | bitset b _ => b.skip_one p

/-- Whether an element is a delimiter occurrence: equal to the single value, equal to one
of the values of the view, or a value whose bit is set. -/
def is_match (d : Delim α) (m : Mem α) (a : α) : Bool :=
  match d with
  | single s => decide (a = s.delim)
  | multi s => decide (∃ i, i < s.delim.len ∧ deref m (s.delim.p + i) = some a)
  | bitset b val => b.is_set (val a)

/-- The delimiter's own storage can be read: the view of a `multi_delim` is readable. -/
def readable (d : Delim α) (m : Mem α) : Prop :=
  match d with
  | multi s => ∀ i, i < s.delim.len → (deref m (s.delim.p + i)).isSome = true
  | _ => True

instance (d : Delim α) (m : Mem α) : Decidable (d.readable m) := by
  cases d <;> (unfold readable; infer_instance)

end Delim

/-! ## Split -/

section split
variable {α : Type} [DecidableEq α] {σ : Type} {T : ElemType}

/-- The loop of `split_(it, it_end, delim, f)`. The functor `f` is a state transformer: it
receives the sub-range and returns its new state and its `bool` result. -/
def split_ (m : Mem α) (delim : Delim α) (f : σ → Iter → Iter → σ × Bool) (it_end : Iter) :
    Nat → σ → Iter → Option (σ × Iter)
  | 0, _, _ => none
  | fuel + 1, s, it =>
    match delim.find_first m it it_end with
    | none => none
    | some p =>
      let r := f s it p
      if p = it_end then some (r.1, it.null)
      else
        let p1 := delim.skip_one p
        if r.2 then some (r.1, p1) else split_ m delim f it_end fuel r.1 p1

/-- The loop of `split_se_(it, it_end, delim, f)`. -/
def split_se_ (m : Mem α) (delim : Delim α) (f : σ → Iter → Iter → σ × Bool) (it_end : Iter) :
    Nat → Bool → σ → Iter → Option (σ × Iter)
  | 0, _, _, _ => none
  | fuel + 1, stop, s, it =>
    match delim.skip_all m it it_end with
    | none => none
    | some it1 =>
      if it1 = it_end then some (s, it1.null)
      else if stop then some (s, it1)
      else
        match delim.find_first m it1.next it_end with
        | none => none
        | some p =>
          let r := f s it1 p
          split_se_ m delim f it_end fuel r.2 r.1 p

/-- The callback form `split(v, delim, f)`: returns the functor's final state and the
pointer where it stopped (null when everything was processed). -/
def split_f (m : Mem α) (v : parray T) (delim : Delim α) (f : σ → parray T → σ × Bool)
    (s : σ) : Option (σ × Nat) :=
  (split_ m delim (fun s it it_end => f s ⟨it.dist it_end, it.base⟩)
    (Iter.ptr (v.p + v.len)) (v.len + 1) s (Iter.ptr v.p)).map (fun r => (r.1, r.2.base))

/-- The collecting form `split(v, delim)`: the `deque` of sub-arrays. -/
def split (m : Mem α) (v : parray T) (delim : Delim α) : Option (List (parray T)) :=
  (split_f m v delim (fun res v => (res ++ [v], false)) []).map Prod.fst

/-- The callback form `split_se(v, delim, f)`. -/
def split_se_f (m : Mem α) (v : parray T) (delim : Delim α) (f : σ → parray T → σ × Bool)
    (s : σ) : Option (σ × Nat) :=
  (split_se_ m delim (fun s it it_end => f s ⟨it.dist it_end, it.base⟩)
    (Iter.ptr (v.p + v.len)) (v.len + 2) false s (Iter.ptr v.p)).map
      (fun r => (r.1, r.2.base))

/-- The collecting form `split_se(v, delim)`. -/
def split_se (m : Mem α) (v : parray T) (delim : Delim α) : Option (List (parray T)) :=
  (split_se_f m v delim (fun res v => (res ++ [v], false)) []).map Prod.fst

/-- The callback form `rsplit(v, delim, f)`: `split_` over reverse iterators, each range
handed to `f` as `parray(it_end - it, it_end.base())`. -/
def rsplit_f (m : Mem α) (v : parray T) (delim : Delim α) (f : σ → parray T → σ × Bool)
    (s : σ) : Option (σ × Nat) :=
  (split_ m delim (fun s it it_end => f s ⟨it.dist it_end, it_end.base⟩)
    (Iter.rev v.p) (v.len + 1) s (Iter.rev (v.p + v.len))).map (fun r => (r.1, r.2.base))

/-- The collecting form `rsplit(v, delim)`. -/
def rsplit (m : Mem α) (v : parray T) (delim : Delim α) : Option (List (parray T)) :=
  (rsplit_f m v delim (fun res v => (res ++ [v], false)) []).map Prod.fst

/-- The callback form `rsplit_se(v, delim, f)`. -/
def rsplit_se_f (m : Mem α) (v : parray T) (delim : Delim α) (f : σ → parray T → σ × Bool)
    (s : σ) : Option (σ × Nat) :=
  (split_se_ m delim (fun s it it_end => f s ⟨it.dist it_end, it_end.base⟩)
    (Iter.rev v.p) (v.len + 2) false s (Iter.rev (v.p + v.len))).map
      (fun r => (r.1, r.2.base))

/-- The collecting form `rsplit_se(v, delim)`. -/
def rsplit_se (m : Mem α) (v : parray T) (delim : Delim α) : Option (List (parray T)) :=
  (rsplit_se_f m v delim (fun res v => (res ++ [v], false)) []).map Prod.fst

/-- The overload `split(v, argtype<T> delim)`: `split(v, single_delim<T>{delim})`. -/
def split_value (m : Mem α) (v : parray T) (delim : α) : Option (List (parray T)) :=
  split m v (Delim.single ⟨delim⟩)

/-- The overload `split(v, parray<E> delim)`: `split(v, multi_delim<E>{parray<E>(delim)})`. -/
def split_parray {E : ElemType} (m : Mem α) (v : parray T) (delim : parray E) :
    Option (List (parray T)) :=
  split m v (Delim.multi ⟨delim⟩)

end split

/-! ## Join -/

section join
variable {α : Type} {σ : Type} {T E : ElemType}

/-- The copy of the elements `[p, p + len)`, as `insert(end(r), v.p, v.p + v.len)`, `str()`
and `vec()` make it. -/
def read_range (m : Mem α) : Nat → Nat → Option (List α)
  | _, 0 => some []
  | p, n + 1 =>
    match deref m p, read_range m (p + 1) n with
    | some a, some xs => some (a :: xs)
    | _, _ => none

/-- The conversion `vec()`. -/
def parray.vec (m : Mem α) (v : parray T) : Option (List α) := read_range m v.p v.len

/-- The converting constructor `parray<T>(parray<E> o)`: same length and pointer. -/
def parray.cast (v : parray E) : parray T := ⟨v.len, v.p⟩

/-- The loop of `join_(it, it_end, delim, f)` after the first element: `f(delim); f(*it)`. -/
def join_rest (f : σ → parray T → σ) (delim : parray T) : List (parray T) → σ → σ
  | [], s => s
  | v :: rest, s => join_rest f delim rest (f (f s delim) v)

/-- The callback form `join_(it, it_end, delim, f)`; the range `[it, it_end)` is a list. -/
def join_f (f : σ → parray T → σ) (delim : parray T) : List (parray T) → σ → σ
  | [], s => s
  | v :: rest, s => join_rest f delim rest (f s v)

/-- The function `total_len_(it, it_end, delim)`. -/
def total_len_ (delim : Nat) : List (parray T) → Nat
  | [] => 0
  | v :: rest => rest.foldl (fun len w => len + (delim + w.len)) v.len

/-- The functor `[&r](auto v){ r.insert(end(r), v.p, v.p + v.len); }`. -/
def append_view (m : Mem α) (r : Option (List α)) (v : parray T) : Option (List α) :=
  match r, read_range m v.p v.len with
  | some r, some xs => some (r ++ xs)
  | _, _ => none

/-- The building form `join_<R>(it, it_end, delim)`: the buffer `r` after every insert
(`reserve` changes no element). -/
def join_ (m : Mem α) (segs : List (parray T)) (delim : parray E) : Option (List α) :=
  join_f (append_view m) delim.cast segs (some [])

/-- The overload `join<R>(it, it_end, T const& delim)`: the delimiter value is viewed in
place as `parray<T const>(1, &delim)`; the object `delim` sits in a fresh cell past the end
of `m`. -/
def join (m : Mem α) (segs : List (parray T)) (delim : α) : Option (List α) :=
  join_ (m ++ [some delim]) segs (⟨1, m.length⟩ : parray T)

/-- The overload `join<R>(it, it_end, parray<T> delim)`. -/
def join_parray (m : Mem α) (segs : List (parray T)) (delim : parray E) : Option (List α) :=
  join_ m segs delim

/-- The overload `rjoin<R>(it, it_end, T const& delim)`: `join_` over the reversed range. -/
def rjoin (m : Mem α) (segs : List (parray T)) (delim : α) : Option (List α) :=
  join_ (m ++ [some delim]) segs.reverse (⟨1, m.length⟩ : parray T)

/-- The overload `rjoin<R>(it, it_end, parray<T> delim)`. -/
def rjoin_parray (m : Mem α) (segs : List (parray T)) (delim : parray E) :
    Option (List α) :=
  join_ m segs.reverse delim

end join

/-! ## Bounded-buffer split -/

section split_buf
variable {α : Type} [DecidableEq α] {T : ElemType}

/-- The functor `[buf, count, &i](auto v) { buf[i++] = v; return i == count; }`: the state is
the caller's array `buf` and the index `i`. -/
def buf_push (count : Nat) (s : List (parray T) × Nat) (v : parray T) :
    (List (parray T) × Nat) × Bool :=
  ((List.set s.1 s.2 v, s.2 + 1), decide (s.2 + 1 = count))

/-- The bounded form `split(v, delim, buf, buf_sz)` (pre-condition `buf_sz > 1`, `buf` has
at least `buf_sz` slots): the array after the call and the number of slots used. The
difference `buf_sz - 1` is taken in `Nat`: for `buf_sz = 0` the C++ value is the largest
`size_t`, and in both cases the functor never asks to stop. -/
def split_buf (m : Mem α) (v : parray T) (delim : Delim α) (buf : List (parray T))
    (buf_sz : Nat) : Option (List (parray T) × Nat) :=
  let count := buf_sz - 1
  match split_f m v delim (buf_push count) (buf, 0) with
  | none => none
  | some (s, p) =>
    if p ≠ nullptr then some (List.set s.1 s.2 ⟨v.len - (p - v.p), p⟩, s.2 + 1)
    else some s

/-- The bounded form `split_se(v, delim, buf, buf_sz)`. -/
def split_se_buf (m : Mem α) (v : parray T) (delim : Delim α) (buf : List (parray T))
    (buf_sz : Nat) : Option (List (parray T) × Nat) :=
  let count := buf_sz - 1
  match split_se_f m v delim (buf_push count) (buf, 0) with
  | none => none
  | some (s, p) =>
    if p ≠ nullptr then some (List.set s.1 s.2 ⟨v.len - (p - v.p), p⟩, s.2 + 1)
    else some s

/-- The bounded form `rsplit(v, delim, buf, buf_sz)`: the remainder is
`parray(p - v.p, v.p)`. -/
def rsplit_buf (m : Mem α) (v : parray T) (delim : Delim α) (buf : List (parray T))
    (buf_sz : Nat) : Option (List (parray T) × Nat) :=
  let count := buf_sz - 1
  match rsplit_f m v delim (buf_push count) (buf, 0) with
  | none => none
  | some (s, p) =>
    if p ≠ nullptr then some (List.set s.1 s.2 ⟨p - v.p, v.p⟩, s.2 + 1)
    else some s

/-- The bounded form `rsplit_se(v, delim, buf, buf_sz)`. -/
def rsplit_se_buf (m : Mem α) (v : parray T) (delim : Delim α) (buf : List (parray T))
    (buf_sz : Nat) : Option (List (parray T) × Nat) :=
  let count := buf_sz - 1
  match rsplit_se_f m v delim (buf_push count) (buf, 0) with
  | none => none
  | some (s, p) =>
    if p ≠ nullptr then some (List.set s.1 s.2 ⟨p - v.p, v.p⟩, s.2 + 1)
    else some s

end split_buf

/-! ## Join, skipping empty segments -/

section join_se
variable {α : Type} {σ : Type} {T E : ElemType}

/-- The inner loop of `join_se_(it, it_end, delim, f)`, after the first non-empty value:
`f(delim); f(*it)` for every further non-empty value. -/
def join_se_rest (f : σ → parray T → σ) (delim : parray T) : List (parray T) → σ → σ
  | [], s => s
  | v :: rest, s =>
    if !v.empty then join_se_rest f delim rest (f (f s delim) v)
    else join_se_rest f delim rest s

/-- The callback form `join_se_(it, it_end, delim, f)`. -/
def join_se_f (f : σ → parray T → σ) (delim : parray T) : List (parray T) → σ → σ
  | [], s => s
  | v :: rest, s =>
    if !v.empty then join_se_rest f delim rest (f s v)
    else join_se_f f delim rest s

/-- The inner loop of `total_len_se_`. -/
def total_len_se_rest (delim : Nat) : List (parray T) → Nat → Nat
  | [], len => len
  | v :: rest, len =>
    if !v.empty then total_len_se_rest delim rest (len + (delim + v.len))
    else total_len_se_rest delim rest len

/-- The function `total_len_se_(it, it_end, delim)`. -/
def total_len_se_ (delim : Nat) : List (parray T) → Nat
  | [] => 0
  | v :: rest =>
    if !v.empty then total_len_se_rest delim rest v.len
    else total_len_se_ delim rest

/-- The building form `join_se_<R>(it, it_end, delim)`. -/
def join_se_ (m : Mem α) (segs : List (parray T)) (delim : parray E) : Option (List α) :=
  join_se_f (append_view m) delim.cast segs (some [])

/-- The overload `join_se<R>(it, it_end, T const& delim)`. -/
def join_se (m : Mem α) (segs : List (parray T)) (delim : α) : Option (List α) :=
  join_se_ (m ++ [some delim]) segs (⟨1, m.length⟩ : parray T)

/-- The overload `join_se<R>(it, it_end, parray<T> delim)`. -/
def join_se_parray (m : Mem α) (segs : List (parray T)) (delim : parray E) :
    Option (List α) :=
  join_se_ m segs delim

/-- The overload `rjoin_se<R>(it, it_end, T const& delim)`. -/
def rjoin_se (m : Mem α) (segs : List (parray T)) (delim : α) : Option (List α) :=
  join_se_ (m ++ [some delim]) segs.reverse (⟨1, m.length⟩ : parray T)

/-- The overload `rjoin_se<R>(it, it_end, parray<T> delim)`. -/
def rjoin_se_parray (m : Mem α) (segs : List (parray T)) (delim : parray E) :
    Option (List α) :=
  join_se_ m segs.reverse delim

end join_se

/-! ## Vocabulary for stating what the split loops do -/

section vocabulary
variable {α β σ : Type} {T : ElemType}

/-- The calls a split loop makes on its functor: `g` is called on the items in order until
a call returns `true` or the items run out; the result is the final state and the items
that were not passed. -/
def feed (g : σ → β → σ × Bool) : σ → List β → σ × List β
  | s, [] => (s, [])
  | s, b :: rest => if (g s b).2 then ((g s b).1, rest) else feed g (g s b).1 rest

/-- The index ranges `(a, b)` that consecutive chunks occupy when they are laid out from
index `o` on with one separating element between neighbours. -/
def cuts_at : Nat → List (List α) → List (Nat × Nat)
  | _, [] => []
  | o, c :: cs => (o, o + c.length) :: cuts_at (o + c.length + 1) cs

/-- A traversal: the iterators `it o, it (o + 1), ..` up to `it (o + ys.length) = it_end`
read the elements `ys` in order, each step is `++`, the end is reached only at the end, and
all of them are iterators of one kind. -/
def Walk (m : Mem α) (it : Nat → Iter) (it_end : Iter) (o : Nat) (ys : List α) : Prop :=
  it (o + ys.length) = it_end ∧
  (∀ k, k < ys.length → (it (o + k)).deref m = ys[k]?) ∧
  (∀ k, k < ys.length → (it (o + k)).next = it (o + k + 1)) ∧
  (∀ k, k < ys.length → it (o + k) ≠ it_end) ∧
  (∀ k, k ≤ ys.length → (it (o + k)).dist it_end = ys.length - k) ∧
  (∀ k, k ≤ ys.length → (it (o + k)).null = it_end.null)

/-- The iterator a split loop returns when the index ranges `l` were not passed: the start
of the first of them, or `I()` when none is left. -/
def resume_it (it : Nat → Iter) (it_end : Iter) : List (Nat × Nat) → Iter
  | [] => it_end.null
  | c :: _ => it c.1

/-- The view of the index range `c` in a front-to-back traversal that starts at `p`. -/
def fwd_view (p : Nat) (c : Nat × Nat) : parray T := ⟨c.2 - c.1, p + c.1⟩

/-- The view of the index range `c` in a back-to-front traversal of `[p, p + n)`: the
difference of the two reverse iterators and the base of the second. -/
def rev_view (p n : Nat) (c : Nat × Nat) : parray T :=
  ⟨(p + n - c.1) - (p + n - c.2), p + n - c.2⟩

/-- The number of elements the chunks take when each is followed by one more element. -/
def span (cs : List (List α)) : Nat := (cs.map (fun c => c.length + 1)).sum

/-- The index ranges of the chunks between the elements that satisfy `q`. -/
def keep_cuts (q : α → Bool) (xs : List α) : List (Nat × Nat) := cuts_at 0 (xs.splitOnP q)

/-- The index ranges of the non-empty chunks between the elements that satisfy `q`. -/
def skip_cuts (q : α → Bool) (xs : List α) : List (Nat × Nat) :=
  (keep_cuts q xs).filter (fun c => decide (c.1 < c.2))

end vocabulary

/-! ## Trimming, prefix and suffix tests, containment -/

section trim
variable {α : Type} {T : ElemType}

/-- The element `p_end[-1]`; there is no address before address `0`. -/
def deref_prev (m : Mem α) (p_end : Nat) : Option α :=
  if p_end = 0 then none else deref m (p_end - 1)

/-- The loop `while(v.p != p_end && isspace(*v.p)) ++v.p;`: the final `v.p`. The classifier
`isspace` (`std::isspace` for `char`, `std::iswspace` for `wchar_t`, both depending on the
locale) is a parameter. -/
def trim_left_loop (isspace : α → Bool) (m : Mem α) (p_end : Nat) : Nat → Nat → Option Nat
  | 0, _ => none
  | fuel + 1, p =>
    if p ≠ p_end then
      match deref m p with
      | none => none
      | some a => if isspace a then trim_left_loop isspace m p_end fuel (p + 1) else some p
    else some p

/-- The loop `while( isspace(p_end[-1]) ) --p_end;` of `trim`, which has no bound test: the
final `p_end`. -/
def trim_back_loop (isspace : α → Bool) (m : Mem α) : Nat → Nat → Option Nat
  | 0, _ => none
  | fuel + 1, p_end =>
    match deref_prev m p_end with
    | none => none
    | some a => if isspace a then trim_back_loop isspace m fuel (p_end - 1) else some p_end

/-- The loop `while(p_end != v.p && isspace(p_end[-1])) --p_end;` of `trim_right`: the final
`p_end`. -/
def trim_right_loop (isspace : α → Bool) (m : Mem α) (p : Nat) : Nat → Nat → Option Nat
  | 0, _ => none
  | fuel + 1, p_end =>
    if p_end ≠ p then
      match deref_prev m p_end with
      | none => none
      | some a =>
        if isspace a then trim_right_loop isspace m p fuel (p_end - 1) else some p_end
    else some p_end

/-- The function `trim(v)`. -/
def trim (isspace : α → Bool) (m : Mem α) (v : parray T) : Option (parray T) :=
  let p_end := v.p + v.len
  match trim_left_loop isspace m p_end (v.len + 1) v.p with
  | none => none
  | some p =>
    if p ≠ p_end then
      match trim_back_loop isspace m (v.len + 1) p_end with
      | none => none
      | some e => some ⟨e - p, p⟩
    else some ⟨p_end - p, p⟩

/-- The function `trim_left(v)`. -/
def trim_left (isspace : α → Bool) (m : Mem α) (v : parray T) : Option (parray T) :=
  let p_end := v.p + v.len
  match trim_left_loop isspace m p_end (v.len + 1) v.p with
  | none => none
  | some p => some ⟨p_end - p, p⟩

/-- The function `trim_right(v)`. -/
def trim_right (isspace : α → Bool) (m : Mem α) (v : parray T) : Option (parray T) :=
  match trim_right_loop isspace m v.p (v.len + 1) (v.p + v.len) with
  | none => none
  | some e => some ⟨e - v.p, v.p⟩

end trim

section affix
variable {α : Type} [LinearOrder α] {T E : ElemType}

/-- The function `starts_with(v1, v2)`: `v1.len >= v2.len && parray<T>(v2.len, v1.p) == v2`;
the comparison is not evaluated when the length test fails. -/
def starts_with (m : Mem α) (v1 : parray T) (v2 : parray E) : Option Bool :=
  if v1.len ≥ v2.len then parray.op_eq m (⟨v2.len, v1.p⟩ : parray T) v2 else some false

/-- The function `ends_with(v1, v2)`:
`v1.len >= v2.len && parray<T>(v2.len, v1.p + v1.len - v2.len) == v2`. -/
def ends_with (m : Mem α) (v1 : parray T) (v2 : parray E) : Option Bool :=
  if v1.len ≥ v2.len then
    parray.op_eq m (⟨v2.len, v1.p + v1.len - v2.len⟩ : parray T) v2
  else some false

end affix

/-! ## Element types with their own `==`

The comparison functions above take `==` of the element type to be equality of the values,
which is what it is for every integer and character type. The equality side of
`parray_traits`, the operator `==` of views and the two tests built on it are restated here
for an element type whose `==` is another relation (a floating-point type, whose NaN is
unequal to itself, or a class type with its own operator): the operator is the parameter
`op`, everything else is as above. With `op` the equality of values these are the functions
above. -/

namespace by_op

variable {α : Type} [LinearOrder α] {T E : ElemType}

/-- The overload set `elem_eq`: `char_traits::eq` for two character types with the same
base type, `l == r` for everything else. -/
def elem_eq (op : α → α → Bool) (L R : ElemType) (l r : α) : Bool :=
  if is_same_base L R && is_char L then char_traits_eq l r else op l r

/-- The loop `generic_eq(len, l, r)`. -/
def generic_eq (op : α → α → Bool) (L R : ElemType) (m : Mem α) :
    Nat → Nat → Nat → Option Bool
  | 0, _, _ => some true
  | len + 1, l, r =>
    match deref m l, deref m r with
    | some a, some b =>
      if !elem_eq op L R a b then some false else generic_eq op L R m len (l + 1) (r + 1)
    | _, _ => none

/-- The overload set `ar_eq(len, l, r)`, selected by `is_case1..3`. -/
def ar_eq (op : α → α → Bool) (L R : ElemType) (m : Mem α) (len l r : Nat) : Option Bool :=
  if parray_traits.is_case1 L R then (char_traits_compare m l r len).map (fun c => decide (c = 0))
  else if parray_traits.is_case2 L R then (memcmp m l r len).map (fun c => decide (c = 0))
  else generic_eq op L R m len l r

/-- The overload set `ar_eq_`: scalars take the identical-address shortcut
`same_ptr(l, r) || ar_eq(len, l, r)`, other types call `ar_eq` alone. -/
def ar_eq_ (op : α → α → Bool) (L R : ElemType) (m : Mem α) (len l r : Nat) : Option Bool :=
  if is_scalar L && is_scalar R then
    (if parray_traits.same_ptr l r then some true else ar_eq op L R m len l r)
  else ar_eq op L R m len l r

/-- The comparison `eq`: `l_len == r_len && ar_eq_(l_len, l, r)`. -/
def eq (op : α → α → Bool) (L R : ElemType) (m : Mem α) (l_len l r_len r : Nat) :
    Option Bool :=
  if l_len = r_len then ar_eq_ op L R m l_len l r else some false

/-- The operator `l == r` on two views. -/
def op_eq (op : α → α → Bool) (m : Mem α) (l : parray T) (r : parray E) : Option Bool :=
  eq op T E m l.len l.p r.len r.p

/-- The function `starts_with(v1, v2)`: `v1.len >= v2.len && parray<T>(v2.len, v1.p) == v2`;
the comparison is not evaluated when the length test fails. -/
def starts_with (op : α → α → Bool) (m : Mem α) (v1 : parray T) (v2 : parray E) :
    Option Bool :=
  if v1.len ≥ v2.len then op_eq op m (⟨v2.len, v1.p⟩ : parray T) v2 else some false

/-- The function `ends_with(v1, v2)`:
`v1.len >= v2.len && parray<T>(v2.len, v1.p + v1.len - v2.len) == v2`. -/
def ends_with (op : α → α → Bool) (m : Mem α) (v1 : parray T) (v2 : parray E) :
    Option Bool :=
  if v1.len ≥ v2.len then
    op_eq op m (⟨v2.len, v1.p + v1.len - v2.len⟩ : parray T) v2
  else some false

end by_op

/-! ### The operator `==` of `double`

Not code of the repository: the equality of IEEE 754 binary64 values, on their bit
patterns. -/

section contains
variable {α : Type} [DecidableEq α] {T E : ElemType}

/-- How the inner loop of `std::search` ends at one candidate position. -/
inductive SearchStep where
  | matched
  | ran_out
  | differs
  deriving DecidableEq

/-- The inner loop of the standard algorithm `std::search` at one candidate position:
`if (s_it == s_last) return first; if (it == last) return last; if (!(*it == *s_it)) break;`
and then `++it, ++s_it`. -/
def search_at (m : Mem α) (last s_last : Nat) : Nat → Nat → Nat → Option SearchStep
  | 0, _, _ => none
  | fuel + 1, it, s_it =>
    if s_it = s_last then some SearchStep.matched
    else if it = last then some SearchStep.ran_out
    else
      match deref m it, deref m s_it with
      | some a, some b =>
        if a = b then search_at m last s_last fuel (it + 1) (s_it + 1)
        else some SearchStep.differs
      | _, _ => none

/-- The outer loop of `std::search`: `for (;; ++first)`. -/
def search_loop (m : Mem α) (last s_first s_last : Nat) : Nat → Nat → Option Nat
  | 0, _ => none
  | fuel + 1, first =>
    match search_at m last s_last (s_last - s_first + 1) first s_first with
    | none => none
    | some SearchStep.matched => some first
    | some SearchStep.ran_out => some last
    | some SearchStep.differs => search_loop m last s_first s_last fuel (first + 1)

/-- The standard algorithm `std::search(first, last, s_first, s_last)` on pointers: the first
position in `[first, last)` where the run `[s_first, s_last)` starts, or `last`. -/
def search (m : Mem α) (first last s_first s_last : Nat) : Option Nat :=
  search_loop m last s_first s_last (last - first + 1) first

/-- The function `contains(v1, v2)`; pointers of different arrays are compared as addresses
(the source's "assuming memory model is linear"). -/
def contains (m : Mem α) (v1 : parray T) (v2 : parray E) : Option Nat :=
  if v1.len < v2.len then some nullptr
  else if v2.len = 0 then some v1.p
  else if v1.p ≤ v2.p ∧ v2.p + v2.len ≤ v1.p + v1.len then some (v1.p + (v2.p - v1.p))
  else
    match search m v1.p (v1.p + v1.len) v2.p (v2.p + v2.len) with
    | none => none
    | some p => some (if p ≠ v1.p + v1.len then p else nullptr)

end contains

section bitset_invariant

/-- The class invariant of `bitset_delim<IntT, minV, maxV>`: `chunk_bits` is positive,
`static_assert(maxV - minV > 0)` holds (the difference taken in the promoted `IntT`), the bit
index `tmp - minV` fits the `unsigned` parameter of `set_`, `clr_` and `get_`, the bound
`chunk_count` of the member array `data` is positive, as the bound of an array has to be, and
`data` has `chunk_count` chunks. The instantiation over the whole range of a 32-bit `IntT`,
whose `chunk_count` wraps to `0`, does not satisfy it. -/
def bitset_delim.well_formed (b : bitset_delim) : Prop :=
  0 < b.chunk_bits ∧ 0 < b.int_t.promote.convert (b.maxV - b.minV) ∧
    b.maxV - b.minV < 2 ^ unsigned_bits ∧
    0 < bitset_delim.chunk_count b.int_t b.minV b.maxV b.chunk_bits ∧
    b.data.length = bitset_delim.chunk_count b.int_t b.minV b.maxV b.chunk_bits

instance (b : bitset_delim) : Decidable b.well_formed := by
  unfold bitset_delim.well_formed; infer_instance

end bitset_invariant

/-! ## The array constructor -/

/-- The converting constructor `parray(E (&r)[len])`, defined for non-character arrays: the
view `{len, r}` over all `len` elements of the array at address `r`. -/
def parray.of_array (T : ElemType) (len r : Nat) : parray T := ⟨len, r⟩

/-! ## Sample data

A small memory image and views over it, used to instantiate the theorems. -/

/-- The element type `char`. -/
def char_t : ElemType := ⟨BaseType.char, false⟩

/-- The element type `char const volatile`. -/
def cv_char_t : ElemType := ⟨BaseType.char, true⟩

/-- Address 0 is null; then `"zz"` at 1, `"aaa"` at 4, `"ab"` at 8, `"ac"` at 11,
`",1,2,3,, 4 .,"` at 14, `" ,"` at 28 and `"1 2, 3"` at 31, each followed by a zero
element; characters are held by their codes. -/
def sample_mem : Mem Nat :=
  [none, some 122, some 122, some 0, some 97, some 97, some 97, some 0,
   some 97, some 98, some 0, some 97, some 99, some 0,
   some 44, some 49, some 44, some 50, some 44, some 51, some 44, some 44, some 32, some 52,
   some 32, some 46, some 44, some 0,
   some 32, some 44, some 0,
   some 49, some 32, some 50, some 44, some 32, some 51, some 0]

/-- The view `ntba("zz")`. -/
def sample_zz : parray char_t := ⟨2, 1⟩

/-- The view `ntba("aaa")`. -/
def sample_aaa : parray cv_char_t := ⟨3, 4⟩

/-- The view `ntba("ab")`. -/
def sample_ab : parray char_t := ⟨2, 8⟩

/-- The view `ntba("ac")`. -/
def sample_ac : parray cv_char_t := ⟨2, 11⟩

/-- The view `ntba(",1,2,3,, 4 .,")`. -/
def sample_csv : parray char_t := ⟨13, 14⟩

/-- The view `ntba(" ,")`. -/
def sample_seps : parray char_t := ⟨2, 28⟩

/-- The view `ntba("1 2, 3")`. -/
def sample_words : parray char_t := ⟨6, 31⟩

/-- A caller's array `parray<char> buf[3]`, value-initialised. -/
def sample_buf : List (parray char_t) := [⟨0, 0⟩, ⟨0, 0⟩, ⟨0, 0⟩]

/-- The seven segments of `sample_csv` at `','`. -/
def sample_csv_segs : List (parray char_t) :=
  [⟨0, 14⟩, ⟨1, 15⟩, ⟨1, 17⟩, ⟨1, 19⟩, ⟨0, 21⟩, ⟨4, 22⟩, ⟨0, 27⟩]

/-- The functor `[&n](auto) { return ++n == 2; }`: the state is the counter `n`. -/
def sample_stop_at_two (n : Nat) (_ : parray char_t) : Nat × Bool :=
  (n + 1, decide (n + 1 = 2))

/-- The classifier `std::isspace` in the "C" locale, on character codes: space, `\t`, `\n`,
`\v`, `\f`, `\r`. -/
def c_isspace (c : Nat) : Bool := decide (c = 32 ∨ (9 ≤ c ∧ c ≤ 13))

/-- A second memory image: address 0 is null; then `" \t 12 3 \n "` at 1, `"   "` at 12,
`"123 123"` at 16, `"3 1"` at 24, `"123"` at 28 and `"4"` at 32, each followed by a zero
element. -/
def sample_text : Mem Nat :=
  [none, some 32, some 9, some 32, some 49, some 50, some 32, some 51, some 32, some 10,
   some 32, some 0,
   some 32, some 32, some 32, some 0,
   some 49, some 50, some 51, some 32, some 49, some 50, some 51, some 0,
   some 51, some 32, some 49, some 0,
   some 49, some 50, some 51, some 0,
   some 52, some 0]

/-- The view `ntba(" \t 12 3 \n ")`. -/
def sample_padded : parray char_t := ⟨10, 1⟩

/-- The view `ntba("   ")`. -/
def sample_blank : parray char_t := ⟨3, 12⟩

/-- The view `ntba("123 123")`. -/
def sample_twice : parray char_t := ⟨7, 16⟩

/-- The view `ntba("3 1")`. -/
def sample_mid : parray char_t := ⟨3, 24⟩

/-- The view `ntba("123")`. -/
def sample_123 : parray char_t := ⟨3, 28⟩

/-- The view `ntba("4")`. -/
def sample_4 : parray char_t := ⟨1, 32⟩

/-- The view `rcstring(3, v1 + 4)` into the storage of `sample_twice`: its second `"123"`. -/
def sample_second : parray char_t := ⟨3, 20⟩

/-- The view `ntba("1,2,3,, 4 .,")`: `sample_csv` without its first element. -/
def sample_csv_tail : parray char_t := ⟨12, 15⟩

/-- The segments `"1"`, `"2"`, `"3"` inside `sample_csv`. -/
def sample_digits : List (parray char_t) := [⟨1, 15⟩, ⟨1, 17⟩, ⟨1, 19⟩]

/-- The element type `int`, a scalar that is neither a character nor a byte type. -/
def int_t : ElemType := ⟨BaseType.scalar 0, false⟩

/-- The first ten cells of `sample_mem` (`"zz"`, `"aaa"`, `"ab"` without its terminator);
every other address holds no element. -/
def sample_masked : Mem Nat :=
  [none, some 122, some 122, some 0, some 97, some 97, some 97, some 0, some 97, some 98]


end adv
/-! # Theorems -/

namespace adv
open parray_traits

/-! ## Reads and element comparisons -/

theorem deref_lt_length {α : Type} {m : Mem α} {p : Nat} {a : α} (h : deref m p = some a) :
    p < m.length := by
  unfold deref at h
  by_contra hlt
  rw [List.getD_eq_default _ _ (Nat.le_of_not_lt hlt)] at h
  cases h

/-- The `len` addresses from `p` on hold elements. -/
theorem readable_succ {α : Type} {m : Mem α} {p len : Nat}
    (h : ∀ i, i < len + 1 → (deref m (p + i)).isSome = true) :
    (∃ a, deref m p = some a) ∧ ∀ i, i < len → (deref m (p + 1 + i)).isSome = true := by
  constructor
  · have := h 0 (Nat.succ_pos _)
    simpa [Option.isSome_iff_exists] using this
  · intro i hi
    have := h (i + 1) (Nat.succ_lt_succ hi)
    rwa [show p + (i + 1) = p + 1 + i by omega] at this

section arrays
variable {α : Type} [LinearOrder α]

theorem elem_eq_decide (L R : ElemType) (a b : α) : elem_eq L R a b = decide (a = b) := by
  unfold elem_eq char_traits_eq; split <;> rfl

theorem elem_lt_decide (L R : ElemType) (a b : α) : elem_lt L R a b = decide (a < b) := by
  unfold elem_lt char_traits_lt; split <;> rfl

/-! ## The three strategies compute the same thing -/

theorem compare_eq_generic (L R : ElemType) (m : Mem α) (len l r : Nat) :
    (char_traits_compare m l r len).map (fun c => decide (c = 0)) = generic_eq L R m len l r := by
  induction len generalizing l r with
  | zero => simp [char_traits_compare, generic_eq]
  | succ n ih =>
    unfold char_traits_compare generic_eq
    cases hl : deref m l <;> cases hr : deref m r <;> simp only [Option.map_none']
    rename_i a b
    simp only [elem_eq_decide, char_traits_lt]
    rcases lt_trichotomy a b with h | h | h
    · simp [h, ne_of_lt h]
    · subst h; simp [ih]
    · simp [h, ne_of_gt h, not_lt_of_gt h]

theorem compare_lt_generic (L R : ElemType) (m : Mem α) (len l r : Nat) :
    (char_traits_compare m l r len).map (fun c => decide (c < 0)) = generic_lt L R m len l r := by
  induction len generalizing l r with
  | zero => simp [char_traits_compare, generic_lt]
  | succ n ih =>
    unfold char_traits_compare generic_lt
    cases hl : deref m l <;> cases hr : deref m r <;> simp only [Option.map_none']
    rename_i a b
    simp only [elem_eq_decide, elem_lt_decide, char_traits_lt]
    rcases lt_trichotomy a b with h | h | h
    · simp [h, ne_of_lt h]
    · subst h; simp [ih]
    · simp [h, ne_of_gt h, not_lt_of_gt h]

theorem memcmp_eq_generic (L R : ElemType) (m : Mem α) (len l r : Nat) :
    (memcmp m l r len).map (fun c => decide (c = 0)) = generic_eq L R m len l r := by
  induction len generalizing l r with
  | zero => simp [memcmp, generic_eq]
  | succ n ih =>
    unfold memcmp generic_eq
    cases hl : deref m l <;> cases hr : deref m r <;> simp only [Option.map_none']
    rename_i a b
    simp only [elem_eq_decide]
    rcases lt_trichotomy a b with h | h | h
    · simp [h, ne_of_lt h]
    · subst h; simp [ih]
    · simp [h, ne_of_gt h, not_lt_of_gt h]

theorem memcmp_lt_generic (L R : ElemType) (m : Mem α) (len l r : Nat) :
    (memcmp m l r len).map (fun c => decide (c < 0)) = generic_lt L R m len l r := by
  induction len generalizing l r with
  | zero => simp [memcmp, generic_lt]
  | succ n ih =>
    unfold memcmp generic_lt
    cases hl : deref m l <;> cases hr : deref m r <;> simp only [Option.map_none']
    rename_i a b
    simp only [elem_eq_decide, elem_lt_decide]
    rcases lt_trichotomy a b with h | h | h
    · simp [h, ne_of_lt h]
    · subst h; simp [ih]
    · simp [h, ne_of_gt h, not_lt_of_gt h]

theorem ar_eq_generic (L R : ElemType) (m : Mem α) (len l r : Nat) :
    ar_eq L R m len l r = generic_eq L R m len l r := by
  unfold ar_eq
  split
  · exact compare_eq_generic L R m len l r
  · split
    · exact memcmp_eq_generic L R m len l r
    · rfl

theorem ar_lt_generic (L R : ElemType) (m : Mem α) (len l r : Nat) :
    ar_lt L R m len l r = generic_lt L R m len l r := by
  unfold ar_lt
  split
  · exact compare_lt_generic L R m len l r
  · split
    · exact memcmp_lt_generic L R m len l r
    · rfl

theorem generic_eq_types (L R L' R' : ElemType) (m : Mem α) (len l r : Nat) :
    generic_eq L R m len l r = generic_eq L' R' m len l r := by
  induction len generalizing l r with
  | zero => simp [generic_eq]
  | succ n ih =>
    unfold generic_eq
    cases hl : deref m l <;> cases hr : deref m r <;> simp only []
    simp only [elem_eq_decide, ih]

theorem generic_lt_types (L R L' R' : ElemType) (m : Mem α) (len l r : Nat) :
    generic_lt L R m len l r = generic_lt L' R' m len l r := by
  induction len generalizing l r with
  | zero => simp [generic_lt]
  | succ n ih =>
    unfold generic_lt
    cases hl : deref m l <;> cases hr : deref m r <;> simp only []
    simp only [elem_eq_decide, elem_lt_decide, ih]

/-! ## Readable runs -/

theorem generic_eq_self (L R : ElemType) (m : Mem α) (len p : Nat)
    (h : ∀ i, i < len → (deref m (p + i)).isSome = true) :
    generic_eq L R m len p p = some true := by
  induction len generalizing p with
  | zero => simp [generic_eq]
  | succ n ih =>
    obtain ⟨⟨a, ha⟩, ht⟩ := readable_succ h
    unfold generic_eq
    simp [ha, elem_eq_decide, ih (p + 1) ht]

theorem generic_lt_self (L R : ElemType) (m : Mem α) (len p : Nat)
    (h : ∀ i, i < len → (deref m (p + i)).isSome = true) :
    generic_lt L R m len p p = some false := by
  induction len generalizing p with
  | zero => simp [generic_lt]
  | succ n ih =>
    obtain ⟨⟨a, ha⟩, ht⟩ := readable_succ h
    unfold generic_lt
    simp [ha, elem_eq_decide, ih (p + 1) ht]

theorem ar_eq__generic (L R : ElemType) (m : Mem α) (len l r : Nat)
    (h : ∀ i, i < len → (deref m (l + i)).isSome = true) :
    ar_eq_ L R m len l r = generic_eq L R m len l r := by
  unfold ar_eq_ same_ptr
  rw [ar_eq_generic]
  split
  · split
    · rename_i hlr
      have hlr' : l = r := by simpa using hlr
      subst hlr'
      exact (generic_eq_self L R m len l h).symm
    · rfl
  · rfl

theorem ar_lt__generic (L R : ElemType) (m : Mem α) (len l r : Nat)
    (h : ∀ i, i < len → (deref m (l + i)).isSome = true) :
    ar_lt_ L R m len l r = generic_lt L R m len l r := by
  unfold ar_lt_ same_ptr
  rw [ar_lt_generic]
  split
  · split
    · rfl
    · rename_i hlr
      have hlr' : l = r := by simpa using hlr
      subst hlr'
      exact (generic_lt_self L R m len l h).symm
  · rfl


/-! ## What the element-wise loops decide -/

theorem generic_eq_spec (L R : ElemType) (m : Mem α) (len l r : Nat)
    (hl : ∀ i, i < len → (deref m (l + i)).isSome = true)
    (hr : ∀ i, i < len → (deref m (r + i)).isSome = true) :
    ∃ b, generic_eq L R m len l r = some b ∧
      (b = true ↔ ∀ i, i < len → deref m (l + i) = deref m (r + i)) := by
  induction len generalizing l r with
  | zero => exact ⟨true, by simp [generic_eq]⟩
  | succ n ih =>
    obtain ⟨⟨a, ha⟩, hl'⟩ := readable_succ hl
    obtain ⟨⟨b, hb⟩, hr'⟩ := readable_succ hr
    obtain ⟨c, hc, hciff⟩ := ih (l + 1) (r + 1) hl' hr'
    unfold generic_eq
    simp only [ha, hb, elem_eq_decide]
    by_cases hab : a = b
    · subst hab
      refine ⟨c, by simp [hc], ?_⟩
      rw [hciff]
      constructor
      · intro h i hi
        cases i with
        | zero => simp [ha, hb]
        | succ k =>
          have := h k (by omega)
          rwa [show l + 1 + k = l + (k + 1) by omega, show r + 1 + k = r + (k + 1) by omega] at this
      · intro h i hi
        have := h (i + 1) (by omega)
        rwa [show l + (i + 1) = l + 1 + i by omega, show r + (i + 1) = r + 1 + i by omega] at this
    · refine ⟨false, by simp [hab], ?_⟩
      constructor
      · intro h; cases h
      · intro h
        have := h 0 (Nat.succ_pos _)
        simp [ha, hb] at this
        exact absurd this hab

theorem generic_lt_spec (L R : ElemType) (m : Mem α) (len l r : Nat)
    (hl : ∀ i, i < len → (deref m (l + i)).isSome = true)
    (hr : ∀ i, i < len → (deref m (r + i)).isSome = true) :
    ∃ b, generic_lt L R m len l r = some b ∧
      (b = true ↔ ∃ i, i < len ∧ (∀ j, j < i → deref m (l + j) = deref m (r + j)) ∧
        ∃ x y, deref m (l + i) = some x ∧ deref m (r + i) = some y ∧ x ≠ y ∧ x < y) := by
  induction len generalizing l r with
  | zero => exact ⟨false, by simp [generic_lt]⟩
  | succ n ih =>
    obtain ⟨⟨a, ha⟩, hl'⟩ := readable_succ hl
    obtain ⟨⟨b, hb⟩, hr'⟩ := readable_succ hr
    obtain ⟨c, hc, hciff⟩ := ih (l + 1) (r + 1) hl' hr'
    unfold generic_lt
    simp only [ha, hb, elem_eq_decide, elem_lt_decide]
    by_cases hab : a = b
    · subst hab
      refine ⟨c, by simp [hc], ?_⟩
      rw [hciff]
      constructor
      · rintro ⟨i, hi, hpre, x, y, hx, hy, hne, hlt⟩
        refine ⟨i + 1, by omega, ?_, x, y, ?_, ?_, hne, hlt⟩
        · intro j hj
          cases j with
          | zero => simp [ha, hb]
          | succ k =>
            have := hpre k (by omega)
            rwa [show l + 1 + k = l + (k + 1) by omega,
              show r + 1 + k = r + (k + 1) by omega] at this
        · rwa [show l + (i + 1) = l + 1 + i by omega]
        · rwa [show r + (i + 1) = r + 1 + i by omega]
      · rintro ⟨i, hi, hpre, x, y, hx, hy, hne, hlt⟩
        cases i with
        | zero =>
          simp only [Nat.add_zero] at hx hy
          rw [ha] at hx; rw [hb] at hy
          cases hx; cases hy
          exact absurd rfl hne
        | succ k =>
          refine ⟨k, by omega, ?_, x, y, ?_, ?_, hne, hlt⟩
          · intro j hj
            have := hpre (j + 1) (by omega)
            rwa [show l + (j + 1) = l + 1 + j by omega,
              show r + (j + 1) = r + 1 + j by omega] at this
          · rwa [show l + 1 + k = l + (k + 1) by omega]
          · rwa [show r + 1 + k = r + (k + 1) by omega]
    · refine ⟨decide (a < b), by simp [hab], ?_⟩
      simp only [decide_eq_true_eq]
      constructor
      · intro hlt
        exact ⟨0, Nat.succ_pos _, by intro j hj; omega, a, b, by simpa using ha,
          by simpa using hb, hab, hlt⟩
      · rintro ⟨i, hi, hpre, x, y, hx, hy, hne, hlt⟩
        cases i with
        | zero =>
          simp only [Nat.add_zero] at hx hy
          rw [ha] at hx; rw [hb] at hy
          cases hx; cases hy
          exact hlt
        | succ k =>
          have := hpre 0 (Nat.succ_pos _)
          simp [ha, hb] at this
          exact absurd this hab

/-! ## One step of the element-wise loops -/

theorem generic_eq_step (L R : ElemType) (m : Mem α) (n l r : Nat) (a : α)
    (ha : deref m l = some a) (hb : deref m r = some a) :
    generic_eq L R m (n + 1) l r = generic_eq L R m n (l + 1) (r + 1) := by
  rw [generic_eq]; simp [ha, hb, elem_eq_decide]

theorem generic_eq_diff (L R : ElemType) (m : Mem α) (n l r : Nat) (a b : α)
    (ha : deref m l = some a) (hb : deref m r = some b) (hab : a ≠ b) :
    generic_eq L R m (n + 1) l r = some false := by
  rw [generic_eq]; simp [ha, hb, elem_eq_decide, hab]

theorem generic_lt_step (L R : ElemType) (m : Mem α) (n l r : Nat) (a : α)
    (ha : deref m l = some a) (hb : deref m r = some a) :
    generic_lt L R m (n + 1) l r = generic_lt L R m n (l + 1) (r + 1) := by
  rw [generic_lt]; simp [ha, hb, elem_eq_decide]

theorem generic_lt_diff (L R : ElemType) (m : Mem α) (n l r : Nat) (a b : α)
    (ha : deref m l = some a) (hb : deref m r = some b) (hab : a ≠ b) :
    generic_lt L R m (n + 1) l r = some (decide (a < b)) := by
  rw [generic_lt]; simp [ha, hb, elem_eq_decide, elem_lt_decide, hab]

end arrays
end adv

namespace adv
open parray_traits

section array_claims
variable {α : Type} [LinearOrder α] {T E : ElemType}

theorem eq_generic (L R : ElemType) (m : Mem α) (l_len l r_len r : Nat)
    (hl : ∀ i, i < l_len → (deref m (l + i)).isSome = true) :
    parray_traits.eq L R m l_len l r_len r
      = if l_len = r_len then generic_eq L R m l_len l r else some false := by
  unfold parray_traits.eq
  rw [ar_eq__generic L R m l_len l r hl]

theorem lt_generic (L R : ElemType) (m : Mem α) (l_len l r_len r : Nat)
    (hl : ∀ i, i < l_len → (deref m (l + i)).isSome = true) :
    parray_traits.lt L R m l_len l r_len r
      = if l_len < r_len then some true
        else if l_len = r_len then generic_lt L R m l_len l r else some false := by
  unfold parray_traits.lt
  rw [ar_lt__generic L R m l_len l r hl]

theorem generic_trichotomy (L R : ElemType) (m : Mem α) (len l r : Nat)
    (hl : ∀ i, i < len → (deref m (l + i)).isSome = true)
    (hr : ∀ i, i < len → (deref m (r + i)).isSome = true) :
    ∃ e lt gt, generic_eq L R m len l r = some e ∧ generic_lt L R m len l r = some lt ∧
      generic_lt R L m len r l = some gt ∧
      ((lt = true ∧ e = false ∧ gt = false) ∨ (lt = false ∧ e = true ∧ gt = false) ∨
        (lt = false ∧ e = false ∧ gt = true)) := by
  induction len generalizing l r with
  | zero => exact ⟨true, false, false, by simp [generic_eq, generic_lt]⟩
  | succ n ih =>
    obtain ⟨⟨a, ha⟩, hl'⟩ := readable_succ hl
    obtain ⟨⟨b, hb⟩, hr'⟩ := readable_succ hr
    obtain ⟨e, lt, gt, he, hlt, hgt, hone⟩ := ih (l + 1) (r + 1) hl' hr'
    unfold generic_eq generic_lt
    simp only [ha, hb, elem_eq_decide, elem_lt_decide]
    rcases lt_trichotomy a b with h | h | h
    · exact ⟨false, true, false, by simp [ne_of_lt h], by simp [ne_of_lt h, h],
        by simp [ne_of_gt h, not_lt_of_gt h], Or.inl ⟨rfl, rfl, rfl⟩⟩
    · subst h
      exact ⟨e, lt, gt, by simp [he], by simp [hlt], by simp [hgt], hone⟩
    · exact ⟨false, false, true, by simp [ne_of_gt h], by simp [ne_of_gt h, not_lt_of_gt h],
        by simp [ne_of_lt h, h], Or.inr (Or.inr ⟨rfl, rfl, rfl⟩)⟩

/-- C1: when the lengths of two views differ, `l < r` is `length(l) < length(r)`; the
result is the same for every memory, so no element is read. -/
theorem op_lt_of_len_ne (m : Mem α) (l : parray T) (r : parray E) (h : l.len ≠ r.len) :
    parray.op_lt m l r = some (decide (l.len < r.len)) := by
  unfold parray.op_lt parray_traits.lt
  by_cases hlt : l.len < r.len
  · simp [hlt]
  · simp [hlt, h]

/-- Where `==` of the element type is the equality of values (integer and character types):
`l == r` holds exactly when the two views have the same length and equal elements at every
index. -/
theorem op_eq_iff_elementwise (m : Mem α) (l : parray T) (r : parray E)
    (hl : parray.readable m l) (hr : parray.readable m r) :
    ∃ b, parray.op_eq m l r = some b ∧
      (b = true ↔ l.len = r.len ∧
        ∀ i, i < l.len → parray.index m l i = parray.index m r i) := by
  unfold parray.op_eq parray_traits.eq parray.index
  by_cases hlen : l.len = r.len
  · rw [if_pos hlen, ar_eq__generic T E m l.len l.p r.p hl]
    obtain ⟨b, hb, hiff⟩ := generic_eq_spec T E m l.len l.p r.p hl (hlen ▸ hr)
    exact ⟨b, hb, by rw [hiff]; simp [hlen]⟩
  · rw [if_neg hlen]
    exact ⟨false, rfl, by simp [hlen]⟩

/-- C4: on readable views over a linearly ordered element type the six operators agree:
`<=` is `<` or `==`, `>=` is `>` or `==`, `!=` negates `==`, `l > r` is `r < l`, and
exactly one of `l < r`, `l == r`, `l > r` holds. -/
theorem operators_consistent (m : Mem α) (l : parray T) (r : parray E)
    (hl : parray.readable m l) (hr : parray.readable m r) :
    ∃ e lt gt, parray.op_eq m l r = some e ∧ parray.op_lt m l r = some lt ∧
      parray.op_gt m l r = some gt ∧
      parray.op_le m l r = some (lt || e) ∧ parray.op_ge m l r = some (gt || e) ∧
      parray.op_ne m l r = some (!e) ∧ parray.op_gt m l r = parray.op_lt m r l ∧
      ((lt = true ∧ e = false ∧ gt = false) ∨ (lt = false ∧ e = true ∧ gt = false) ∨
        (lt = false ∧ e = false ∧ gt = true)) := by
  unfold parray.op_eq parray.op_lt parray.op_gt parray.op_le parray.op_ge parray.op_ne
    parray_traits.gt parray_traits.lt_eq parray_traits.gt_eq parray_traits.eq_not
    parray_traits.eq parray_traits.lt
  rcases Nat.lt_trichotomy l.len r.len with h | h | h
  · have h1 : ¬ r.len < l.len := by omega
    have h2 : ¬ r.len = l.len := by omega
    have h3 : ¬ l.len = r.len := by omega
    exact ⟨false, true, false, by simp [h, h1, h2, h3]⟩
  · have hr' : ∀ i, i < l.len → (deref m (r.p + i)).isSome = true := h ▸ hr
    obtain ⟨e, lt, gt, he, hlt, hgt, hone⟩ := generic_trichotomy T E m l.len l.p r.p hl hr'
    have h1 : ¬ r.len < l.len := by omega
    have h2 : ¬ l.len < r.len := by omega
    rw [if_pos h, if_neg h2, if_pos h, if_neg h1, if_pos h.symm,
      ar_eq__generic T E m l.len l.p r.p hl, ar_lt__generic T E m l.len l.p r.p hl,
      ← h, ar_lt__generic E T m l.len r.p l.p hr', he, hlt, hgt]
    refine ⟨e, lt, gt, rfl, rfl, rfl, ?_, ?_, rfl, rfl, hone⟩
    · rcases hone with ⟨a, b, c⟩ | ⟨a, b, c⟩ | ⟨a, b, c⟩ <;> simp [a, b, c]
    · rcases hone with ⟨a, b, c⟩ | ⟨a, b, c⟩ | ⟨a, b, c⟩ <;> simp [a, b, c]
  · have h1 : ¬ l.len < r.len := by omega
    have h2 : ¬ r.len = l.len := by omega
    have h3 : ¬ l.len = r.len := by omega
    exact ⟨false, false, true, by simp [h, h1, h2, h3]⟩

/-- C8: the strategy picked from the element types does not change the answer: the
character-sequence compare, the byte-block compare and the element-wise loop give the same
`ar_eq` and `ar_lt`, so `ar_eq`/`ar_lt` do not depend on the element types, and comparing views
gives the same result whatever the `volatile` qualification of either side. -/
theorem strategies_agree (L R L' R' : ElemType) (m : Mem α) (len l r : Nat)
    (bl br : BaseType) (v1 v2 v3 v4 : Bool) (l_len r_len : Nat) :
    (char_traits_compare m l r len).map (fun c => decide (c = 0)) = generic_eq L R m len l r ∧
    (memcmp m l r len).map (fun c => decide (c = 0)) = generic_eq L R m len l r ∧
    (char_traits_compare m l r len).map (fun c => decide (c < 0)) = generic_lt L R m len l r ∧
    (memcmp m l r len).map (fun c => decide (c < 0)) = generic_lt L R m len l r ∧
    ar_eq L R m len l r = ar_eq L' R' m len l r ∧
    ar_lt L R m len l r = ar_lt L' R' m len l r ∧
    parray.op_eq m (⟨l_len, l⟩ : parray ⟨bl, v1⟩) (⟨r_len, r⟩ : parray ⟨br, v2⟩)
      = parray.op_eq m (⟨l_len, l⟩ : parray ⟨bl, v3⟩) (⟨r_len, r⟩ : parray ⟨br, v4⟩) ∧
    parray.op_lt m (⟨l_len, l⟩ : parray ⟨bl, v1⟩) (⟨r_len, r⟩ : parray ⟨br, v2⟩)
      = parray.op_lt m (⟨l_len, l⟩ : parray ⟨bl, v3⟩) (⟨r_len, r⟩ : parray ⟨br, v4⟩) := by
  refine ⟨compare_eq_generic L R m len l r, memcmp_eq_generic L R m len l r,
    compare_lt_generic L R m len l r, memcmp_lt_generic L R m len l r, ?_, ?_, ?_, ?_⟩
  · rw [ar_eq_generic, ar_eq_generic, generic_eq_types L R L' R']
  · rw [ar_lt_generic, ar_lt_generic, generic_lt_types L R L' R']
  · simp only [parray.op_eq, parray_traits.eq, ar_eq_, ar_eq_generic, is_scalar,
      generic_eq_types ⟨bl, v1⟩ ⟨br, v2⟩ ⟨bl, v3⟩ ⟨br, v4⟩]
  · simp only [parray.op_lt, parray_traits.lt, ar_lt_, ar_lt_generic, is_scalar,
      generic_lt_types ⟨bl, v1⟩ ⟨br, v2⟩ ⟨bl, v3⟩ ⟨br, v4⟩]

end array_claims
end adv

namespace adv
open parray_traits

/-! ## Terminated sequences -/

theorem terminated_at_zero {α : Type} [Zero α] {m : Mem α} {p : Nat}
    (h : terminated_at m p 0) : deref m p = some 0 := by
  simpa using h.1

theorem terminated_at_succ {α : Type} [Zero α] {m : Mem α} {p n : Nat}
    (h : terminated_at m p (n + 1)) :
    ∃ a, deref m p = some a ∧ a ≠ 0 ∧ terminated_at m (p + 1) n := by
  obtain ⟨hs, hne⟩ := h.2 0 (Nat.succ_pos _)
  rw [Nat.add_zero] at hs hne
  obtain ⟨a, ha⟩ := Option.isSome_iff_exists.mp hs
  refine ⟨a, ha, ?_, ?_, ?_⟩
  · intro h0
    exact hne (by rw [ha, h0])
  · have := h.1
    rwa [show p + (n + 1) = p + 1 + n by omega] at this
  · intro i hi
    have := h.2 (i + 1) (by omega)
    rwa [show p + (i + 1) = p + 1 + i by omega] at this

theorem terminated_at_readable {α : Type} [Zero α] {m : Mem α} {p n : Nat}
    (h : terminated_at m p n) : ∀ i, i < n → (deref m (p + i)).isSome = true :=
  fun i hi => (h.2 i hi).1

theorem terminated_at_lt_length {α : Type} [Zero α] {m : Mem α} {p n : Nat}
    (h : terminated_at m p n) : n < m.length + 1 := by
  have := deref_lt_length h.1
  omega

section ntbs
variable {α : Type} [LinearOrder α] [Zero α]

/-! ## Length recovery -/

theorem ntbs_len_loop_spec (T : ElemType) (m : Mem α) (n : Nat) :
    ∀ (p count fuel : Nat), terminated_at m p n → n < fuel →
      ntbs_len_loop T m fuel p count = some (count + n) := by
  induction n with
  | zero =>
    intro p count fuel h hf
    obtain ⟨f, rfl⟩ : ∃ f, fuel = f + 1 := ⟨fuel - 1, by omega⟩
    simp [ntbs_len_loop, terminated_at_zero h, elem_eq_decide]
  | succ k ih =>
    intro p count fuel h hf
    obtain ⟨f, rfl⟩ : ∃ f, fuel = f + 1 := ⟨fuel - 1, by omega⟩
    obtain ⟨a, ha, hne, ht⟩ := terminated_at_succ h
    simp only [ntbs_len_loop, ha, elem_eq_decide, hne, decide_False, Bool.not_false, if_true]
    rw [ih (p + 1) (count + 1) f ht (by omega)]
    congr 1; omega

theorem char_traits_length_spec (m : Mem α) (n : Nat) :
    ∀ (p i fuel : Nat), terminated_at m p n → n < fuel →
      char_traits_length m fuel p i = some (i + n) := by
  induction n with
  | zero =>
    intro p i fuel h hf
    obtain ⟨f, rfl⟩ : ∃ f, fuel = f + 1 := ⟨fuel - 1, by omega⟩
    simp [char_traits_length, terminated_at_zero h, char_traits_eq]
  | succ k ih =>
    intro p i fuel h hf
    obtain ⟨f, rfl⟩ : ∃ f, fuel = f + 1 := ⟨fuel - 1, by omega⟩
    obtain ⟨a, ha, hne, ht⟩ := terminated_at_succ h
    simp only [char_traits_length, ha, char_traits_eq, hne, decide_False, Bool.false_eq_true,
      if_false]
    rw [ih (p + 1) (i + 1) f ht (by omega)]
    congr 1; omega

theorem ntbs_len_spec (T : ElemType) (m : Mem α) (p n : Nat) (h : terminated_at m p n) :
    ntbs_len T m p = some n := by
  unfold ntbs_len
  split
  · simpa using char_traits_length_spec m n p 0 _ h (terminated_at_lt_length h)
  · simpa using ntbs_len_loop_spec T m n p 0 _ h (terminated_at_lt_length h)

/-! ## Equality against and between terminated sequences -/

theorem ntbs_ar_eq_n_loop_spec (L R : ElemType) (m : Mem α) (n : Nat) :
    ∀ (l_len l r fuel : Nat), terminated_at m r n →
      (∀ i, i < l_len → (deref m (l + i)).isSome = true) → n < fuel →
      ntbs_ar_eq_n_loop L R m (l + l_len) fuel l r
        = if l_len = n then generic_eq L R m l_len l r else some false := by
  induction n with
  | zero =>
    intro l_len l r fuel h hl hf
    obtain ⟨f, rfl⟩ : ∃ f, fuel = f + 1 := ⟨fuel - 1, by omega⟩
    rw [ntbs_ar_eq_n_loop]
    simp only [terminated_at_zero h, elem_eq_decide]
    cases l_len with
    | zero => simp [generic_eq]
    | succ k => simp
  | succ j ih =>
    intro l_len l r fuel h hl hf
    obtain ⟨f, rfl⟩ : ∃ f, fuel = f + 1 := ⟨fuel - 1, by omega⟩
    obtain ⟨b, hb, hne, ht⟩ := terminated_at_succ h
    rw [ntbs_ar_eq_n_loop]
    simp only [hb, elem_eq_decide]
    cases l_len with
    | zero => simp [hne]
    | succ k =>
      obtain ⟨⟨a, ha⟩, hl'⟩ := readable_succ hl
      simp only [ha, hne]
      by_cases hab : a = b
      · subst hab
        have := ih k (l + 1) (r + 1) f ht hl' (by omega)
        rw [show l + 1 + k = l + (k + 1) by omega] at this
        simp [this, generic_eq_step L R m k l r a ha hb]
      · simp [hab, generic_eq_diff L R m k l r a b ha hb hab]

theorem ntbs_ar_eq_loop_spec (L R : ElemType) (m : Mem α) (nl : Nat) :
    ∀ (nr l r fuel : Nat), terminated_at m l nl → terminated_at m r nr → nl < fuel →
      ntbs_ar_eq_loop L R m fuel l r
        = if nl = nr then generic_eq L R m nl l r else some false := by
  induction nl with
  | zero =>
    intro nr l r fuel hl hr hf
    obtain ⟨f, rfl⟩ : ∃ f, fuel = f + 1 := ⟨fuel - 1, by omega⟩
    rw [ntbs_ar_eq_loop]
    cases nr with
    | zero => simp [terminated_at_zero hl, terminated_at_zero hr, elem_eq_decide, generic_eq]
    | succ j =>
      obtain ⟨b, hb, hne, _⟩ := terminated_at_succ hr
      simp [terminated_at_zero hl, hb, elem_eq_decide, Ne.symm hne]
  | succ k ih =>
    intro nr l r fuel hl hr hf
    obtain ⟨f, rfl⟩ : ∃ f, fuel = f + 1 := ⟨fuel - 1, by omega⟩
    obtain ⟨a, ha, hane, hlt⟩ := terminated_at_succ hl
    rw [ntbs_ar_eq_loop]
    cases nr with
    | zero => simp [ha, terminated_at_zero hr, elem_eq_decide, hane]
    | succ j =>
      obtain ⟨b, hb, hbne, hrt⟩ := terminated_at_succ hr
      simp only [ha, hb, elem_eq_decide]
      by_cases hab : a = b
      · subst hab
        simp [hane, ih j (l + 1) (r + 1) f hlt hrt (by omega),
          generic_eq_step L R m k l r a ha hb]
      · simp [hab, generic_eq_diff L R m k l r a b ha hb hab]

/-! ## Ordering against and between terminated sequences -/

theorem ntbs_ar_lt_tail_spec (L R : ElemType) (m : Mem α) (lx : Bool) (nl : Nat) :
    ∀ (nr l r fuel : Nat), terminated_at m l nl → terminated_at m r nr → nl < fuel →
      ntbs_ar_lt_tail L R m lx fuel l r
        = some (if nl = nr then lx else decide (nl < nr)) := by
  induction nl with
  | zero =>
    intro nr l r fuel hl hr hf
    obtain ⟨f, rfl⟩ : ∃ f, fuel = f + 1 := ⟨fuel - 1, by omega⟩
    rw [ntbs_ar_lt_tail]
    cases nr with
    | zero => simp [terminated_at_zero hl, terminated_at_zero hr, elem_eq_decide]
    | succ j =>
      obtain ⟨b, hb, hne, _⟩ := terminated_at_succ hr
      simp [terminated_at_zero hl, hb, elem_eq_decide, hne]
  | succ k ih =>
    intro nr l r fuel hl hr hf
    obtain ⟨f, rfl⟩ : ∃ f, fuel = f + 1 := ⟨fuel - 1, by omega⟩
    obtain ⟨a, ha, hane, hlt⟩ := terminated_at_succ hl
    rw [ntbs_ar_lt_tail]
    cases nr with
    | zero => simp [ha, terminated_at_zero hr, elem_eq_decide, hane]
    | succ j =>
      obtain ⟨b, hb, hbne, hrt⟩ := terminated_at_succ hr
      simp [ha, hb, elem_eq_decide, hane, hbne, ih j (l + 1) (r + 1) f hlt hrt (by omega)]

theorem ntbs_ar_lt_loop_spec (L R : ElemType) (m : Mem α) (nl : Nat) :
    ∀ (nr l r fuel : Nat), terminated_at m l nl → terminated_at m r nr → nl < fuel →
      ntbs_ar_lt_loop L R m fuel l r
        = if nl < nr then some true
          else if nl = nr then generic_lt L R m nl l r else some false := by
  induction nl with
  | zero =>
    intro nr l r fuel hl hr hf
    obtain ⟨f, rfl⟩ : ∃ f, fuel = f + 1 := ⟨fuel - 1, by omega⟩
    rw [ntbs_ar_lt_loop]
    cases nr with
    | zero => simp [terminated_at_zero hl, terminated_at_zero hr, elem_eq_decide, generic_lt]
    | succ j =>
      obtain ⟨b, hb, hne, _⟩ := terminated_at_succ hr
      simp [terminated_at_zero hl, hb, elem_eq_decide, Ne.symm hne]
  | succ k ih =>
    intro nr l r fuel hl hr hf
    obtain ⟨f, rfl⟩ : ∃ f, fuel = f + 1 := ⟨fuel - 1, by omega⟩
    obtain ⟨a, ha, hane, hlt⟩ := terminated_at_succ hl
    rw [ntbs_ar_lt_loop]
    cases nr with
    | zero => simp [ha, terminated_at_zero hr, elem_eq_decide, hane]
    | succ j =>
      obtain ⟨b, hb, hbne, hrt⟩ := terminated_at_succ hr
      simp only [ha, hb, elem_eq_decide, elem_lt_decide]
      by_cases hab : a = b
      · subst hab
        simp [hane, ih j (l + 1) (r + 1) f hlt hrt (by omega),
          generic_lt_step L R m k l r a ha hb]
      · simp only [hab, hane, hbne, decide_False, Bool.false_eq_true, if_false,
          ntbs_ar_lt_tail_spec L R m (decide (a < b)) k j (l + 1) (r + 1) f hlt hrt (by omega)]
        by_cases hkj : k = j
        · subst hkj
          simp [generic_lt_diff L R m k l r a b ha hb hab]
        · by_cases hlt2 : k < j
          · simp [hkj, hlt2]
          · simp [hkj, hlt2]

theorem ntbs_ar_lt_n_tail_spec (R : ElemType) (m : Mem α) (lx : Bool) (n : Nat) :
    ∀ (l_len l r fuel : Nat), terminated_at m r n → n < fuel →
      ntbs_ar_lt_n_tail R m (l + l_len) lx fuel l r
        = some (if l_len = n then lx else decide (l_len < n)) := by
  induction n with
  | zero =>
    intro l_len l r fuel h hf
    obtain ⟨f, rfl⟩ : ∃ f, fuel = f + 1 := ⟨fuel - 1, by omega⟩
    rw [ntbs_ar_lt_n_tail]
    simp only [terminated_at_zero h, elem_eq_decide]
    cases l_len with
    | zero => simp
    | succ k => simp
  | succ j ih =>
    intro l_len l r fuel h hf
    obtain ⟨f, rfl⟩ : ∃ f, fuel = f + 1 := ⟨fuel - 1, by omega⟩
    obtain ⟨b, hb, hne, ht⟩ := terminated_at_succ h
    rw [ntbs_ar_lt_n_tail]
    simp only [hb, elem_eq_decide]
    cases l_len with
    | zero => simp [hne]
    | succ k =>
      have := ih k (l + 1) (r + 1) f ht (by omega)
      rw [show l + 1 + k = l + (k + 1) by omega] at this
      simp [hne, this]

theorem ntbs_ar_lt_n_loop_spec (L R : ElemType) (m : Mem α) (n : Nat) :
    ∀ (l_len l r fuel : Nat), terminated_at m r n →
      (∀ i, i < l_len → (deref m (l + i)).isSome = true) → n < fuel →
      ntbs_ar_lt_n_loop L R m (l + l_len) fuel l r
        = if l_len < n then some true
          else if l_len = n then generic_lt L R m l_len l r else some false := by
  induction n with
  | zero =>
    intro l_len l r fuel h hl hf
    obtain ⟨f, rfl⟩ : ∃ f, fuel = f + 1 := ⟨fuel - 1, by omega⟩
    rw [ntbs_ar_lt_n_loop]
    simp only [terminated_at_zero h, elem_eq_decide]
    cases l_len with
    | zero => simp [generic_lt]
    | succ k => simp
  | succ j ih =>
    intro l_len l r fuel h hl hf
    obtain ⟨f, rfl⟩ : ∃ f, fuel = f + 1 := ⟨fuel - 1, by omega⟩
    obtain ⟨b, hb, hne, ht⟩ := terminated_at_succ h
    rw [ntbs_ar_lt_n_loop]
    simp only [hb, elem_eq_decide, elem_lt_decide]
    cases l_len with
    | zero => simp [hne]
    | succ k =>
      obtain ⟨⟨a, ha⟩, hl'⟩ := readable_succ hl
      simp only [ha, hne]
      by_cases hab : a = b
      · subst hab
        have := ih k (l + 1) (r + 1) f ht hl' (by omega)
        rw [show l + 1 + k = l + (k + 1) by omega] at this
        simp [this, generic_lt_step L R m k l r a ha hb]
      · have := ntbs_ar_lt_n_tail_spec R m (decide (a < b)) j k (l + 1) (r + 1) f ht (by omega)
        rw [show l + 1 + k = l + (k + 1) by omega] at this
        simp only [hab, decide_False, Bool.not_false, if_true, this, Nat.add_eq_zero,
          one_ne_zero, and_false, Bool.false_or, Bool.false_eq_true, if_false]
        by_cases hkj : k = j
        · subst hkj
          simp [generic_lt_diff L R m k l r a b ha hb hab]
        · by_cases hlt2 : k < j
          · simp [hkj, hlt2]
          · simp [hkj, hlt2]

theorem ntbs_ar_lt_rn_tail_spec (L : ElemType) (m : Mem α) (lx : Bool) (n : Nat) :
    ∀ (r_len l r fuel : Nat), terminated_at m l n → n < fuel →
      ntbs_ar_lt_rn_tail L m (r + r_len) lx fuel l r
        = some (if n = r_len then lx else decide (n < r_len)) := by
  induction n with
  | zero =>
    intro r_len l r fuel h hf
    obtain ⟨f, rfl⟩ : ∃ f, fuel = f + 1 := ⟨fuel - 1, by omega⟩
    rw [ntbs_ar_lt_rn_tail]
    simp only [terminated_at_zero h, elem_eq_decide]
    cases r_len with
    | zero => simp
    | succ k => simp
  | succ j ih =>
    intro r_len l r fuel h hf
    obtain ⟨f, rfl⟩ : ∃ f, fuel = f + 1 := ⟨fuel - 1, by omega⟩
    obtain ⟨a, ha, hne, ht⟩ := terminated_at_succ h
    rw [ntbs_ar_lt_rn_tail]
    simp only [ha, elem_eq_decide]
    cases r_len with
    | zero => simp [hne]
    | succ k =>
      have := ih k (l + 1) (r + 1) f ht (by omega)
      rw [show r + 1 + k = r + (k + 1) by omega] at this
      simp [hne, this]

theorem ntbs_ar_lt_rn_loop_spec (L R : ElemType) (m : Mem α) (n : Nat) :
    ∀ (r_len l r fuel : Nat), terminated_at m l n →
      (∀ i, i < r_len → (deref m (r + i)).isSome = true) → n < fuel →
      ntbs_ar_lt_rn_loop L R m (r + r_len) fuel l r
        = if n < r_len then some true
          else if n = r_len then generic_lt L R m n l r else some false := by
  induction n with
  | zero =>
    intro r_len l r fuel h hr hf
    obtain ⟨f, rfl⟩ : ∃ f, fuel = f + 1 := ⟨fuel - 1, by omega⟩
    rw [ntbs_ar_lt_rn_loop]
    simp only [terminated_at_zero h, elem_eq_decide]
    cases r_len with
    | zero => simp [generic_lt]
    | succ k => simp
  | succ j ih =>
    intro r_len l r fuel h hr hf
    obtain ⟨f, rfl⟩ : ∃ f, fuel = f + 1 := ⟨fuel - 1, by omega⟩
    obtain ⟨a, ha, hne, ht⟩ := terminated_at_succ h
    rw [ntbs_ar_lt_rn_loop]
    simp only [ha, elem_eq_decide, elem_lt_decide]
    cases r_len with
    | zero => simp [hne]
    | succ k =>
      obtain ⟨⟨b, hb⟩, hr'⟩ := readable_succ hr
      simp only [hb, hne]
      by_cases hab : a = b
      · subst hab
        have := ih k (l + 1) (r + 1) f ht hr' (by omega)
        rw [show r + 1 + k = r + (k + 1) by omega] at this
        simp [this, generic_lt_step L R m j l r a ha hb]
      · have := ntbs_ar_lt_rn_tail_spec L m (decide (a < b)) j k (l + 1) (r + 1) f ht (by omega)
        rw [show r + 1 + k = r + (k + 1) by omega] at this
        simp only [hab, decide_False, Bool.not_false, if_true, this, Nat.add_eq_zero,
          one_ne_zero, and_false, Bool.false_or, Bool.false_eq_true, if_false]
        by_cases hkj : j = k
        · subst hkj
          simp [generic_lt_diff L R m j l r a b ha hb hab]
        · by_cases hlt2 : j < k
          · simp [hkj, hlt2]
          · simp [hkj, hlt2]

end ntbs
end adv

namespace adv
open parray_traits

section ntbs_claims
variable {α : Type} [LinearOrder α] [Zero α]

end ntbs_claims
end adv

namespace adv

section tools
variable {α : Type} {T : ElemType}

/-! ## Copies of element ranges -/

theorem read_range_succ (m : Mem α) (p n : Nat) (a : α) (xs : List α) :
    read_range m p (n + 1) = some (a :: xs) ↔
      deref m p = some a ∧ read_range m (p + 1) n = some xs := by
  rw [read_range]
  cases h1 : deref m p <;> cases h2 : read_range m (p + 1) n <;> simp

theorem read_range_length (m : Mem α) :
    ∀ (n p : Nat) (xs : List α), read_range m p n = some xs → xs.length = n := by
  intro n
  induction n with
  | zero => intro p xs h; simp [read_range] at h; simp [← h]
  | succ k ih =>
    intro p xs h
    rw [read_range] at h
    cases h1 : deref m p <;> cases h2 : read_range m (p + 1) k <;> simp [h1, h2] at h
    subst h
    simp [ih (p + 1) _ h2]

theorem read_range_of_readable (m : Mem α) :
    ∀ (n p : Nat), (∀ i, i < n → (deref m (p + i)).isSome = true) →
      ∃ xs, read_range m p n = some xs := by
  intro n
  induction n with
  | zero => intro p _; exact ⟨[], rfl⟩
  | succ k ih =>
    intro p h
    obtain ⟨⟨a, ha⟩, ht⟩ := readable_succ h
    obtain ⟨xs, hxs⟩ := ih (p + 1) ht
    exact ⟨a :: xs, (read_range_succ m p k a xs).mpr ⟨ha, hxs⟩⟩

theorem read_range_append (m : Mem α) :
    ∀ (xs ys : List α) (p : Nat), read_range m p (xs ++ ys).length = some (xs ++ ys) →
      read_range m p xs.length = some xs ∧
        read_range m (p + xs.length) ys.length = some ys := by
  intro xs
  induction xs with
  | nil => intro ys p h; simpa [read_range] using h
  | cons a xs ih =>
    intro ys p h
    rw [List.cons_append, List.length_cons] at h
    obtain ⟨ha, ht⟩ := (read_range_succ m p _ a _).mp h
    obtain ⟨h1, h2⟩ := ih ys (p + 1) ht
    refine ⟨(read_range_succ m p _ a xs).mpr ⟨ha, h1⟩, ?_⟩
    rw [List.length_cons, show p + (xs.length + 1) = p + 1 + xs.length by omega]
    exact h2

theorem read_range_getElem (m : Mem α) :
    ∀ (xs : List α) (p : Nat), read_range m p xs.length = some xs →
      ∀ i a, deref m (p + i) = some a → i < xs.length → a ∈ xs := by
  intro xs
  induction xs with
  | nil => intro p _ i a _ hi; simp at hi
  | cons x xs ih =>
    intro p h i a hd hi
    obtain ⟨hx, ht⟩ := (read_range_succ m p _ x xs).mp h
    cases i with
    | zero =>
      rw [Nat.add_zero, hx] at hd
      cases hd
      exact List.mem_cons_self _ _
    | succ k =>
      rw [show p + (k + 1) = p + 1 + k by omega] at hd
      exact List.mem_cons_of_mem _ (ih (p + 1) ht k a hd (by simpa using hi))

theorem read_range_mem (m : Mem α) :
    ∀ (xs : List α) (p : Nat), read_range m p xs.length = some xs →
      ∀ a, a ∈ xs → ∃ i, i < xs.length ∧ deref m (p + i) = some a := by
  intro xs
  induction xs with
  | nil => intro p _ a ha; simp at ha
  | cons x xs ih =>
    intro p h a ha
    obtain ⟨hx, ht⟩ := (read_range_succ m p _ x xs).mp h
    rcases List.mem_cons.mp ha with rfl | hmem
    · exact ⟨0, by simp, by simpa using hx⟩
    · obtain ⟨i, hi, hd⟩ := ih (p + 1) ht a hmem
      exact ⟨i + 1, by simpa using hi, by rwa [show p + (i + 1) = p + 1 + i by omega]⟩

theorem deref_append_left (m e : Mem α) (p : Nat) (a : α) (h : deref m p = some a) :
    deref (m ++ e) p = some a := by
  have hlt := deref_lt_length h
  unfold deref at h ⊢
  rw [List.getD_append _ _ _ _ hlt]
  exact h

theorem read_range_append_mem (m e : Mem α) :
    ∀ (n p : Nat) (xs : List α), read_range m p n = some xs →
      read_range (m ++ e) p n = some xs := by
  intro n
  induction n with
  | zero => intro p xs h; simpa [read_range] using h
  | succ k ih =>
    intro p xs h
    have hl := read_range_length m _ _ _ h
    cases xs with
    | nil => simp at hl
    | cons a xs =>
      obtain ⟨ha, ht⟩ := (read_range_succ m p k a xs).mp h
      exact (read_range_succ _ p k a xs).mpr ⟨deref_append_left m e p a ha, ih (p + 1) xs ht⟩

/-! ## The first delimiter occurrence -/

theorem find_if_loop_ptr (m : Mem α) (q : α → Bool) :
    ∀ (xs : List α) (p : Nat), read_range m p xs.length = some xs →
      find_if_loop m (fun a => some (q a)) (Iter.ptr (p + xs.length)) xs.length (Iter.ptr p)
        = some (Iter.ptr (p + (xs.takeWhile (fun a => !q a)).length)) := by
  intro xs
  induction xs with
  | nil => intro p _; simp [find_if_loop]
  | cons x xs ih =>
    intro p h
    obtain ⟨hx, ht⟩ := (read_range_succ m p _ x xs).mp h
    rw [List.length_cons, find_if_loop]
    have hne : Iter.ptr p ≠ Iter.ptr (p + (xs.length + 1)) := by
      intro hc; injection hc with hc; omega
    rw [if_neg hne]
    simp only [Iter.deref, hx]
    cases hq : q x
    · simp only [Iter.next]
      have := ih (p + 1) ht
      rw [show p + 1 + xs.length = p + (xs.length + 1) by omega] at this
      rw [this, List.takeWhile_cons]
      simp only [hq, Bool.not_false, if_true, List.length_cons]
      congr 2; omega
    · simp [List.takeWhile_cons, hq]

theorem find_if_ptr (m : Mem α) (q : α → Bool) (xs : List α) (p : Nat)
    (h : read_range m p xs.length = some xs) :
    find_if m (Iter.ptr p) (Iter.ptr (p + xs.length)) (fun a => some (q a))
      = some (Iter.ptr (p + (xs.takeWhile (fun a => !q a)).length)) := by
  unfold find_if
  rw [show (Iter.ptr p).dist (Iter.ptr (p + xs.length)) = xs.length by simp [Iter.dist]]
  exact find_if_loop_ptr m q xs p h

theorem takeWhile_not_cases (q : α → Bool) (xs : List α) :
    (xs.takeWhile (fun a => !q a) = xs ∧ ∀ a ∈ xs, ¬ q a = true) ∨
    ∃ d post, xs = xs.takeWhile (fun a => !q a) ++ d :: post ∧ q d = true ∧
      ∀ a ∈ xs.takeWhile (fun a => !q a), ¬ q a = true := by
  induction xs with
  | nil => left; simp
  | cons x xs ih =>
    cases hq : q x
    · rcases ih with ⟨h1, h2⟩ | ⟨d, post, h1, h2, h3⟩
      · left
        refine ⟨by simp [List.takeWhile_cons, hq, h1], ?_⟩
        intro a ha
        rcases List.mem_cons.mp ha with rfl | hm
        · simp [hq]
        · exact h2 a hm
      · right
        refine ⟨d, post, ?_, h2, ?_⟩
        · simp only [List.takeWhile_cons, hq, Bool.not_false, if_true, List.cons_append]
          exact congrArg (List.cons x) h1
        · intro a ha
          simp only [List.takeWhile_cons, hq, Bool.not_false, if_true] at ha
          rcases List.mem_cons.mp ha with rfl | hm
          · simp [hq]
          · exact h3 a hm
    · right
      exact ⟨x, xs, by simp [List.takeWhile_cons, hq], hq, by simp [List.takeWhile_cons, hq]⟩

end tools
end adv

namespace adv

section split_join
variable {α : Type} [DecidableEq α] {T : ElemType}

/-! ## The keep-empty split segments at every delimiter occurrence -/

omit [DecidableEq α] in
theorem Delim.skip_one_next (d : Delim α) (it : Iter) : d.skip_one it = it.next := by
  cases d <;> rfl

omit [DecidableEq α] in
theorem first_match_cases (q : α → Bool) (xs : List α) :
    (xs.takeWhile (fun a => !q a) = xs ∧ ∀ a ∈ xs, ¬ q a = true) ∨
    ∃ pre d post, xs = pre ++ d :: post ∧ xs.takeWhile (fun a => !q a) = pre ∧ q d = true ∧
      ∀ a ∈ pre, ¬ q a = true := by
  rcases takeWhile_not_cases q xs with h | ⟨d, post, h1, h2, h3⟩
  · exact Or.inl h
  · exact Or.inr ⟨_, d, post, h1, rfl, h2, h3⟩

theorem split__step (m : Mem α) (delim : Delim α) (it_end : Iter) (fuel p k : Nat)
    (s : List (parray T))
    (hff : delim.find_first m (Iter.ptr p) it_end = some (Iter.ptr (p + k))) :
    split_ m delim
        (fun s it it_end => (s ++ [(⟨it.dist it_end, it.base⟩ : parray T)], false))
        it_end (fuel + 1) s (Iter.ptr p)
      = if Iter.ptr (p + k) = it_end then some (s ++ [⟨k, p⟩], Iter.ptr 0)
        else split_ m delim
          (fun s it it_end => (s ++ [(⟨it.dist it_end, it.base⟩ : parray T)], false))
          it_end fuel (s ++ [⟨k, p⟩]) (Iter.ptr (p + k + 1)) := by
  rw [split_, hff]
  simp [Iter.dist, Iter.base, Iter.null, nullptr, Delim.skip_one_next, Iter.next]

theorem split__ptr (m : Mem α) (delim : Delim α) (q : α → Bool)
    (hff : ∀ p e, delim.find_first m (Iter.ptr p) (Iter.ptr e)
      = find_if m (Iter.ptr p) (Iter.ptr e) (fun a => some (q a))) :
    ∀ (n : Nat) (xs : List α) (p fuel : Nat) (s0 : List (parray T)), xs.length = n →
      read_range m p xs.length = some xs → xs.length < fuel →
      ∃ segs, split_ m delim
          (fun s it it_end => (s ++ [(⟨it.dist it_end, it.base⟩ : parray T)], false))
          (Iter.ptr (p + xs.length)) fuel s0 (Iter.ptr p) = some (s0 ++ segs, Iter.ptr 0) ∧
        List.Forall₂ (fun (seg : parray T) chunk => read_range m seg.p seg.len = some chunk)
          segs (xs.splitOnP q) := by
  intro n
  induction n using Nat.strong_induction_on with
  | _ n ih =>
    intro xs p fuel s0 hn hread hfuel
    obtain ⟨f, rfl⟩ : ∃ f, fuel = f + 1 := ⟨fuel - 1, by omega⟩
    have hfind := hff p (p + xs.length)
    rw [find_if_ptr m q xs p hread] at hfind
    rw [split__step m delim _ f p _ s0 hfind]
    rcases first_match_cases q xs with ⟨hall, hnone⟩ | ⟨pre, d, post, rfl, htw, hd, hpre⟩
    · rw [hall, if_pos rfl]
      refine ⟨[⟨xs.length, p⟩], rfl, ?_⟩
      rw [List.splitOnP_eq_single q xs hnone]
      exact List.Forall₂.cons hread List.Forall₂.nil
    · rw [htw]
      have hk : (pre ++ d :: post).length = pre.length + (post.length + 1) := by simp
      have hne : ¬ Iter.ptr (p + pre.length) = Iter.ptr (p + (pre ++ d :: post).length) := by
        intro hc; injection hc with hc; omega
      rw [if_neg hne]
      obtain ⟨hr1, hr2⟩ := read_range_append m _ _ p hread
      rw [List.length_cons] at hr2
      obtain ⟨_, hr3⟩ := (read_range_succ m _ _ d post).mp hr2
      obtain ⟨segs, hsegs, hforall⟩ := ih post.length (by omega) post
        (p + pre.length + 1) f (s0 ++ [(⟨pre.length, p⟩ : parray T)]) rfl hr3 (by omega)
      rw [show p + pre.length + 1 + post.length = p + (pre ++ d :: post).length
        by omega] at hsegs
      refine ⟨⟨pre.length, p⟩ :: segs, ?_, ?_⟩
      · rw [hsegs]
        simp
      · rw [List.splitOnP_first q _ hpre d hd post]
        exact List.Forall₂.cons hr1 hforall

theorem split_spec (m : Mem α) (delim : Delim α) (q : α → Bool) (v : parray T) (xs : List α)
    (hff : ∀ p e, delim.find_first m (Iter.ptr p) (Iter.ptr e)
      = find_if m (Iter.ptr p) (Iter.ptr e) (fun a => some (q a)))
    (hv : v.vec m = some xs) :
    ∃ segs, split m v delim = some segs ∧
      List.Forall₂ (fun (seg : parray T) chunk => read_range m seg.p seg.len = some chunk)
        segs (xs.splitOnP q) := by
  have hlen : xs.length = v.len := read_range_length m _ _ _ hv
  unfold parray.vec at hv
  rw [← hlen] at hv
  obtain ⟨segs, hsegs, hforall⟩ :=
    split__ptr (T := T) m delim q hff xs.length xs v.p (xs.length + 1) [] rfl hv (by omega)
  refine ⟨segs, ?_, hforall⟩
  unfold split split_f
  rw [← hlen, hsegs]
  simp

/-! ## Which elements the three delimiters match -/

theorem find_in_delim (m : Mem α) (ds : List α) (dp : Nat) (a : α)
    (hds : read_range m dp ds.length = some ds) :
    (find m (Iter.ptr dp) (Iter.ptr (dp + ds.length)) a).map
        (fun j => decide (j ≠ Iter.ptr (dp + ds.length)))
      = some (decide (a ∈ ds)) := by
  unfold find
  have := find_if_ptr m (fun x => decide (x = a)) ds dp hds
  rw [this]
  simp only [Option.map_some', Option.some.injEq]
  rcases first_match_cases (fun x => decide (x = a)) ds with
    ⟨hall, hnone⟩ | ⟨pre, d, post, rfl, htw, hd, _⟩
  · rw [hall]
    have : a ∉ ds := fun hmem => by simpa using hnone a hmem
    simp [this]
  · rw [htw]
    have hda : d = a := by simpa using hd
    have hne : Iter.ptr (dp + pre.length) ≠ Iter.ptr (dp + (pre ++ d :: post).length) := by
      intro hc; injection hc with hc; simp at hc
    simp [hne, hda]

theorem Delim.find_first_is_match (m : Mem α) (delim : Delim α) (hd : delim.readable m) :
    ∀ p e, delim.find_first m (Iter.ptr p) (Iter.ptr e)
      = find_if m (Iter.ptr p) (Iter.ptr e) (fun a => some (delim.is_match m a)) := by
  intro p e
  cases delim with
  | single s => rfl
  | bitset b val => rfl
  | multi s =>
    obtain ⟨ds, hds⟩ := read_range_of_readable m s.delim.len s.delim.p hd
    have hlen := read_range_length m _ _ _ hds
    rw [← hlen] at hds
    have hpred : (fun a => (find m (Iter.ptr s.delim.p) (Iter.ptr (s.delim.p + s.delim.len)) a).map
        (fun j => decide (j ≠ Iter.ptr (s.delim.p + s.delim.len))))
        = (fun a => some (Delim.is_match (Delim.multi s) m a)) := by
      funext a
      rw [← hlen, find_in_delim m ds s.delim.p a hds]
      simp only [Delim.is_match, Option.some.injEq, decide_eq_decide]
      constructor
      · intro hmem
        exact hlen ▸ read_range_mem m ds s.delim.p hds a hmem
      · rintro ⟨i, hi, hda⟩
        exact read_range_getElem m ds s.delim.p hds i a hda (hlen ▸ hi)
    simp only [Delim.find_first, multi_delim.find_first, find_first_of]
    rw [hpred]

omit [DecidableEq α] in
theorem length_splitOnP (q : α → Bool) (xs : List α) :
    (xs.splitOnP q).length = xs.countP q + 1 := by
  induction xs with
  | nil => simp
  | cons x xs ih =>
    rw [List.splitOnP_cons]
    cases hq : q x
    · simp [hq, ih, List.countP_cons_of_neg]
    · simp [hq, ih, List.countP_cons_of_pos]

/-! ## Join concatenates the segments with the delimiter between them -/

omit [DecidableEq α] in
theorem join_rest_spec (m : Mem α) (dv : parray T) (ds : List α)
    (hdv : read_range m dv.p dv.len = some ds) :
    ∀ (segs : List (parray T)) (chunks : List (List α)) (acc : List α),
      List.Forall₂ (fun (seg : parray T) chunk => read_range m seg.p seg.len = some chunk)
        segs chunks →
      join_rest (append_view m) dv segs (some acc)
        = some (acc ++ (chunks.map (fun c => ds ++ c)).flatten) := by
  intro segs chunks acc h
  induction h generalizing acc with
  | nil => simp [join_rest]
  | cons hhead _ ih =>
    rw [join_rest]
    simp only [append_view, hdv, hhead]
    rw [ih]
    simp [List.append_assoc]

omit [DecidableEq α] in
theorem flatten_intersperse (ds c : List α) (cs : List (List α)) :
    (List.intersperse ds (c :: cs)).flatten = c ++ (cs.map (fun x => ds ++ x)).flatten := by
  induction cs generalizing c with
  | nil => simp
  | cons c1 cs ih =>
    rw [List.intersperse_cons_cons, List.flatten_cons, List.flatten_cons, ih]
    simp

omit [DecidableEq α] in
theorem join__spec (m : Mem α) {E : ElemType} (dv : parray E) (ds : List α)
    (hdv : read_range m dv.p dv.len = some ds)
    (segs : List (parray T)) (chunks : List (List α))
    (h : List.Forall₂ (fun (seg : parray T) chunk => read_range m seg.p seg.len = some chunk)
      segs chunks) :
    join_ m segs dv = some (ds.intercalate chunks) := by
  unfold join_
  cases h with
  | nil => simp [join_f, List.intercalate]
  | cons hhead htail =>
    rw [join_f]
    simp only [append_view, hhead, List.nil_append]
    rw [join_rest_spec m (parray.cast dv : parray T) ds hdv _ _ _ htail, List.intercalate,
      flatten_intersperse]

end split_join
end adv

namespace adv

section split_join_claims
variable {α : Type} [DecidableEq α] {T : ElemType}

omit [DecidableEq α] in
theorem readable_vec (m : Mem α) (v : parray T) (hv : parray.readable m v) :
    ∃ xs, v.vec m = some xs :=
  read_range_of_readable m v.len v.p hv

/-- C9: keep-empty round trip: for a readable view `v` and a single-element delimiter `d`,
`split(v, d)` returns a segment list and `join` of that list with `d` is the element
sequence of `v`. -/
theorem join_split_round_trip (m : Mem α) (v : parray T) (d : α)
    (hv : parray.readable m v) :
    ∃ segs xs, split_value m v d = some segs ∧ v.vec m = some xs ∧
      join m segs d = some xs := by
  obtain ⟨xs, hxs⟩ := readable_vec m v hv
  obtain ⟨segs, hsegs, hforall⟩ := split_spec m (Delim.single ⟨d⟩) (fun a => a == d) v xs
    (fun p e => by
      simp only [Delim.find_first, single_delim.find_first, find]
      congr 1)
    hxs
  refine ⟨segs, xs, hsegs, hxs, ?_⟩
  unfold join
  have hd : read_range (m ++ [some d]) (⟨1, m.length⟩ : parray T).p
      (⟨1, m.length⟩ : parray T).len = some [d] := by
    simp [read_range, deref]
  have hforall2 : List.Forall₂
      (fun (seg : parray T) chunk => read_range (m ++ [some d]) seg.p seg.len = some chunk)
      segs (xs.splitOnP (fun a => a == d)) :=
    hforall.imp (fun _ _ h => read_range_append_mem m _ _ _ _ h)
  rw [join__spec (m ++ [some d]) _ [d] hd segs _ hforall2]
  exact congrArg some (List.intercalate_splitOn xs d)

/-- C10: for a readable view `v` and any of the three delimiter kinds (whose own storage is
readable), the keep-empty `split` returns exactly `n + 1` segments, `n` being the number of
elements of `v` that match the delimiter. -/
theorem split_segment_count (m : Mem α) (v : parray T) (delim : Delim α)
    (hv : parray.readable m v) (hd : delim.readable m) :
    ∃ segs xs, split m v delim = some segs ∧ v.vec m = some xs ∧
      segs.length = xs.countP (delim.is_match m) + 1 := by
  obtain ⟨xs, hxs⟩ := readable_vec m v hv
  obtain ⟨segs, hsegs, hforall⟩ := split_spec m delim (delim.is_match m) v xs
    (Delim.find_first_is_match m delim hd) hxs
  exact ⟨segs, xs, hsegs, hxs, by rw [hforall.length_eq, length_splitOnP]⟩

end split_join_claims

/-! ## The theorems at the sample data -/

theorem op_lt_of_len_ne_witness :
    sample_zz.len ≠ sample_aaa.len ∧
      parray.op_lt sample_mem sample_zz sample_aaa
        = some (decide (sample_zz.len < sample_aaa.len)) :=
  ⟨by decide, op_lt_of_len_ne sample_mem sample_zz sample_aaa (by decide)⟩

theorem op_eq_iff_elementwise_witness :
    parray.readable sample_mem sample_ab ∧ parray.readable sample_mem sample_ac ∧
      ∃ b, parray.op_eq sample_mem sample_ab sample_ac = some b ∧
        (b = true ↔ sample_ab.len = sample_ac.len ∧
          ∀ i, i < sample_ab.len →
            parray.index sample_mem sample_ab i = parray.index sample_mem sample_ac i) :=
  ⟨by decide, by decide,
    op_eq_iff_elementwise sample_mem sample_ab sample_ac (by decide) (by decide)⟩

theorem operators_consistent_witness :
    parray.readable sample_mem sample_zz ∧ parray.readable sample_mem sample_aaa ∧
      ∃ e lt gt, parray.op_eq sample_mem sample_zz sample_aaa = some e ∧
        parray.op_lt sample_mem sample_zz sample_aaa = some lt ∧
        parray.op_gt sample_mem sample_zz sample_aaa = some gt ∧
        parray.op_le sample_mem sample_zz sample_aaa = some (lt || e) ∧
        parray.op_ge sample_mem sample_zz sample_aaa = some (gt || e) ∧
        parray.op_ne sample_mem sample_zz sample_aaa = some (!e) ∧
        parray.op_gt sample_mem sample_zz sample_aaa
          = parray.op_lt sample_mem sample_aaa sample_zz ∧
        ((lt = true ∧ e = false ∧ gt = false) ∨ (lt = false ∧ e = true ∧ gt = false) ∨
          (lt = false ∧ e = false ∧ gt = true)) :=
  ⟨by decide, by decide,
    operators_consistent sample_mem sample_zz sample_aaa (by decide) (by decide)⟩

theorem join_split_round_trip_witness :
    parray.readable sample_mem sample_csv ∧
      ∃ segs xs, split_value sample_mem sample_csv 44 = some segs ∧
        sample_csv.vec sample_mem = some xs ∧ join sample_mem segs 44 = some xs :=
  ⟨by decide, join_split_round_trip sample_mem sample_csv 44 (by decide)⟩

theorem split_segment_count_witness :
    parray.readable sample_mem sample_words ∧
      (Delim.multi (⟨sample_seps⟩ : multi_delim char_t) : Delim Nat).readable sample_mem ∧
      ∃ segs xs, split sample_mem sample_words (Delim.multi (⟨sample_seps⟩ : multi_delim char_t))
          = some segs ∧ sample_words.vec sample_mem = some xs ∧
        segs.length
          = xs.countP ((Delim.multi (⟨sample_seps⟩ : multi_delim char_t)).is_match sample_mem)
            + 1 :=
  ⟨by decide, by decide,
    split_segment_count sample_mem sample_words _ (by decide) (by decide)⟩

end adv

namespace adv

/-! ## Traversals -/

section walk
variable {α σ : Type}

theorem Walk.drop {m : Mem α} {it : Nat → Iter} {it_end : Iter} {o : Nat} (pre post : List α)
    (h : Walk m it it_end o (pre ++ post)) : Walk m it it_end (o + pre.length) post := by
  obtain ⟨h1, h2, h3, h4, h5, h6⟩ := h
  have hlen : (pre ++ post).length = pre.length + post.length := List.length_append _ _
  refine ⟨?_, ?_, ?_, ?_, ?_, ?_⟩
  · rw [← h1, hlen, Nat.add_assoc]
  · intro k hk
    have := h2 (pre.length + k) (by omega)
    rw [Nat.add_assoc, this, List.getElem?_append_right (by omega)]
    congr 1; omega
  · intro k hk
    have := h3 (pre.length + k) (by omega)
    rw [Nat.add_assoc, this]
  · intro k hk
    have := h4 (pre.length + k) (by omega)
    rwa [Nat.add_assoc]
  · intro k hk
    have := h5 (pre.length + k) (by omega)
    rw [Nat.add_assoc, this]; omega
  · intro k hk
    have := h6 (pre.length + k) (by omega)
    rwa [Nat.add_assoc]

theorem Walk.tail {m : Mem α} {it : Nat → Iter} {it_end : Iter} {o : Nat} {y : α}
    {ys : List α} (h : Walk m it it_end o (y :: ys)) : Walk m it it_end (o + 1) ys :=
  Walk.drop [y] ys h

theorem find_if_loop_walk (m : Mem α) (q : α → Bool) (it : Nat → Iter) (it_end : Iter) :
    ∀ (ys : List α) (o : Nat), Walk m it it_end o ys →
      find_if_loop m (fun a => some (q a)) it_end ys.length (it o)
        = some (it (o + (ys.takeWhile (fun a => !q a)).length)) := by
  intro ys
  induction ys with
  | nil =>
    intro o h
    have := h.1
    simp only [List.length_nil, Nat.add_zero] at this
    simp [find_if_loop, this]
  | cons y ys ih =>
    intro o h
    have hne := h.2.2.2.1 0 (by simp)
    have hd := h.2.1 0 (by simp)
    have hn := h.2.2.1 0 (by simp)
    simp only [Nat.add_zero] at hne hd hn
    rw [List.length_cons, find_if_loop, if_neg hne, hd]
    simp only [List.getElem?_cons_zero]
    cases hq : q y
    · simp only [hn]
      rw [ih (o + 1) h.tail, List.takeWhile_cons]
      simp only [hq, Bool.not_false, if_true, List.length_cons]
      congr 2; omega
    · simp [List.takeWhile_cons, hq]

theorem find_if_walk (m : Mem α) (q : α → Bool) (it : Nat → Iter) (it_end : Iter)
    (ys : List α) (o : Nat) (h : Walk m it it_end o ys) :
    find_if m (it o) it_end (fun a => some (q a))
      = some (it (o + (ys.takeWhile (fun a => !q a)).length)) := by
  unfold find_if
  have := h.2.2.2.2.1 0 (Nat.zero_le _)
  simp only [Nat.add_zero, Nat.sub_zero] at this
  rw [this]
  exact find_if_loop_walk m q it it_end ys o h

/-! ## Index ranges of the chunks -/

theorem cuts_at_ne_nil (o : Nat) (cs : List (List α)) (h : cs ≠ []) : cuts_at o cs ≠ [] := by
  cases cs with
  | nil => exact absurd rfl h
  | cons c cs => simp [cuts_at]

theorem cuts_at_head (o : Nat) (cs : List (List α)) (h : cs ≠ []) :
    ∃ b rest, cuts_at o cs = (o, b) :: rest := by
  cases cs with
  | nil => exact absurd rfl h
  | cons c cs => exact ⟨_, _, rfl⟩

end walk

/-! ## What the keep-empty loop does on a traversal -/

section loops
variable {α σ : Type} [DecidableEq α]

theorem split__walk (m : Mem α) (delim : Delim α) (q : α → Bool) (it : Nat → Iter)
    (it_end : Iter) (F : σ → Iter → Iter → σ × Bool)
    (hff : ∀ a b, delim.find_first m a b = find_if m a b (fun x => some (q x))) :
    ∀ (n : Nat) (ys : List α) (o fuel : Nat) (s : σ), ys.length = n →
      Walk m it it_end o ys → ys.length < fuel →
      split_ m delim F it_end fuel s (it o)
        = some ((feed (fun s c => F s (it c.1) (it c.2)) s (cuts_at o (ys.splitOnP q))).1,
            resume_it it it_end
              (feed (fun s c => F s (it c.1) (it c.2)) s (cuts_at o (ys.splitOnP q))).2) := by
  intro n
  induction n using Nat.strong_induction_on with
  | _ n ih =>
    intro ys o fuel s hn hw hfuel
    obtain ⟨f, rfl⟩ : ∃ f, fuel = f + 1 := ⟨fuel - 1, by omega⟩
    rw [split_, hff, find_if_walk m q it it_end ys o hw]
    simp only []
    rcases first_match_cases q ys with ⟨hall, hnone⟩ | ⟨pre, d, post, rfl, htw, hd, hpre⟩
    · rw [hall, hw.1, if_pos rfl, List.splitOnP_eq_single q ys hnone]
      have hnull := hw.2.2.2.2.2 0 (Nat.zero_le _)
      simp only [Nat.add_zero] at hnull
      simp only [cuts_at, feed, hw.1, hnull]
      split <;> rfl
    · rw [htw]
      have hlen : (pre ++ d :: post).length = pre.length + (post.length + 1) := by simp
      have hne := hw.2.2.2.1 pre.length (by omega)
      have hnx := hw.2.2.1 pre.length (by omega)
      rw [if_neg hne, Delim.skip_one_next, hnx, List.splitOnP_first q _ hpre d hd post]
      have hw' : Walk m it it_end (o + pre.length + 1) post := by
        have := Walk.drop (pre ++ [d]) post (by simpa using hw)
        simpa [Nat.add_assoc] using this
      simp only [cuts_at, feed]
      by_cases hstop : (F s (it o) (it (o + pre.length))).2 = true
      · simp only [hstop, if_true]
        obtain ⟨b, rest, hcuts⟩ := cuts_at_head (o + pre.length + 1) (post.splitOnP q)
          (List.splitOnP_ne_nil q post)
        rw [hcuts]
        rfl
      · have hs : (F s (it o) (it (o + pre.length))).2 = false := by simpa using hstop
        simp only [hs, Bool.false_eq_true, if_false]
        rw [ih post.length (by omega) post (o + pre.length + 1) f _ rfl hw' (by omega)]

/-! ## What the skip-empty loop does on a traversal -/

omit [DecidableEq α] in
theorem cuts_filter_lead (q : α → Bool) :
    ∀ (del zs : List α) (o : Nat), (∀ x ∈ del, q x = true) →
      (cuts_at o ((del ++ zs).splitOnP q)).filter (fun c => decide (c.1 < c.2))
        = (cuts_at (o + del.length) (zs.splitOnP q)).filter (fun c => decide (c.1 < c.2)) := by
  intro del
  induction del with
  | nil => intro zs o _; simp
  | cons d del ih =>
    intro zs o h
    have hd : q d = true := h d (List.mem_cons_self _ _)
    rw [List.cons_append, List.splitOnP_cons, if_pos hd]
    simp only [cuts_at, List.length_nil, Nat.add_zero, List.length_cons]
    rw [List.filter_cons_of_neg (by simp), ih zs (o + 1) (fun x hx => h x (List.mem_cons_of_mem _ hx))]
    congr 2; omega

omit [DecidableEq α] in
theorem cuts_filter_chunk (q : α → Bool) (y : α) (rest : List α) (o : Nat)
    (hy : q y = false) :
    (cuts_at o ((y :: rest).splitOnP q)).filter (fun c => decide (c.1 < c.2))
      = (o, o + (rest.takeWhile (fun a => !q a)).length + 1) ::
        (cuts_at (o + (rest.takeWhile (fun a => !q a)).length + 1)
          ((rest.drop (rest.takeWhile (fun a => !q a)).length).splitOnP q)).filter
            (fun c => decide (c.1 < c.2)) := by
  rcases first_match_cases q rest with ⟨hall, hnone⟩ | ⟨pre, d, post, rfl, htw, hd, hpre⟩
  · rw [hall, List.drop_length, List.splitOnP_nil]
    have hnone' : ∀ x ∈ y :: rest, ¬ q x = true := by
      intro x hx
      rcases List.mem_cons.mp hx with rfl | hm
      · simp [hy]
      · exact hnone x hm
    rw [List.splitOnP_eq_single q _ hnone']
    simp [cuts_at, Nat.add_assoc]
  · rw [htw]
    have hpre' : ∀ x ∈ y :: pre, ¬ q x = true := by
      intro x hx
      rcases List.mem_cons.mp hx with rfl | hm
      · simp [hy]
      · exact hpre x hm
    have h1 : (y :: (pre ++ d :: post)) = (y :: pre) ++ d :: post := rfl
    rw [h1, List.splitOnP_first q _ hpre' d hd post, List.drop_left, List.splitOnP_cons,
      if_pos hd]
    simp [cuts_at, Nat.add_assoc]

theorem split_se__walk (m : Mem α) (delim : Delim α) (q : α → Bool) (it : Nat → Iter)
    (it_end : Iter) (F : σ → Iter → Iter → σ × Bool)
    (hsa : ∀ a b, delim.skip_all m a b = find_if m a b (fun x => some (!q x)))
    (hff : ∀ a b, delim.find_first m a b = find_if m a b (fun x => some (q x))) :
    ∀ (n : Nat) (ys : List α) (o fuel : Nat) (s : σ) (stop : Bool), ys.length = n →
      Walk m it it_end o ys → ys.length < fuel →
      split_se_ m delim F it_end fuel stop s (it o)
        = some (if stop then
            (s, resume_it it it_end
              ((cuts_at o (ys.splitOnP q)).filter (fun c => decide (c.1 < c.2))))
          else
            ((feed (fun s c => F s (it c.1) (it c.2)) s
              ((cuts_at o (ys.splitOnP q)).filter (fun c => decide (c.1 < c.2)))).1,
             resume_it it it_end
              (feed (fun s c => F s (it c.1) (it c.2)) s
                ((cuts_at o (ys.splitOnP q)).filter (fun c => decide (c.1 < c.2)))).2)) := by
  intro n
  induction n using Nat.strong_induction_on with
  | _ n ih =>
    intro ys o fuel s stop hn hw hfuel
    obtain ⟨f, rfl⟩ : ∃ f, fuel = f + 1 := ⟨fuel - 1, by omega⟩
    rw [split_se_, hsa, find_if_walk m (fun x => !q x) it it_end ys o hw]
    simp only []
    rcases first_match_cases (fun x => !q x) ys with
      ⟨hall, hnone⟩ | ⟨del, y, rest, rfl, htw, hy, hdel⟩
    · have hq : ∀ x ∈ ys, q x = true := fun x hx => by simpa using hnone x hx
      have hcs := cuts_filter_lead q ys [] o hq
      rw [List.append_nil] at hcs
      rw [hall, hw.1, if_pos rfl, hcs]
      simp [cuts_at, feed, resume_it]
    · have hq : ∀ x ∈ del, q x = true := fun x hx => by simpa using hdel x hx
      have hyq : q y = false := by simpa using hy
      have hlen : (del ++ y :: rest).length = del.length + (rest.length + 1) := by simp
      have hne := hw.2.2.2.1 del.length (by omega)
      have hnx := hw.2.2.1 del.length (by omega)
      have hw1 : Walk m it it_end (o + del.length + 1) rest := by
        have := Walk.drop (del ++ [y]) rest (by simpa using hw)
        simpa [Nat.add_assoc] using this
      have hsplit : rest = rest.take (rest.takeWhile (fun a => !q a)).length
          ++ rest.drop (rest.takeWhile (fun a => !q a)).length :=
        (List.take_append_drop _ _).symm
      have hu : (rest.takeWhile (fun a => !q a)).length ≤ rest.length :=
        (List.takeWhile_sublist _).length_le
      have hw2 : Walk m it it_end
          (o + del.length + 1 + (rest.takeWhile (fun a => !q a)).length)
          (rest.drop (rest.takeWhile (fun a => !q a)).length) := by
        have := Walk.drop (rest.take (rest.takeWhile (fun a => !q a)).length)
          (rest.drop (rest.takeWhile (fun a => !q a)).length) (by rw [← hsplit]; exact hw1)
        rwa [List.length_take, Nat.min_eq_left hu] at this
      rw [htw, if_neg hne, cuts_filter_lead q del (y :: rest) o hq,
        cuts_filter_chunk q y rest (o + del.length) hyq]
      by_cases hstop : stop = true
      · subst hstop
        simp [resume_it]
      · have hs : stop = false := by simpa using hstop
        subst hs
        simp only [Bool.false_eq_true, if_false]
        rw [hnx, hff, find_if_walk m q it it_end rest (o + del.length + 1) hw1]
        simp only []
        rw [ih (rest.drop (rest.takeWhile (fun a => !q a)).length).length
          (by rw [List.length_drop]; omega) _ _ f _ _ rfl hw2
          (by rw [List.length_drop]; omega)]
        rw [show o + del.length + 1 + (rest.takeWhile (fun a => !q a)).length
          = o + del.length + (rest.takeWhile (fun a => !q a)).length + 1 by omega]
        simp only [feed]
        split <;> rfl

end loops
end adv

namespace adv

/-! ## The delimiters on any pair of iterators -/

section delim_any
variable {α : Type} [DecidableEq α]

theorem find_in_delim_end (m : Mem α) (ds : List α) (dp : Nat) (a : α)
    (hds : read_range m dp ds.length = some ds) :
    (find m (Iter.ptr dp) (Iter.ptr (dp + ds.length)) a).map
        (fun j => decide (j = Iter.ptr (dp + ds.length)))
      = some (!decide (a ∈ ds)) := by
  have h := find_in_delim m ds dp a hds
  cases hf : find m (Iter.ptr dp) (Iter.ptr (dp + ds.length)) a with
  | none => rw [hf] at h; simp at h
  | some j =>
    rw [hf] at h
    simp only [Option.map_some', Option.some.injEq] at h ⊢
    rw [← h]
    simp

theorem multi_pred_match (m : Mem α) {E : ElemType} (s : multi_delim E)
    (hd : ∀ i, i < s.delim.len → (deref m (s.delim.p + i)).isSome = true) (a : α) :
    ∃ ds, read_range m s.delim.p ds.length = some ds ∧ ds.length = s.delim.len ∧
      decide (a ∈ ds) = Delim.is_match (Delim.multi s) m a := by
  obtain ⟨ds, hds⟩ := read_range_of_readable m s.delim.len s.delim.p hd
  have hlen := read_range_length m _ _ _ hds
  rw [← hlen] at hds
  refine ⟨ds, hds, hlen, ?_⟩
  simp only [Delim.is_match, decide_eq_decide]
  constructor
  · intro hmem
    exact hlen ▸ read_range_mem m ds s.delim.p hds a hmem
  · rintro ⟨i, hi, hda⟩
    exact read_range_getElem m ds s.delim.p hds i a hda (hlen ▸ hi)

theorem Delim.find_first_eq (m : Mem α) (delim : Delim α) (hd : delim.readable m) :
    ∀ a b, delim.find_first m a b
      = find_if m a b (fun x => some (delim.is_match m x)) := by
  intro a b
  cases delim with
  | single s => rfl
  | bitset bs val => rfl
  | multi s =>
    have hpred : (fun x => (find m (Iter.ptr s.delim.p)
          (Iter.ptr (s.delim.p + s.delim.len)) x).map
        (fun j => decide (j ≠ Iter.ptr (s.delim.p + s.delim.len))))
        = (fun x => some (Delim.is_match (Delim.multi s) m x)) := by
      funext x
      obtain ⟨ds, hds, hlen, hm⟩ := multi_pred_match m s hd x
      rw [← hlen, find_in_delim m ds s.delim.p x hds, hm]
    simp only [Delim.find_first, multi_delim.find_first, find_first_of]
    rw [hpred]

theorem Delim.skip_all_eq (m : Mem α) (delim : Delim α) (hd : delim.readable m) :
    ∀ a b, delim.skip_all m a b
      = find_if m a b (fun x => some (!delim.is_match m x)) := by
  intro a b
  cases delim with
  | single s =>
    simp only [Delim.skip_all, single_delim.skip_all, Delim.is_match]
    congr 1
    funext x
    simp
  | bitset bs val => rfl
  | multi s =>
    have hpred : (fun x => (find m (Iter.ptr s.delim.p)
          (Iter.ptr (s.delim.p + s.delim.len)) x).map
        (fun j => decide (j = Iter.ptr (s.delim.p + s.delim.len))))
        = (fun x => some (!Delim.is_match (Delim.multi s) m x)) := by
      funext x
      obtain ⟨ds, hds, hlen, hm⟩ := multi_pred_match m s hd x
      rw [← hlen, find_in_delim_end m ds s.delim.p x hds, hm]
    simp only [Delim.skip_all, multi_delim.skip_all]
    rw [hpred]

end delim_any

/-! ## The two traversals of a view -/

section traversals
variable {α β γ σ : Type} {T : ElemType}

theorem read_range_get (m : Mem α) :
    ∀ (xs : List α) (p : Nat), read_range m p xs.length = some xs →
      ∀ k, k < xs.length → deref m (p + k) = xs[k]? := by
  intro xs
  induction xs with
  | nil => intro p _ k hk; simp at hk
  | cons x xs ih =>
    intro p h k hk
    obtain ⟨hx, ht⟩ := (read_range_succ m p _ x xs).mp h
    cases k with
    | zero => simpa using hx
    | succ j =>
      rw [show p + (j + 1) = p + 1 + j by omega, ih (p + 1) ht j (by simpa using hk)]
      simp

theorem walk_fwd (m : Mem α) (p : Nat) (xs : List α)
    (h : read_range m p xs.length = some xs) :
    Walk m (fun k => Iter.ptr (p + k)) (Iter.ptr (p + xs.length)) 0 xs := by
  refine ⟨by simp, ?_, ?_, ?_, ?_, ?_⟩
  · intro k hk
    simp only [Nat.zero_add, Iter.deref]
    exact read_range_get m xs p h k hk
  · intro k _; simp [Iter.next, Nat.add_assoc]
  · intro k hk hc
    simp only [Nat.zero_add] at hc
    injection hc with hc
    omega
  · intro k hk; simp only [Nat.zero_add, Iter.dist]; omega
  · intro k _; rfl

theorem walk_rev (m : Mem α) (p : Nat) (xs : List α)
    (h : read_range m p xs.length = some xs) :
    Walk m (fun k => Iter.rev (p + xs.length - k)) (Iter.rev p) 0 xs.reverse := by
  refine ⟨by simp, ?_, ?_, ?_, ?_, ?_⟩
  · intro k hk
    rw [List.length_reverse] at hk
    simp only [Nat.zero_add, Iter.deref]
    rw [if_neg (by omega), List.getElem?_reverse hk,
      ← read_range_get m xs p h (xs.length - 1 - k) (by omega)]
    congr 1
    omega
  · intro k hk
    rw [List.length_reverse] at hk
    simp only [Nat.zero_add, Iter.next]
    congr 1
  · intro k hk hc
    rw [List.length_reverse] at hk
    simp only [Nat.zero_add] at hc
    injection hc with hc
    omega
  · intro k hk
    rw [List.length_reverse] at hk ⊢
    simp only [Nat.zero_add, Iter.dist]
    omega
  · intro k _; rfl

theorem feed_map (g : σ → γ → σ × Bool) (h : β → γ) :
    ∀ (l : List β) (s : σ), feed g s (l.map h)
      = ((feed (fun s b => g s (h b)) s l).1, ((feed (fun s b => g s (h b)) s l).2).map h) := by
  intro l
  induction l with
  | nil => intro s; rfl
  | cons b l ih =>
    intro s
    simp only [List.map_cons, feed]
    split
    · rfl
    · exact ih _

theorem feed_push (l : List β) :
    ∀ (s : List β), feed (fun (res : List β) v => (res ++ [v], false)) s l = (s ++ l, []) := by
  induction l with
  | nil => intro s; simp [feed]
  | cons b l ih => intro s; simp [feed, ih]

end traversals
end adv

namespace adv

/-! ## Chunks and their index ranges -/

section chunks
variable {α : Type}

theorem span_nil : span ([] : List (List α)) = 0 := rfl

theorem span_cons (c : List α) (cs : List (List α)) :
    span (c :: cs) = c.length + 1 + span cs := by
  simp [span]

theorem span_append (cs ds : List (List α)) : span (cs ++ ds) = span cs + span ds := by
  simp [span]

theorem span_reverse (cs : List (List α)) : span cs.reverse = span cs := by
  induction cs with
  | nil => rfl
  | cons c cs ih =>
    rw [List.reverse_cons, span_append, ih, span_cons, span_cons, span_nil]
    omega

theorem cuts_at_append (cs ds : List (List α)) :
    ∀ o, cuts_at o (cs ++ ds) = cuts_at o cs ++ cuts_at (o + span cs) ds := by
  induction cs with
  | nil => intro o; simp [cuts_at, span_nil]
  | cons c cs ih =>
    intro o
    rw [List.cons_append, cuts_at, cuts_at, ih, span_cons, List.cons_append,
      show o + c.length + 1 + span cs = o + (c.length + 1 + span cs) by omega]

theorem cuts_at_map_reverse (cs : List (List α)) :
    ∀ o, cuts_at o (cs.map List.reverse) = cuts_at o cs := by
  induction cs with
  | nil => intro o; rfl
  | cons c cs ih => intro o; simp [cuts_at, ih]

theorem cuts_at_shift (cs : List (List α)) (k : Nat) :
    ∀ o, cuts_at (o + k) cs = (cuts_at o cs).map (fun c => (c.1 + k, c.2 + k)) := by
  induction cs with
  | nil => intro o; rfl
  | cons c cs ih =>
    intro o
    simp only [cuts_at, List.map_cons]
    rw [← ih (o + c.length + 1)]
    congr 2 <;> omega

theorem cuts_at_bounds (cs : List (List α)) :
    ∀ o c, c ∈ cuts_at o cs → o ≤ c.1 ∧ c.1 ≤ c.2 ∧ c.2 + 1 ≤ o + span cs := by
  induction cs with
  | nil => intro o c h; simp [cuts_at] at h
  | cons d cs ih =>
    intro o c h
    simp only [cuts_at, List.mem_cons] at h
    rw [span_cons]
    rcases h with rfl | h
    · simp only; omega
    · have := ih _ c h
      omega

theorem cuts_at_length (cs : List (List α)) : ∀ o, (cuts_at o cs).length = cs.length := by
  induction cs with
  | nil => intro o; rfl
  | cons c cs ih => intro o; simp [cuts_at, ih]

theorem cuts_at_reverse (cs : List (List α)) :
    cuts_at 0 cs.reverse
      = ((cuts_at 0 cs).map (fun c => (span cs - 1 - c.2, span cs - 1 - c.1))).reverse := by
  induction cs with
  | nil => rfl
  | cons d cs ih =>
    rw [List.reverse_cons, cuts_at_append, ih, span_reverse]
    simp only [cuts_at, List.map_cons, List.reverse_cons, Nat.zero_add, Nat.sub_zero]
    congr 1
    · congr 1
      have hshift := cuts_at_shift cs (d.length + 1) 0
      rw [Nat.zero_add] at hshift
      rw [hshift, List.map_map]
      apply List.map_congr_left
      intro c hc
      have hb := cuts_at_bounds cs 0 c hc
      simp only [Function.comp, span_cons]
      congr 1 <;> omega
    · rw [span_cons]
      congr 2 <;> omega

theorem span_splitOnP (q : α → Bool) (xs : List α) : span (xs.splitOnP q) = xs.length + 1 := by
  induction xs with
  | nil => simp [span]
  | cons x xs ih =>
    rw [List.splitOnP_cons]
    split
    · rw [span_cons, ih]; simp; omega
    · cases h : xs.splitOnP q with
      | nil => exact absurd h (List.splitOnP_ne_nil q xs)
      | cons c cs =>
        rw [h] at ih
        simp only [List.modifyHead_cons, span_cons, List.length_cons] at ih ⊢
        omega

theorem splitOnP_append_cons (q : α → Bool) (d : α) (hd : q d = true) (bs : List α) :
    ∀ (as : List α), (as ++ d :: bs).splitOnP q = as.splitOnP q ++ bs.splitOnP q := by
  intro as
  induction as with
  | nil => simp [hd]
  | cons a as ih =>
    rw [List.cons_append, List.splitOnP_cons, List.splitOnP_cons, ih]
    split
    · rfl
    · cases h : as.splitOnP q with
      | nil => exact absurd h (List.splitOnP_ne_nil q as)
      | cons c cs => rfl

theorem splitOnP_snoc_of_not (q : α → Bool) (x : α) (hx : q x = false) :
    ∀ (ys : List α) (L : List (List α)) (c : List α), ys.splitOnP q = L ++ [c] →
      (ys ++ [x]).splitOnP q = L ++ [c ++ [x]] := by
  intro ys
  induction ys with
  | nil =>
    intro L c h
    rw [List.splitOnP_nil] at h
    cases L with
    | nil =>
      simp only [List.nil_append, List.cons.injEq, and_true] at h
      subst h
      simp [hx]
    | cons l L =>
      have := congrArg List.length h
      simp at this
  | cons y ys ih =>
    intro L c h
    rw [List.splitOnP_cons] at h
    obtain ⟨L1, c1, h1⟩ : ∃ L1 c1, ys.splitOnP q = L1 ++ [c1] := by
      rcases List.eq_nil_or_concat (ys.splitOnP q) with hn | ⟨L1, c1, hc⟩
      · exact absurd hn (List.splitOnP_ne_nil q ys)
      · exact ⟨L1, c1, by rw [hc, List.concat_eq_append]⟩
    have ih1 := ih L1 c1 h1
    rw [List.cons_append, List.splitOnP_cons, ih1]
    rw [h1] at h
    split at h
    · rename_i hq
      rw [if_pos hq]
      have h2 : ([] :: L1) ++ [c1] = L ++ [c] := h
      obtain ⟨hL, hc⟩ := List.append_inj' h2 rfl
      simp only [List.cons.injEq, and_true] at hc
      rw [← hL, ← hc]
      rfl
    · rename_i hq
      rw [if_neg hq]
      cases L1 with
      | nil =>
        simp only [List.nil_append, List.modifyHead_cons] at h ⊢
        have h2 : ([] : List (List α)) ++ [y :: c1] = L ++ [c] := h
        obtain ⟨hL, hc⟩ := List.append_inj' h2 rfl
        simp only [List.cons.injEq, and_true] at hc
        rw [← hL, ← hc]
        rfl
      | cons l L1 =>
        simp only [List.cons_append, List.modifyHead_cons] at h ⊢
        have h2 : ((y :: l) :: L1) ++ [c1] = L ++ [c] := h
        obtain ⟨hL, hc⟩ := List.append_inj' h2 rfl
        simp only [List.cons.injEq, and_true] at hc
        rw [← hL, ← hc]
        rfl

theorem splitOnP_reverse (q : α → Bool) (xs : List α) :
    xs.reverse.splitOnP q = ((xs.splitOnP q).map List.reverse).reverse := by
  induction xs with
  | nil => rfl
  | cons x xs ih =>
    rw [List.reverse_cons, List.splitOnP_cons]
    cases hq : q x
    · cases h : xs.splitOnP q with
      | nil => exact absurd h (List.splitOnP_ne_nil q xs)
      | cons c cs =>
        rw [h] at ih
        simp only [Bool.false_eq_true, if_false, List.modifyHead_cons, List.map_cons,
          List.reverse_cons] at ih ⊢
        exact splitOnP_snoc_of_not q x hq xs.reverse _ _ ih
    · rw [splitOnP_append_cons q x hq [] xs.reverse, ih]
      simp

end chunks
end adv

namespace adv

/-! ## The back-to-front segments are the front-to-back segments in reverse order -/

section mirror
variable {α : Type} {T : ElemType}

theorem keep_cuts_bounds (q : α → Bool) (xs : List α) (c : Nat × Nat)
    (h : c ∈ keep_cuts q xs) : c.1 ≤ c.2 ∧ c.2 ≤ xs.length := by
  have := cuts_at_bounds (xs.splitOnP q) 0 c h
  rw [span_splitOnP] at this
  omega

theorem skip_cuts_bounds (q : α → Bool) (xs : List α) (c : Nat × Nat)
    (h : c ∈ skip_cuts q xs) : c.1 < c.2 ∧ c.2 ≤ xs.length := by
  have hm := List.mem_filter.mp h
  have := keep_cuts_bounds q xs c hm.1
  have h2 : c.1 < c.2 := by simpa using hm.2
  omega

theorem keep_cuts_reverse (q : α → Bool) (xs : List α) :
    keep_cuts q xs.reverse
      = ((keep_cuts q xs).map (fun c => (xs.length - c.2, xs.length - c.1))).reverse := by
  unfold keep_cuts
  rw [splitOnP_reverse, ← List.map_reverse, cuts_at_map_reverse, cuts_at_reverse,
    span_splitOnP]
  simp

theorem mirror_views (q : α → Bool) (xs : List α) (p : Nat) :
    (keep_cuts q xs.reverse).map (rev_view p xs.length : Nat × Nat → parray T)
      = ((keep_cuts q xs).map (fwd_view p)).reverse := by
  rw [keep_cuts_reverse, List.map_reverse, List.map_map]
  congr 1
  apply List.map_congr_left
  intro c hc
  have hb := keep_cuts_bounds q xs c hc
  simp only [Function.comp, rev_view, fwd_view, parray.mk.injEq]
  omega

theorem mirror_views_skip (q : α → Bool) (xs : List α) (p : Nat) :
    (skip_cuts q xs.reverse).map (rev_view p xs.length : Nat × Nat → parray T)
      = ((skip_cuts q xs).map (fwd_view p)).reverse := by
  unfold skip_cuts
  rw [keep_cuts_reverse, List.filter_reverse, List.filter_map, List.map_reverse, List.map_map]
  congr 1
  have hf : List.filter ((fun c : Nat × Nat => decide (c.1 < c.2)) ∘
        fun c => (xs.length - c.2, xs.length - c.1)) (keep_cuts q xs)
      = List.filter (fun c => decide (c.1 < c.2)) (keep_cuts q xs) := by
    apply List.filter_congr
    intro c hc
    have hb := keep_cuts_bounds q xs c hc
    simp only [Function.comp, decide_eq_decide]
    omega
  rw [hf]
  apply List.map_congr_left
  intro c hc
  have hb := keep_cuts_bounds q xs c (List.mem_filter.mp hc).1
  simp only [Function.comp, rev_view, fwd_view, parray.mk.injEq]
  omega

end mirror

/-! ## The four callback forms -/

section forms
variable {α β σ : Type} [DecidableEq α] {T : ElemType}

omit [DecidableEq α] in
theorem feed_rest_mem (g : σ → β → σ × Bool) :
    ∀ (l : List β) (s : σ) (b : β), b ∈ (feed g s l).2 → b ∈ l := by
  intro l
  induction l with
  | nil => intro s b h; simp [feed] at h
  | cons a l ih =>
    intro s b h
    rw [feed] at h
    split at h
    · exact List.mem_cons_of_mem _ h
    · exact List.mem_cons_of_mem _ (ih _ b h)

theorem split_f_spec (m : Mem α) (v : parray T) (delim : Delim α) (xs : List α)
    (f : σ → parray T → σ × Bool) (s : σ)
    (hv : v.vec m = some xs) (hd : delim.readable m) :
    split_f m v delim f s
      = some ((feed f s ((keep_cuts (delim.is_match m) xs).map (fwd_view v.p))).1,
          (((feed f s ((keep_cuts (delim.is_match m) xs).map (fwd_view v.p))).2.head?).map
            parray.p).getD nullptr) := by
  have hlen : xs.length = v.len := read_range_length m _ _ _ hv
  unfold parray.vec at hv
  rw [← hlen] at hv
  have hw := walk_fwd m v.p xs hv
  have h := split__walk m delim (delim.is_match m) (fun k => Iter.ptr (v.p + k))
    (Iter.ptr (v.p + xs.length))
    (fun s it it_end => f s (⟨it.dist it_end, it.base⟩ : parray T))
    (Delim.find_first_eq m delim hd) xs.length xs 0 (xs.length + 1) s rfl hw (by omega)
  simp only [Nat.add_zero] at h
  unfold split_f
  rw [← hlen, h, feed_map]
  have hg : (fun (s : σ) (c : Nat × Nat) =>
        f s (⟨(Iter.ptr (v.p + c.1)).dist (Iter.ptr (v.p + c.2)),
          (Iter.ptr (v.p + c.1)).base⟩ : parray T))
      = (fun s c => f s (fwd_view v.p c)) := by
    funext s c
    simp [Iter.dist, Iter.base, fwd_view, Nat.add_sub_add_left]
  rw [hg]
  simp only [Option.map_some', keep_cuts, Option.some.injEq, Prod.mk.injEq, true_and]
  cases (feed (fun s c => f s (fwd_view v.p c)) s
    (cuts_at 0 (List.splitOnP (delim.is_match m) xs))).2 with
  | nil => rfl
  | cons c rest => rfl

theorem split_se_f_spec (m : Mem α) (v : parray T) (delim : Delim α) (xs : List α)
    (f : σ → parray T → σ × Bool) (s : σ)
    (hv : v.vec m = some xs) (hd : delim.readable m) :
    split_se_f m v delim f s
      = some ((feed f s ((skip_cuts (delim.is_match m) xs).map (fwd_view v.p))).1,
          (((feed f s ((skip_cuts (delim.is_match m) xs).map (fwd_view v.p))).2.head?).map
            parray.p).getD nullptr) := by
  have hlen : xs.length = v.len := read_range_length m _ _ _ hv
  unfold parray.vec at hv
  rw [← hlen] at hv
  have hw := walk_fwd m v.p xs hv
  have h := split_se__walk m delim (delim.is_match m) (fun k => Iter.ptr (v.p + k))
    (Iter.ptr (v.p + xs.length))
    (fun s it it_end => f s (⟨it.dist it_end, it.base⟩ : parray T))
    (Delim.skip_all_eq m delim hd) (Delim.find_first_eq m delim hd)
    xs.length xs 0 (xs.length + 2) s false rfl hw (by omega)
  simp only [Nat.add_zero, Bool.false_eq_true, if_false] at h
  unfold split_se_f
  rw [← hlen, h, feed_map]
  have hg : (fun (s : σ) (c : Nat × Nat) =>
        f s (⟨(Iter.ptr (v.p + c.1)).dist (Iter.ptr (v.p + c.2)),
          (Iter.ptr (v.p + c.1)).base⟩ : parray T))
      = (fun s c => f s (fwd_view v.p c)) := by
    funext s c
    simp [Iter.dist, Iter.base, fwd_view, Nat.add_sub_add_left]
  rw [hg]
  simp only [Option.map_some', skip_cuts, keep_cuts, Option.some.injEq, Prod.mk.injEq,
    true_and]
  cases (feed (fun s c => f s (fwd_view v.p c)) s
    (List.filter (fun c => decide (c.1 < c.2))
      (cuts_at 0 (List.splitOnP (delim.is_match m) xs)))).2 with
  | nil => rfl
  | cons c rest => rfl

theorem rsplit_f_spec (m : Mem α) (v : parray T) (delim : Delim α) (xs : List α)
    (f : σ → parray T → σ × Bool) (s : σ)
    (hv : v.vec m = some xs) (hd : delim.readable m) :
    rsplit_f m v delim f s
      = some ((feed f s ((keep_cuts (delim.is_match m) xs).map (fwd_view v.p)).reverse).1,
          (((feed f s ((keep_cuts (delim.is_match m) xs).map (fwd_view v.p)).reverse).2.head?).map
            (fun w => w.p + w.len)).getD nullptr) := by
  have hlen : xs.length = v.len := read_range_length m _ _ _ hv
  unfold parray.vec at hv
  rw [← hlen] at hv
  have hw := walk_rev m v.p xs hv
  have h := split__walk m delim (delim.is_match m) (fun k => Iter.rev (v.p + xs.length - k))
    (Iter.rev v.p)
    (fun s it it_end => f s (⟨it.dist it_end, it_end.base⟩ : parray T))
    (Delim.find_first_eq m delim hd) xs.reverse.length xs.reverse 0 (xs.length + 1) s rfl hw
    (by simp)
  simp only [Nat.sub_zero] at h
  have hg : (fun (s : σ) (c : Nat × Nat) =>
        f s (⟨(Iter.rev (v.p + xs.length - c.1)).dist (Iter.rev (v.p + xs.length - c.2)),
          (Iter.rev (v.p + xs.length - c.2)).base⟩ : parray T))
      = (fun s c => f s (rev_view v.p xs.length c)) := by
    funext s c
    simp [Iter.dist, Iter.base, rev_view]
  rw [hg] at h
  unfold rsplit_f
  rw [← hlen, h, ← mirror_views, feed_map]
  simp only [Option.map_some', Option.some.injEq, Prod.mk.injEq]
  refine ⟨rfl, ?_⟩
  have hmem := feed_rest_mem (fun s c => f s (rev_view v.p xs.length c))
    (keep_cuts (delim.is_match m) xs.reverse) s
  change (resume_it _ _ (feed (fun s c => f s (rev_view v.p xs.length c)) s
    (keep_cuts (delim.is_match m) xs.reverse)).2).base = _
  cases hrest : (feed (fun s c => f s (rev_view v.p xs.length c)) s
    (keep_cuts (delim.is_match m) xs.reverse)).2 with
  | nil => rfl
  | cons c rest =>
    have hb := keep_cuts_bounds _ _ c (hmem c (by rw [hrest]; exact List.mem_cons_self _ _))
    rw [List.length_reverse] at hb
    simp only [resume_it, Iter.base, List.map_cons, List.head?_cons, Option.map_some',
      Option.getD_some, rev_view]
    omega

theorem rsplit_se_f_spec (m : Mem α) (v : parray T) (delim : Delim α) (xs : List α)
    (f : σ → parray T → σ × Bool) (s : σ)
    (hv : v.vec m = some xs) (hd : delim.readable m) :
    rsplit_se_f m v delim f s
      = some ((feed f s ((skip_cuts (delim.is_match m) xs).map (fwd_view v.p)).reverse).1,
          (((feed f s ((skip_cuts (delim.is_match m) xs).map (fwd_view v.p)).reverse).2.head?).map
            (fun w => w.p + w.len)).getD nullptr) := by
  have hlen : xs.length = v.len := read_range_length m _ _ _ hv
  unfold parray.vec at hv
  rw [← hlen] at hv
  have hw := walk_rev m v.p xs hv
  have h := split_se__walk m delim (delim.is_match m)
    (fun k => Iter.rev (v.p + xs.length - k)) (Iter.rev v.p)
    (fun s it it_end => f s (⟨it.dist it_end, it_end.base⟩ : parray T))
    (Delim.skip_all_eq m delim hd) (Delim.find_first_eq m delim hd)
    xs.reverse.length xs.reverse 0 (xs.length + 2) s false rfl hw (by simp)
  simp only [Nat.sub_zero, Bool.false_eq_true, if_false] at h
  have hg : (fun (s : σ) (c : Nat × Nat) =>
        f s (⟨(Iter.rev (v.p + xs.length - c.1)).dist (Iter.rev (v.p + xs.length - c.2)),
          (Iter.rev (v.p + xs.length - c.2)).base⟩ : parray T))
      = (fun s c => f s (rev_view v.p xs.length c)) := by
    funext s c
    simp [Iter.dist, Iter.base, rev_view]
  rw [hg] at h
  unfold rsplit_se_f
  rw [← hlen, h, ← mirror_views_skip, feed_map]
  simp only [Option.map_some', Option.some.injEq, Prod.mk.injEq]
  refine ⟨rfl, ?_⟩
  have hmem := feed_rest_mem (fun s c => f s (rev_view v.p xs.length c))
    (skip_cuts (delim.is_match m) xs.reverse) s
  change (resume_it _ _ (feed (fun s c => f s (rev_view v.p xs.length c)) s
    (skip_cuts (delim.is_match m) xs.reverse)).2).base = _
  cases hrest : (feed (fun s c => f s (rev_view v.p xs.length c)) s
    (skip_cuts (delim.is_match m) xs.reverse)).2 with
  | nil => rfl
  | cons c rest =>
    have hb := skip_cuts_bounds _ _ c (hmem c (by rw [hrest]; exact List.mem_cons_self _ _))
    rw [List.length_reverse] at hb
    simp only [resume_it, Iter.base, List.map_cons, List.head?_cons, Option.map_some',
      Option.getD_some, rev_view]
    omega

/-! ## The four collecting forms -/

theorem split_eq (m : Mem α) (v : parray T) (delim : Delim α) (xs : List α)
    (hv : v.vec m = some xs) (hd : delim.readable m) :
    split m v delim = some ((keep_cuts (delim.is_match m) xs).map (fwd_view v.p)) := by
  unfold split
  rw [split_f_spec m v delim xs _ _ hv hd, feed_push]
  simp

theorem split_se_eq (m : Mem α) (v : parray T) (delim : Delim α) (xs : List α)
    (hv : v.vec m = some xs) (hd : delim.readable m) :
    split_se m v delim = some ((skip_cuts (delim.is_match m) xs).map (fwd_view v.p)) := by
  unfold split_se
  rw [split_se_f_spec m v delim xs _ _ hv hd, feed_push]
  simp

theorem rsplit_eq (m : Mem α) (v : parray T) (delim : Delim α) (xs : List α)
    (hv : v.vec m = some xs) (hd : delim.readable m) :
    rsplit m v delim = some ((keep_cuts (delim.is_match m) xs).map (fwd_view v.p)).reverse := by
  unfold rsplit
  rw [rsplit_f_spec m v delim xs _ _ hv hd, feed_push]
  simp

theorem rsplit_se_eq (m : Mem α) (v : parray T) (delim : Delim α) (xs : List α)
    (hv : v.vec m = some xs) (hd : delim.readable m) :
    rsplit_se m v delim
      = some ((skip_cuts (delim.is_match m) xs).map (fwd_view v.p)).reverse := by
  unfold rsplit_se
  rw [rsplit_se_f_spec m v delim xs _ _ hv hd, feed_push]
  simp

end forms
end adv

namespace adv

/-! ## The segments that follow a given one -/

section suffixes
variable {α β σ : Type}

theorem cuts_at_drop (q : α → Bool) :
    ∀ (j : Nat) (xs : List α) (o : Nat) (c : Nat × Nat) (rest : List (Nat × Nat)),
      (cuts_at o (xs.splitOnP q)).drop j = c :: rest →
      ∃ a, c.1 = o + a ∧ a ≤ xs.length ∧
        cuts_at (o + a) ((xs.drop a).splitOnP q) = c :: rest ∧
        (xs.drop a).splitOnP q = (xs.splitOnP q).drop j ∧
        (0 < j → 0 < a ∧ ∃ d, xs[a - 1]? = some d ∧ q d = true) := by
  intro j
  induction j with
  | zero =>
    intro xs o c rest h
    rw [List.drop_zero] at h
    obtain ⟨b, rest', hcuts⟩ := cuts_at_head o (xs.splitOnP q) (List.splitOnP_ne_nil q xs)
    rw [hcuts] at h
    injection h with h1 h2
    refine ⟨0, by simp [← h1], Nat.zero_le _, ?_, rfl, fun h0 => absurd h0 (Nat.lt_irrefl 0)⟩
    rw [Nat.add_zero, List.drop_zero, hcuts, h1, h2]
  | succ j ih =>
    intro xs o c rest h
    rcases first_match_cases q xs with ⟨_, hnone⟩ | ⟨pre, d, post, rfl, _, hd, hpre⟩
    · rw [List.splitOnP_eq_single q xs hnone] at h
      simp [cuts_at] at h
    · rw [List.splitOnP_first q _ hpre d hd post] at h ⊢
      simp only [cuts_at, List.drop_succ_cons] at h ⊢
      obtain ⟨a, ha1, ha2, ha3, ha4, ha5⟩ := ih post (o + pre.length + 1) c rest h
      have hdrop : (pre ++ d :: post).drop (pre.length + 1 + a) = post.drop a := by
        rw [← List.drop_drop, show pre ++ d :: post = (pre ++ [d]) ++ post by simp]
        rw [List.drop_left' (by simp)]
      refine ⟨pre.length + 1 + a, by omega, by simp; omega, ?_, ?_, ?_⟩
      · rw [hdrop, show o + (pre.length + 1 + a) = o + pre.length + 1 + a by omega]
        exact ha3
      · rw [hdrop]; exact ha4
      · intro _
        refine ⟨by omega, ?_⟩
        by_cases hj : 0 < j
        · obtain ⟨ha0, d', hd1, hd2⟩ := ha5 hj
          refine ⟨d', ?_, hd2⟩
          rw [show pre ++ d :: post = (pre ++ [d]) ++ post by simp,
            List.getElem?_append_right (by simp; omega), ← hd1]
          congr 1
          simp
          omega
        · have hj0 : j = 0 := by omega
          subst hj0
          rw [List.drop_zero] at h
          obtain ⟨b, rest', hcuts⟩ := cuts_at_head (o + pre.length + 1) (post.splitOnP q)
            (List.splitOnP_ne_nil q post)
          rw [hcuts] at h
          injection h with h1 _
          have ha0 : a = 0 := by
            have : c.1 = o + pre.length + 1 := by rw [← h1]
            omega
          subst ha0
          refine ⟨d, ?_, hd⟩
          rw [show pre.length + 1 + 0 - 1 = pre.length by omega,
            List.getElem?_append_right (Nat.le_refl _), Nat.sub_self]
          exact List.getElem?_cons_zero

theorem cuts_at_consecutive (cs : List (List α)) :
    ∀ (j o : Nat) (c c1 : Nat × Nat) (rest : List (Nat × Nat)),
      (cuts_at o cs).drop j = c :: c1 :: rest → c1.1 = c.2 + 1 := by
  induction cs with
  | nil => intro j o c c1 rest h; simp [cuts_at] at h
  | cons d cs ih =>
    intro j o c c1 rest h
    cases j with
    | zero =>
      rw [List.drop_zero, cuts_at] at h
      injection h with h1 h2
      cases cs with
      | nil => simp [cuts_at] at h2
      | cons e cs =>
        rw [cuts_at] at h2
        injection h2 with h3 _
        rw [← h1, ← h3]
    | succ j =>
      rw [cuts_at, List.drop_succ_cons] at h
      exact ih j _ c c1 rest h

theorem feed_rest_drop (g : σ → β → σ × Bool) :
    ∀ (l : List β) (s : σ), ∃ j, (feed g s l).2 = l.drop j ∧ (l ≠ [] → 0 < j) := by
  intro l
  induction l with
  | nil => intro s; exact ⟨0, rfl, fun h => absurd rfl h⟩
  | cons b l ih =>
    intro s
    rw [feed]
    split
    · exact ⟨1, rfl, fun _ => Nat.one_pos⟩
    · obtain ⟨j, hj, _⟩ := ih (g s b).1
      exact ⟨j + 1, hj, fun _ => Nat.succ_pos _⟩

theorem read_range_drop (m : Mem α) (xs : List α) (p a : Nat)
    (h : read_range m p xs.length = some xs) (ha : a ≤ xs.length) :
    read_range m (p + a) (xs.length - a) = some (xs.drop a) := by
  have hsplit : xs = xs.take a ++ xs.drop a := (List.take_append_drop a xs).symm
  have h2 : read_range m p (xs.take a ++ xs.drop a).length = some (xs.take a ++ xs.drop a) := by
    rw [← hsplit]; exact h
  have := (read_range_append m _ _ p h2).2
  rwa [List.length_take, Nat.min_eq_left ha, List.length_drop] at this

theorem read_range_take (m : Mem α) (xs : List α) (p a : Nat)
    (h : read_range m p xs.length = some xs) (ha : a ≤ xs.length) :
    read_range m p a = some (xs.take a) := by
  have hsplit : xs = xs.take a ++ xs.drop a := (List.take_append_drop a xs).symm
  have h2 : read_range m p (xs.take a ++ xs.drop a).length = some (xs.take a ++ xs.drop a) := by
    rw [← hsplit]; exact h
  have := (read_range_append m _ _ p h2).1
  rwa [List.length_take, Nat.min_eq_left ha] at this

end suffixes
end adv

namespace adv

/-! ## Skip-empty and reverse forms against the keep-empty split -/

section se_claims
variable {α : Type} [DecidableEq α] {T : ElemType}

omit [DecidableEq α] in
theorem skip_cuts_all_match (q : α → Bool) (xs : List α) (h : ∀ x ∈ xs, q x = true) :
    skip_cuts q xs = [] := by
  unfold skip_cuts keep_cuts
  have := cuts_filter_lead q xs [] 0 h
  rw [List.append_nil] at this
  rw [this]
  simp [cuts_at]

omit [DecidableEq α] in
theorem skip_cuts_views (q : α → Bool) (xs : List α) (p : Nat) :
    (skip_cuts q xs).map (fwd_view p : Nat × Nat → parray T)
      = ((keep_cuts q xs).map (fwd_view p)).filter (fun s => !s.empty) := by
  unfold skip_cuts
  rw [List.filter_map]
  congr 1
  apply List.filter_congr
  intro c _
  simp only [Function.comp, fwd_view, parray.empty]
  by_cases hc : c.1 < c.2
  · simp [hc]; omega
  · simp [hc]; omega

/-- C11: for a readable view `v` and any delimiter, `split_se` and `rsplit_se` return segment
lists in which every segment has length at least 1, and when every element of `v` matches the
delimiter (in particular when `v` is empty) both lists are empty. -/
theorem split_se_segments_nonempty (m : Mem α) (v : parray T) (delim : Delim α)
    (hv : parray.readable m v) (hd : delim.readable m) :
    ∃ segs rsegs xs, split_se m v delim = some segs ∧ rsplit_se m v delim = some rsegs ∧
      v.vec m = some xs ∧
      (∀ s ∈ segs, 1 ≤ s.len) ∧ (∀ s ∈ rsegs, 1 ≤ s.len) ∧
      ((∀ x ∈ xs, delim.is_match m x = true) → segs = [] ∧ rsegs = []) := by
  obtain ⟨xs, hxs⟩ := readable_vec m v hv
  have hlen : ∀ s ∈ (skip_cuts (delim.is_match m) xs).map (fwd_view v.p : _ → parray T),
      1 ≤ s.len := by
    intro s hs
    obtain ⟨c, hc, rfl⟩ := List.mem_map.mp hs
    have := skip_cuts_bounds _ _ c hc
    simp only [fwd_view]
    omega
  refine ⟨_, _, xs, split_se_eq m v delim xs hxs hd, rsplit_se_eq m v delim xs hxs hd, hxs,
    hlen, fun s hs => hlen s (List.mem_reverse.mp hs), fun hall => ?_⟩
  rw [skip_cuts_all_match _ _ hall]
  exact ⟨rfl, rfl⟩

/-- C12: for a readable view `v` and any delimiter, `split_se` returns the segment list of
`split` with the empty segments removed, the others in the same order. -/
theorem split_se_filters_split (m : Mem α) (v : parray T) (delim : Delim α)
    (hv : parray.readable m v) (hd : delim.readable m) :
    ∃ segs, split m v delim = some segs ∧
      split_se m v delim = some (segs.filter (fun s => !s.empty)) := by
  obtain ⟨xs, hxs⟩ := readable_vec m v hv
  refine ⟨_, split_eq m v delim xs hxs hd, ?_⟩
  rw [split_se_eq m v delim xs hxs hd, skip_cuts_views]

/-- C15: for a readable view `v` and any delimiter, `rsplit` returns the segments of `split`
in reverse order and `rsplit_se` those of `split_se` in reverse order; the segments are the
same views (same start and length), so each reads its elements front to back. -/
theorem rsplit_reverses_split (m : Mem α) (v : parray T) (delim : Delim α)
    (hv : parray.readable m v) (hd : delim.readable m) :
    ∃ segs segs_se, split m v delim = some segs ∧ split_se m v delim = some segs_se ∧
      rsplit m v delim = some segs.reverse ∧ rsplit_se m v delim = some segs_se.reverse := by
  obtain ⟨xs, hxs⟩ := readable_vec m v hv
  exact ⟨_, _, split_eq m v delim xs hxs hd, split_se_eq m v delim xs hxs hd,
    rsplit_eq m v delim xs hxs hd, rsplit_se_eq m v delim xs hxs hd⟩

end se_claims
end adv

namespace adv

/-! ## Skip-empty join -/

section join_se_claims
variable {α σ : Type} {T E : ElemType}

theorem join_se_rest_filter (f : σ → parray T → σ) (delim : parray T) :
    ∀ (segs : List (parray T)) (s : σ),
      join_se_rest f delim segs s = join_rest f delim (segs.filter (fun v => !v.empty)) s := by
  intro segs
  induction segs with
  | nil => intro s; rfl
  | cons v rest ih =>
    intro s
    rw [join_se_rest]
    by_cases hv : (!v.empty) = true
    · rw [if_pos hv, List.filter_cons, if_pos hv, join_rest, ih]
    · rw [if_neg hv, List.filter_cons, if_neg hv, ih]

theorem join_se_f_filter (f : σ → parray T → σ) (delim : parray T) :
    ∀ (segs : List (parray T)) (s : σ),
      join_se_f f delim segs s = join_f f delim (segs.filter (fun v => !v.empty)) s := by
  intro segs
  induction segs with
  | nil => intro s; rfl
  | cons v rest ih =>
    intro s
    rw [join_se_f]
    by_cases hv : (!v.empty) = true
    · rw [if_pos hv, List.filter_cons, if_pos hv, join_f, join_se_rest_filter]
    · rw [if_neg hv, List.filter_cons, if_neg hv, ih]

/-- C17: for every segment list and every delimiter, a single element `d` or a view `delim`,
`join_se` returns what `join` returns on the list with the empty segments removed; when no
segment is non-empty the result is the empty buffer. -/
theorem join_se_skips_empty (m : Mem α) (segs : List (parray T)) (d : α) (delim : parray E) :
    join_se m segs d = join m (segs.filter (fun v => !v.empty)) d ∧
      join_se_parray m segs delim = join_parray m (segs.filter (fun v => !v.empty)) delim ∧
      ((∀ v ∈ segs, v.empty = true) →
        join_se m segs d = some [] ∧ join_se_parray m segs delim = some []) := by
  have h1 : join_se m segs d = join m (segs.filter (fun v => !v.empty)) d := by
    unfold join_se join join_se_ join_
    exact join_se_f_filter _ _ _ _
  have h2 : join_se_parray m segs delim
      = join_parray m (segs.filter (fun v => !v.empty)) delim := by
    unfold join_se_parray join_parray join_se_ join_
    exact join_se_f_filter _ _ _ _
  refine ⟨h1, h2, fun hall => ?_⟩
  have hnil : segs.filter (fun v => !v.empty) = [] := by
    rw [List.filter_eq_nil_iff]
    intro v hv
    simp [hall v hv]
  rw [h1, h2, hnil]
  exact ⟨rfl, rfl⟩

end join_se_claims

/-! ## When the callback forms stop -/

section callback_claims
variable {α σ : Type} [DecidableEq α] {T : ElemType}

/-- C19 (as worded): on the view ",1,2,3,, 4 .," split at ',' (seven segments) a functor
that returns `false` on every call is called seven times, and one that returns `true` on
every call is called once; so a call returning `false` is not the last one and a call
returning `true` is. The state counts the calls. -/
theorem split_until_false_counterexample :
    split_f sample_mem sample_csv (Delim.single ⟨44⟩) (fun (n : Nat) _ => (n + 1, false)) 0
        = some (7, nullptr) ∧
      split_f sample_mem sample_csv (Delim.single ⟨44⟩) (fun (n : Nat) _ => (n + 1, true)) 0
        = some (1, 15) := by
  decide

/-- C19 (amended): for a readable view `v`, any delimiter and any functor `f`, each of the
four callback forms calls `f` on the segments of the corresponding collecting form, in that
form's order, until a call returns `true`: the next segment is passed only after a call that
returned `false`, and a call returning `true` is the last one (`feed`). -/
theorem split_until_true (m : Mem α) (v : parray T) (delim : Delim α)
    (f : σ → parray T → σ × Bool) (s : σ)
    (hv : parray.readable m v) (hd : delim.readable m) :
    ∃ segs segs_se, split m v delim = some segs ∧ split_se m v delim = some segs_se ∧
      (split_f m v delim f s).map Prod.fst = some (feed f s segs).1 ∧
      (split_se_f m v delim f s).map Prod.fst = some (feed f s segs_se).1 ∧
      (rsplit_f m v delim f s).map Prod.fst = some (feed f s segs.reverse).1 ∧
      (rsplit_se_f m v delim f s).map Prod.fst = some (feed f s segs_se.reverse).1 := by
  obtain ⟨xs, hxs⟩ := readable_vec m v hv
  refine ⟨_, _, split_eq m v delim xs hxs hd, split_se_eq m v delim xs hxs hd, ?_, ?_, ?_, ?_⟩
  · rw [split_f_spec m v delim xs f s hxs hd]; rfl
  · rw [split_se_f_spec m v delim xs f s hxs hd]; rfl
  · rw [rsplit_f_spec m v delim xs f s hxs hd]; rfl
  · rw [rsplit_se_f_spec m v delim xs f s hxs hd]; rfl

end callback_claims
end adv

namespace adv

/-! ## Resuming after a stop -/

section resume
variable {α σ : Type} [DecidableEq α] {T : ElemType}

theorem split_views_read (m : Mem α) (v : parray T) (delim : Delim α) (xs : List α)
    (hv : v.vec m = some xs) (hd : delim.readable m) :
    List.Forall₂ (fun (seg : parray T) chunk => read_range m seg.p seg.len = some chunk)
      ((keep_cuts (delim.is_match m) xs).map (fwd_view v.p))
      (xs.splitOnP (delim.is_match m)) := by
  obtain ⟨segs, hsegs, hforall⟩ := split_spec m delim (delim.is_match m) v xs
    (Delim.find_first_is_match m delim hd) hv
  rw [split_eq m v delim xs hv hd] at hsegs
  rw [Option.some.inj hsegs]
  exact hforall

omit [DecidableEq α] in
theorem suffix_views (q : α → Bool) (ys : List α) (p a : Nat) (c : Nat × Nat)
    (rest : List (Nat × Nat)) (h : cuts_at (0 + a) (ys.splitOnP q) = c :: rest) :
    (keep_cuts q ys).map (fwd_view (p + a) : Nat × Nat → parray T)
      = (c :: rest).map (fwd_view p) := by
  rw [← h, cuts_at_shift, List.map_map]
  unfold keep_cuts
  apply List.map_congr_left
  intro e _
  simp only [Function.comp, fwd_view, Nat.add_sub_add_right]
  congr 1
  omega

theorem split_suffix (m : Mem α) (v : parray T) (delim : Delim α) (xs : List α)
    (hv : v.vec m = some xs) (hd : delim.readable m)
    (j : Nat) (c : Nat × Nat) (rest : List (Nat × Nat))
    (hdrop : (keep_cuts (delim.is_match m) xs).drop j = c :: rest) (hj : 0 < j) :
    0 < c.1 ∧ c.1 ≤ xs.length ∧
      (∃ d, xs[c.1 - 1]? = some d ∧ deref m (v.p + c.1 - 1) = some d ∧
        delim.is_match m d = true) ∧
      (⟨v.len - c.1, v.p + c.1⟩ : parray T).vec m = some (xs.drop c.1) ∧
      split m (⟨v.len - c.1, v.p + c.1⟩ : parray T) delim
        = some ((c :: rest).map (fwd_view v.p)) ∧
      (xs.drop c.1).splitOnP (delim.is_match m) = (xs.splitOnP (delim.is_match m)).drop j := by
  have hlen : xs.length = v.len := read_range_length m _ _ _ hv
  obtain ⟨a, ha1, ha2, ha3, ha4, ha5⟩ := cuts_at_drop (delim.is_match m) j xs 0 c rest hdrop
  obtain ⟨ha0, d, hd1, hd2⟩ := ha5 hj
  have hca : c.1 = a := by omega
  have hvec : (⟨v.len - c.1, v.p + c.1⟩ : parray T).vec m = some (xs.drop c.1) := by
    unfold parray.vec at hv ⊢
    rw [← hlen] at hv ⊢
    exact read_range_drop m xs v.p c.1 hv (by omega)
  refine ⟨by omega, by omega, ⟨d, by rw [hca]; exact hd1, ?_, hd2⟩, hvec, ?_, by rw [hca]; exact ha4⟩
  · unfold parray.vec at hv
    rw [← hlen] at hv
    rw [show v.p + c.1 - 1 = v.p + (a - 1) by omega,
      read_range_get m xs v.p hv (a - 1) (by omega)]
    exact hd1
  · rw [split_eq m _ delim _ hvec hd]
    rw [hca]
    exact congrArg some (suffix_views (delim.is_match m) (xs.drop a) v.p a c rest ha3)

/-- C18: for a readable view `v`, any delimiter and any functor `f`, the callback form
`split(v, d, f)` calls `f` on the segments of the collecting `split` in order and stops after
the first call that returns `true` (`feed`). When segments are left over, the first of them,
`w`, starts at the returned position, that position is not null, the element before it is a
delimiter occurrence, and the collecting `split` of the remainder `[w.p, end of v)` is exactly
the list of segments not passed. When none is left over the null pointer is returned. -/
theorem split_callback_resume (m : Mem α) (v : parray T) (delim : Delim α)
    (f : σ → parray T → σ × Bool) (s : σ)
    (hv : parray.readable m v) (hd : delim.readable m) :
    ∃ segs, split m v delim = some segs ∧
      split_f m v delim f s
        = some ((feed f s segs).1, (((feed f s segs).2.head?).map parray.p).getD nullptr) ∧
      ∀ w rest, (feed f s segs).2 = w :: rest →
        w.p ≠ nullptr ∧
        (∃ x, deref m (w.p - 1) = some x ∧ delim.is_match m x = true) ∧
        split m (⟨v.p + v.len - w.p, w.p⟩ : parray T) delim = some (w :: rest) := by
  obtain ⟨xs, hxs⟩ := readable_vec m v hv
  refine ⟨_, split_eq m v delim xs hxs hd, split_f_spec m v delim xs f s hxs hd, ?_⟩
  intro w rest hfeed
  rw [feed_map] at hfeed
  obtain ⟨j, hj, hjpos⟩ := feed_rest_drop (fun s b => f s (fwd_view v.p b))
    (keep_cuts (delim.is_match m) xs) s
  simp only [hj] at hfeed
  cases hc : (keep_cuts (delim.is_match m) xs).drop j with
  | nil => rw [hc] at hfeed; simp at hfeed
  | cons c restc =>
    rw [hc, List.map_cons] at hfeed
    injection hfeed with hw hrest
    have hne : keep_cuts (delim.is_match m) xs ≠ [] :=
      cuts_at_ne_nil 0 _ (List.splitOnP_ne_nil _ xs)
    obtain ⟨h0, _, ⟨d, _, hd1, hd2⟩, _, hsplit, _⟩ :=
      split_suffix m v delim xs hxs hd j c restc hc (hjpos hne)
    have hwp : w.p = v.p + c.1 := by rw [← hw]; rfl
    refine ⟨by rw [hwp]; unfold nullptr; omega, ⟨d, by rw [hwp]; exact hd1, hd2⟩, ?_⟩
    rw [hwp, show v.p + v.len - (v.p + c.1) = v.len - c.1 by omega, hsplit, List.map_cons,
      hw, hrest]

end resume
end adv

namespace adv

/-! ## Bounded-buffer forms -/

section bounded
variable {α β : Type} [DecidableEq α] {T : ElemType}

omit [DecidableEq α] in
theorem take_succ_set (v : β) :
    ∀ (buf : List β) (i : Nat), i < buf.length →
      (buf.set i v).take (i + 1) = buf.take i ++ [v] := by
  intro buf
  induction buf with
  | nil => intro i h; simp at h
  | cons b buf ih =>
    intro i h
    cases i with
    | zero => simp
    | succ i =>
      simp only [List.set_cons_succ, List.take_succ_cons, List.cons_append]
      rw [ih i (by simpa using h)]

omit [DecidableEq α] in
theorem take_set_same (v : β) :
    ∀ (buf : List β) (i : Nat), (buf.set i v).take i = buf.take i := by
  intro buf
  induction buf with
  | nil => intro i; simp
  | cons b buf ih =>
    intro i
    cases i with
    | zero => simp
    | succ i => simp only [List.set_cons_succ, List.take_succ_cons, ih]

omit [DecidableEq α] in
theorem feed_buf_push (count : Nat) :
    ∀ (segs buf : List (parray T)) (i : Nat), i < count →
      i + min segs.length (count - i) ≤ buf.length →
      ∃ buf1, feed (buf_push count) (buf, i) segs
          = ((buf1, i + min segs.length (count - i)),
              segs.drop (min segs.length (count - i))) ∧
        buf1.length = buf.length ∧
        buf1.take (i + min segs.length (count - i))
          = buf.take i ++ segs.take (min segs.length (count - i)) := by
  intro segs
  induction segs with
  | nil => intro buf i _ _; exact ⟨buf, by simp [feed], rfl, by simp⟩
  | cons w rest ih =>
    intro buf i hi hlen
    have hmin : min (w :: rest).length (count - i) = min rest.length (count - (i + 1)) + 1 := by
      simp only [List.length_cons]
      omega
    rw [hmin] at hlen ⊢
    rw [feed]
    by_cases hstop : i + 1 = count
    · have h0 : min rest.length (count - (i + 1)) = 0 := by omega
      rw [h0] at hlen ⊢
      refine ⟨buf.set i w, ?_, by simp, ?_⟩
      · simp [buf_push, hstop]
      · rw [List.take_succ_cons, List.take_zero]
        exact take_succ_set w buf i (by omega)
    · obtain ⟨buf1, h1, h2, h3⟩ := ih (buf.set i w) (i + 1) (by omega)
        (by rw [List.length_set]; omega)
      refine ⟨buf1, ?_, by rw [h2, List.length_set], ?_⟩
      · have hg : (buf_push count (buf, i) w).2 = false := by simp [buf_push, hstop]
        have hs : (buf_push count (buf, i) w).1 = (buf.set i w, i + 1) := rfl
        rw [if_neg (by rw [hg]; simp), hs, h1, List.drop_succ_cons]
        congr 2
        omega
      · rw [show i + (min rest.length (count - (i + 1)) + 1)
            = i + 1 + min rest.length (count - (i + 1)) by omega, h3,
          take_succ_set w buf i (by omega), List.take_succ_cons]
        simp

end bounded
end adv

namespace adv

section bounded_split
variable {α : Type} [DecidableEq α] {T : ElemType}

theorem split_buf_short (m : Mem α) (v : parray T) (delim : Delim α) (xs : List α)
    (buf : List (parray T)) (k : Nat)
    (hv : v.vec m = some xs) (hd : delim.readable m) (hk : 2 ≤ k) (hbuf : k ≤ buf.length)
    (hm : ((keep_cuts (delim.is_match m) xs).map (fwd_view v.p : _ → parray T)).length < k) :
    ∃ buf1, split_buf m v delim buf k
        = some (buf1, ((keep_cuts (delim.is_match m) xs).map
            (fwd_view v.p : _ → parray T)).length) ∧
      buf1.take ((keep_cuts (delim.is_match m) xs).map (fwd_view v.p : _ → parray T)).length
        = (keep_cuts (delim.is_match m) xs).map (fwd_view v.p) := by
  generalize hsegs : (keep_cuts (delim.is_match m) xs).map (fwd_view v.p : _ → parray T)
    = segs at hm ⊢
  have hmin : min segs.length (k - 1 - 0) = segs.length := by omega
  obtain ⟨buf1, h1, _, h3⟩ := feed_buf_push (k - 1) segs buf 0 (by omega) (by omega)
  rw [hmin, Nat.zero_add] at h1 h3
  refine ⟨buf1, ?_, by simpa using h3⟩
  unfold split_buf
  simp only [split_f_spec m v delim xs _ _ hv hd, hsegs, h1]
  simp

theorem split_buf_full (m : Mem α) (v : parray T) (delim : Delim α) (xs : List α)
    (buf : List (parray T)) (k : Nat)
    (hv : v.vec m = some xs) (hd : delim.readable m) (hk : 2 ≤ k) (hbuf : k ≤ buf.length)
    (hm : k ≤ (keep_cuts (delim.is_match m) xs).length) :
    ∃ buf1 c rest, (keep_cuts (delim.is_match m) xs).drop (k - 1) = c :: rest ∧
      split_buf m v delim buf k = some (buf1, k) ∧
      buf1.take (k - 1)
        = ((keep_cuts (delim.is_match m) xs).map (fwd_view v.p)).take (k - 1) ∧
      buf1[k - 1]? = some ⟨v.len - c.1, v.p + c.1⟩ := by
  cases hc : (keep_cuts (delim.is_match m) xs).drop (k - 1) with
  | nil =>
    have := congrArg List.length hc
    rw [List.length_drop, List.length_nil] at this
    omega
  | cons c rest =>
    obtain ⟨h0, _, _, _, _, _⟩ := split_suffix m v delim xs hv hd (k - 1) c rest hc (by omega)
    generalize hsegs : (keep_cuts (delim.is_match m) xs).map (fwd_view v.p : _ → parray T)
      = segs
    have hlen : segs.length = (keep_cuts (delim.is_match m) xs).length := by
      rw [← hsegs, List.length_map]
    have hmin : min segs.length (k - 1 - 0) = k - 1 := by omega
    obtain ⟨buf1, h1, h2, h3⟩ := feed_buf_push (k - 1) segs buf 0 (by omega) (by omega)
    rw [hmin, Nat.zero_add] at h1 h3
    have hrest : segs.drop (k - 1) = fwd_view v.p c :: rest.map (fwd_view v.p) := by
      rw [← hsegs, ← List.map_drop, hc, List.map_cons]
    refine ⟨(buf1.set (k - 1) ⟨v.len - c.1, v.p + c.1⟩), c, rest, rfl, ?_, ?_, ?_⟩
    · unfold split_buf
      simp only [split_f_spec m v delim xs _ _ hv hd, hsegs, h1, hrest]
      have hp : v.p + c.1 ≠ nullptr := by unfold nullptr; omega
      simp [fwd_view, hp]
      omega
    · rw [take_set_same, h3]
      simp
    · rw [List.getElem?_set_self (by omega)]

end bounded_split
end adv

namespace adv

section bounded_claims
variable {α : Type} [DecidableEq α] {T : ElemType}

omit [DecidableEq α] in
theorem intercalate_cons (sep c : List α) (cs : List (List α)) :
    sep.intercalate (c :: cs) = c ++ (cs.map (fun x => sep ++ x)).flatten := by
  unfold List.intercalate
  exact flatten_intersperse sep c cs

omit [DecidableEq α] in
theorem intercalate_append_tail (sep : List α) (l1 l2 : List (List α)) (h : l2 ≠ []) :
    sep.intercalate (l1 ++ [sep.intercalate l2]) = sep.intercalate (l1 ++ l2) := by
  cases l2 with
  | nil => exact absurd rfl h
  | cons c2 l2 =>
    cases l1 with
    | nil => simp [List.intercalate]
    | cons c1 l1 =>
      rw [List.cons_append, List.cons_append, intercalate_cons, intercalate_cons,
        intercalate_cons]
      simp

theorem single_is_match (m : Mem α) (d : α) :
    (Delim.single ⟨d⟩ : Delim α).is_match m = (fun a => a == d) := by
  funext a
  show decide (a = d) = (a == d)
  rfl

omit [DecidableEq α] in
theorem join_reads (m : Mem α) (d : α) (segs : List (parray T)) (chunks : List (List α))
    (h : List.Forall₂ (fun (seg : parray T) chunk => read_range m seg.p seg.len = some chunk)
      segs chunks) :
    join m segs d = some ([d].intercalate chunks) := by
  unfold join
  have hd : read_range (m ++ [some d]) (⟨1, m.length⟩ : parray T).p
      (⟨1, m.length⟩ : parray T).len = some [d] := by
    simp [read_range, deref]
  exact join__spec (m ++ [some d]) _ [d] hd segs _
    (h.imp (fun _ _ h => read_range_append_mem m _ _ _ _ h))

/-- C13: bounded-buffer `split` with capacity `k ≥ 2` into an array of at least `k` slots,
for a readable view `v` and any delimiter; `segs` is the result of the collecting `split`.
The call returns `min segs.length k`; the first `min segs.length (k - 1)` slots hold the first
segments of `segs` in order; and when `segs.length ≥ k`, slot `k - 1` holds the view `r` that
starts where segment `k - 1` of `segs` starts, just after a delimiter occurrence, and runs to
the end of `v`, the collecting `split` of `r` being the segments of `segs` from index `k - 1`
on. -/
theorem split_buf_spec (m : Mem α) (v : parray T) (delim : Delim α) (buf : List (parray T))
    (k : Nat) (hv : parray.readable m v) (hd : delim.readable m) (hk : 2 ≤ k)
    (hbuf : k ≤ buf.length) :
    ∃ segs buf1, split m v delim = some segs ∧
      split_buf m v delim buf k = some (buf1, min segs.length k) ∧
      buf1.take (min segs.length (k - 1)) = segs.take (min segs.length (k - 1)) ∧
      (k ≤ segs.length → ∃ w r, segs[k - 1]? = some w ∧ buf1[k - 1]? = some r ∧
        r.p = w.p ∧ r.p + r.len = v.p + v.len ∧
        (∃ x, deref m (w.p - 1) = some x ∧ delim.is_match m x = true) ∧
        split m r delim = some (segs.drop (k - 1))) := by
  obtain ⟨xs, hxs⟩ := readable_vec m v hv
  have hlen : xs.length = v.len := read_range_length m _ _ _ hxs
  by_cases hm : ((keep_cuts (delim.is_match m) xs).map (fwd_view v.p : _ → parray T)).length < k
  · obtain ⟨buf1, h1, h2⟩ := split_buf_short m v delim xs buf k hxs hd hk hbuf hm
    refine ⟨_, buf1, split_eq m v delim xs hxs hd, ?_, ?_, fun h => absurd h (by omega)⟩
    · rw [h1, Nat.min_eq_left (by omega)]
    · rw [Nat.min_eq_left (by omega), h2, List.take_length]
  · have hm2 : k ≤ (keep_cuts (delim.is_match m) xs).length := by
      rw [List.length_map] at hm; omega
    obtain ⟨buf1, c, rest, hc, h1, h2, h3⟩ :=
      split_buf_full m v delim xs buf k hxs hd hk hbuf hm2
    obtain ⟨h0, hle, ⟨x, _, hx1, hx2⟩, _, hsplit, _⟩ :=
      split_suffix m v delim xs hxs hd (k - 1) c rest hc (by omega)
    refine ⟨_, buf1, split_eq m v delim xs hxs hd, ?_, ?_, fun _ => ?_⟩
    · rw [h1, List.length_map, Nat.min_eq_right hm2]
    · rw [List.length_map, Nat.min_eq_right (by omega), h2]
    · refine ⟨fwd_view v.p c, ⟨v.len - c.1, v.p + c.1⟩, ?_, h3, rfl, ?_, ⟨x, hx1, hx2⟩, ?_⟩
      · rw [List.getElem?_map, ← List.head?_drop, hc]
        rfl
      · show v.p + c.1 + (v.len - c.1) = v.p + v.len
        omega
      · rw [hsplit, ← List.map_drop, hc]

/-- C14: for a readable view `v`, a single-element delimiter `d` and a capacity `k ≥ 2` (the
array has at least `k` slots), `join` with `d` of the `count` slots written by the bounded
`split` is the element sequence of `v`. -/
theorem join_split_buf_round_trip (m : Mem α) (v : parray T) (d : α) (buf : List (parray T))
    (k : Nat) (hv : parray.readable m v) (hk : 2 ≤ k) (hbuf : k ≤ buf.length) :
    ∃ buf1 count xs, split_buf m v (Delim.single ⟨d⟩) buf k = some (buf1, count) ∧
      v.vec m = some xs ∧ join m (buf1.take count) d = some xs := by
  obtain ⟨xs, hxs⟩ := readable_vec m v hv
  have hlen : xs.length = v.len := read_range_length m _ _ _ hxs
  have hd : (Delim.single ⟨d⟩ : Delim α).readable m := trivial
  have hread := split_views_read m v (Delim.single ⟨d⟩) xs hxs hd
  have hall : [d].intercalate (xs.splitOnP ((Delim.single ⟨d⟩ : Delim α).is_match m)) = xs := by
    rw [single_is_match]
    exact List.intercalate_splitOn xs d
  by_cases hm : ((keep_cuts ((Delim.single ⟨d⟩ : Delim α).is_match m) xs).map
      (fwd_view v.p : _ → parray T)).length < k
  · obtain ⟨buf1, h1, h2⟩ := split_buf_short m v _ xs buf k hxs hd hk hbuf hm
    refine ⟨buf1, _, xs, h1, hxs, ?_⟩
    rw [h2, join_reads m d _ _ hread, hall]
  · have hm2 : k ≤ (keep_cuts ((Delim.single ⟨d⟩ : Delim α).is_match m) xs).length := by
      rw [List.length_map] at hm; omega
    obtain ⟨buf1, c, rest, hc, h1, h2, h3⟩ :=
      split_buf_full m v _ xs buf k hxs hd hk hbuf hm2
    obtain ⟨h0, hle, _, hvec, _, hchunks⟩ :=
      split_suffix m v _ xs hxs hd (k - 1) c rest hc (by omega)
    refine ⟨buf1, k, xs, h1, hxs, ?_⟩
    have htake : buf1.take k
        = ((keep_cuts ((Delim.single ⟨d⟩ : Delim α).is_match m) xs).map
            (fwd_view v.p)).take (k - 1) ++ [(⟨v.len - c.1, v.p + c.1⟩ : parray T)] := by
      rw [show k = (k - 1) + 1 by omega, List.take_succ, h3, Nat.add_sub_cancel, h2]
      rfl
    have hforall : List.Forall₂
        (fun (seg : parray T) chunk => read_range m seg.p seg.len = some chunk)
        (buf1.take k)
        ((xs.splitOnP ((Delim.single ⟨d⟩ : Delim α).is_match m)).take (k - 1)
          ++ [xs.drop c.1]) := by
      rw [htake]
      exact List.rel_append (List.forall₂_take (k - 1) hread)
        (List.Forall₂.cons hvec List.Forall₂.nil)
    have hsuffix : xs.drop c.1
        = [d].intercalate ((xs.splitOnP ((Delim.single ⟨d⟩ : Delim α).is_match m)).drop
            (k - 1)) := by
      rw [← hchunks, single_is_match]
      exact (List.intercalate_splitOn (xs.drop c.1) d).symm
    have hne : (xs.splitOnP ((Delim.single ⟨d⟩ : Delim α).is_match m)).drop (k - 1) ≠ [] := by
      rw [← hchunks]
      exact List.splitOnP_ne_nil _ _
    rw [join_reads m d _ _ hforall, hsuffix, intercalate_append_tail _ _ _ hne,
      List.take_append_drop, hall]

end bounded_claims
end adv

namespace adv

/-! ## Reverse round trips -/

section reverse_claims
variable {α β : Type} [DecidableEq α] {T : ElemType}

omit [DecidableEq α] in
theorem drop_succ_of_drop :
    ∀ (l : List β) (i : Nat) (a : β) (t : List β), l.drop i = a :: t → l.drop (i + 1) = t := by
  intro l
  induction l with
  | nil => intro i a t h; simp at h
  | cons b l ih =>
    intro i a t h
    cases i with
    | zero =>
      rw [List.drop_zero] at h
      rw [h]
      rfl
    | succ i =>
      rw [List.drop_succ_cons] at h ⊢
      exact ih i a t h

omit [DecidableEq α] in
theorem take_cons_drop :
    ∀ (xs : List β) (i : Nat) (d : β), xs[i]? = some d → xs.take i ++ d :: xs.drop (i + 1) = xs := by
  intro xs
  induction xs with
  | nil => intro i d h; simp at h
  | cons x xs ih =>
    intro i d h
    cases i with
    | zero =>
      rw [List.getElem?_cons_zero] at h
      injection h with h
      simp [h]
    | succ i =>
      rw [List.getElem?_cons_succ] at h
      rw [List.take_succ_cons, List.drop_succ_cons, List.cons_append, ih i d h]

omit [DecidableEq α] in
theorem intercalate_cons_ne (sep c : List α) (l : List (List α)) (h : l ≠ []) :
    sep.intercalate (c :: l) = c ++ sep ++ sep.intercalate l := by
  cases l with
  | nil => exact absurd rfl h
  | cons c2 l =>
    rw [intercalate_cons, intercalate_cons]
    simp

omit [DecidableEq α] in
theorem reverse_split_at (l : List β) (i : Nat) (c : β) (t : List β) (h : l.drop i = c :: t) :
    l.reverse.take t.length = t.reverse ∧ l.reverse.drop t.length = c :: (l.take i).reverse := by
  have hl : l = l.take i ++ c :: t := by rw [← h, List.take_append_drop]
  have hrev : l.reverse = t.reverse ++ c :: (l.take i).reverse := by
    conv_lhs => rw [hl]
    simp
  rw [hrev]
  exact ⟨List.take_left' (by simp), List.drop_left' (by simp)⟩

theorem rsplit_buf_full (m : Mem α) (v : parray T) (delim : Delim α) (xs : List α)
    (buf : List (parray T)) (k : Nat)
    (hv : v.vec m = some xs) (hd : delim.readable m) (hp : v.p ≠ nullptr)
    (hk : 2 ≤ k) (hbuf : k ≤ buf.length)
    (hm : k ≤ (keep_cuts (delim.is_match m) xs).length) :
    ∃ buf1 c c1 rest,
      (keep_cuts (delim.is_match m) xs).drop ((keep_cuts (delim.is_match m) xs).length - k)
        = c :: c1 :: rest ∧
      rsplit_buf m v delim buf k = some (buf1, k) ∧
      buf1.take (k - 1)
        = ((keep_cuts (delim.is_match m) xs).map (fwd_view v.p)).reverse.take (k - 1) ∧
      buf1[k - 1]? = some ⟨c.2, v.p⟩ ∧
      (((keep_cuts (delim.is_match m) xs).map (fwd_view v.p : _ → parray T)).reverse.take
        (k - 1)).reverse = (c1 :: rest).map (fwd_view v.p) ∧
      ((keep_cuts (delim.is_match m) xs).map (fwd_view v.p : _ → parray T)).reverse[k - 1]?
        = some (fwd_view v.p c) := by
  generalize hcuts : keep_cuts (delim.is_match m) xs = cuts at hm ⊢
  cases hc : cuts.drop (cuts.length - k) with
  | nil =>
    have := congrArg List.length hc
    rw [List.length_drop, List.length_nil] at this
    omega
  | cons c t =>
    have htlen : t.length = k - 1 := by
      have := congrArg List.length hc
      rw [List.length_drop, List.length_cons] at this
      omega
    cases t with
    | nil => simp at htlen; omega
    | cons c1 rest =>
      obtain ⟨hr1, hr2⟩ := reverse_split_at cuts _ c (c1 :: rest) hc
      rw [htlen] at hr1 hr2
      have hcb : c.1 ≤ c.2 := by
        have hmem : c ∈ keep_cuts (delim.is_match m) xs := by
          rw [hcuts]
          exact List.mem_of_mem_drop (by rw [hc]; exact List.mem_cons_self _ _)
        exact (keep_cuts_bounds _ _ c hmem).1
      generalize hsegs : (cuts.map (fwd_view v.p : _ → parray T)).reverse = rsegs
      have hrlen : rsegs.length = cuts.length := by
        rw [← hsegs, List.length_reverse, List.length_map]
      have hmin : min rsegs.length (k - 1 - 0) = k - 1 := by omega
      obtain ⟨buf1, h1, h2, h3⟩ := feed_buf_push (k - 1) rsegs buf 0 (by omega) (by omega)
      rw [hmin, Nat.zero_add] at h1 h3
      have hrsegs : rsegs = cuts.reverse.map (fwd_view v.p) := by
        rw [← hsegs, List.map_reverse]
      have hrest : rsegs.drop (k - 1)
          = fwd_view v.p c :: ((cuts.take (cuts.length - k)).reverse).map (fwd_view v.p) := by
        rw [hrsegs, ← List.map_drop, hr2, List.map_cons]
      have htake : rsegs.take (k - 1) = ((c1 :: rest).reverse).map (fwd_view v.p) := by
        rw [hrsegs, ← List.map_take, hr1]
      refine ⟨(buf1.set (k - 1) ⟨c.2, v.p⟩), c, c1, rest, rfl, ?_, ?_, ?_, ?_, ?_⟩
      · unfold rsplit_buf
        simp only [rsplit_f_spec m v delim xs _ _ hv hd, hcuts, hsegs, h1, hrest]
        have hp2 : v.p + c.1 + (c.2 - c.1) ≠ nullptr := by
          unfold nullptr at hp ⊢; omega
        simp only [fwd_view, hp2, ne_eq, not_false_eq_true, if_true, List.head?_cons,
          Option.map_some', Option.getD_some]
        rw [show v.p + c.1 + (c.2 - c.1) - v.p = c.2 by omega,
          show k - 1 + 1 = k by omega]
      · rw [take_set_same, h3]
        simp
      · rw [List.getElem?_set_self (by omega)]
      · rw [htake, ← List.map_reverse, List.reverse_reverse]
      · rw [← List.head?_drop, hrest]
        rfl

/-- C16: reverse round trip: for a readable view `v` and a single-element delimiter `d`,
`rsplit(v, d)` returns a segment list and `rjoin` of that list with `d` is the element
sequence of `v`. -/
theorem rjoin_rsplit_round_trip (m : Mem α) (v : parray T) (d : α)
    (hv : parray.readable m v) :
    ∃ rsegs xs, rsplit m v (Delim.single ⟨d⟩) = some rsegs ∧ v.vec m = some xs ∧
      rjoin m rsegs d = some xs := by
  obtain ⟨xs, hxs⟩ := readable_vec m v hv
  have hd : (Delim.single ⟨d⟩ : Delim α).readable m := trivial
  refine ⟨_, xs, rsplit_eq m v _ xs hxs hd, hxs, ?_⟩
  have hrj : ∀ segs : List (parray T), rjoin m segs.reverse d = join m segs d := by
    intro segs
    unfold rjoin join
    rw [List.reverse_reverse]
  rw [hrj, join_reads m d _ _ (split_views_read m v _ xs hxs hd), single_is_match]
  exact congrArg some (List.intercalate_splitOn xs d)

end reverse_claims
end adv

namespace adv

section reverse_bounded_claims
variable {α : Type} [DecidableEq α] {T : ElemType}

/-- C20: bounded-buffer `rsplit` with capacity `k ≥ 2` (the array has at least `k` slots) on a
readable view `v` with a non-null pointer whose `split` at the single element `d` gives the
list `segs` of at least `k` segments. The call returns `k`; slots `0 .. k-2` hold the last
`k - 1` segments of `segs`, last one first; slot `k - 1` holds the view `r` that starts where
`v` starts and ends where the `k`-th segment from the end, `w`, ends, the element there being
a delimiter occurrence; and `rjoin` with `d` of the `k` slots is the element sequence of
`v`. -/
theorem rsplit_bounded_spec (m : Mem α) (v : parray T) (d : α) (buf segs : List (parray T))
    (k : Nat) (hv : parray.readable m v) (hp : v.p ≠ nullptr) (hk : 2 ≤ k)
    (hbuf : k ≤ buf.length) (hsegs : split_value m v d = some segs) (hm : k ≤ segs.length) :
    ∃ buf1 w r xs, rsplit_buf m v (Delim.single ⟨d⟩) buf k = some (buf1, k) ∧
      buf1.take (k - 1) = segs.reverse.take (k - 1) ∧
      segs.reverse[k - 1]? = some w ∧ buf1[k - 1]? = some r ∧
      r.p = v.p ∧ r.p + r.len = w.p + w.len ∧ deref m (w.p + w.len) = some d ∧
      v.vec m = some xs ∧ rjoin m (buf1.take k) d = some xs := by
  obtain ⟨xs, hxs⟩ := readable_vec m v hv
  have hlen : xs.length = v.len := read_range_length m _ _ _ hxs
  have hd : (Delim.single ⟨d⟩ : Delim α).readable m := trivial
  have hread := split_views_read m v (Delim.single ⟨d⟩) xs hxs hd
  unfold split_value at hsegs
  rw [split_eq m v _ xs hxs hd] at hsegs
  have hsegs2 := (Option.some.inj hsegs).symm
  subst hsegs2
  rw [List.length_map] at hm
  obtain ⟨buf1, c, c1, rest, hc, h1, h2, h3, h4, h5⟩ :=
    rsplit_buf_full m v _ xs buf k hxs hd hp hk hbuf hm
  have hdrop1 := drop_succ_of_drop _ _ _ _ hc
  have hcons : c1.1 = c.2 + 1 := cuts_at_consecutive _ _ 0 c c1 rest hc
  obtain ⟨h0, hle, ⟨x, hx0, hx1, hx2⟩, _, _, hchunks⟩ :=
    split_suffix m v _ xs hxs hd _ c1 rest hdrop1 (Nat.succ_pos _)
  have hxd : x = d := by simpa [Delim.is_match] using hx2
  subst hxd
  have hcb : c.1 ≤ c.2 := by
    have hmem : c ∈ keep_cuts ((Delim.single ⟨x⟩ : Delim α).is_match m) xs :=
      List.mem_of_mem_drop (by rw [hc]; exact List.mem_cons_self _ _)
    exact (keep_cuts_bounds _ _ c hmem).1
  refine ⟨buf1, fwd_view v.p c, ⟨c.2, v.p⟩, xs, h1, h2, h5, h3, rfl, ?_, ?_, hxs, ?_⟩
  · show v.p + c.2 = v.p + c.1 + (c.2 - c.1)
    omega
  · show deref m (v.p + c.1 + (c.2 - c.1)) = some x
    rw [show v.p + c.1 + (c.2 - c.1) = v.p + c1.1 - 1 by omega]
    exact hx1
  · have htake : (buf1.take k).reverse
        = (⟨c.2, v.p⟩ : parray T) :: (c1 :: rest).map (fwd_view v.p) := by
      rw [show k = (k - 1) + 1 by omega, List.take_succ, h3, h2]
      simp only [Option.toList, List.reverse_append, List.reverse_cons, List.reverse_nil,
        List.nil_append, List.singleton_append]
      rw [h4]
    have hpre : read_range m v.p c.2 = some (xs.take c.2) := by
      unfold parray.vec at hxs
      rw [← hlen] at hxs
      exact read_range_take m xs v.p c.2 hxs (by omega)
    have hforall : List.Forall₂
        (fun (seg : parray T) chunk => read_range m seg.p seg.len = some chunk)
        ((buf1.take k).reverse)
        (xs.take c.2 :: (xs.drop c1.1).splitOnP ((Delim.single ⟨x⟩ : Delim α).is_match m)) := by
      rw [htake, hchunks, ← hdrop1, List.map_drop]
      exact List.Forall₂.cons hpre (List.forall₂_drop _ hread)
    have hrj : rjoin m (buf1.take k) x = join m (buf1.take k).reverse x := rfl
    rw [hrj, join_reads m x _ _ hforall,
      intercalate_cons_ne _ _ _ (List.splitOnP_ne_nil _ _), single_is_match]
    have hsplit : [x].intercalate ((xs.drop c1.1).splitOnP (fun a => a == x)) = xs.drop c1.1 :=
      List.intercalate_splitOn (xs.drop c1.1) x
    rw [hsplit, hcons, List.append_assoc, List.singleton_append]
    refine congrArg some (take_cons_drop xs c.2 x ?_)
    rw [← hx0]
    congr 1
    omega

end reverse_bounded_claims
end adv

namespace adv

/-! ## The split and join theorems at the sample data -/

theorem split_se_segments_nonempty_witness :
    parray.readable sample_mem sample_csv ∧
      (Delim.single ⟨44⟩ : Delim Nat).readable sample_mem ∧
      ∃ segs rsegs xs, split_se sample_mem sample_csv (Delim.single ⟨44⟩) = some segs ∧
        rsplit_se sample_mem sample_csv (Delim.single ⟨44⟩) = some rsegs ∧
        sample_csv.vec sample_mem = some xs ∧
        (∀ s ∈ segs, 1 ≤ s.len) ∧ (∀ s ∈ rsegs, 1 ≤ s.len) ∧
        ((∀ x ∈ xs, (Delim.single ⟨44⟩ : Delim Nat).is_match sample_mem x = true) →
          segs = [] ∧ rsegs = []) :=
  ⟨by decide, by decide,
    split_se_segments_nonempty sample_mem sample_csv (Delim.single ⟨44⟩) (by decide)
      (by decide)⟩

theorem split_se_filters_split_witness :
    parray.readable sample_mem sample_csv ∧
      (Delim.single ⟨44⟩ : Delim Nat).readable sample_mem ∧
      ∃ segs, split sample_mem sample_csv (Delim.single ⟨44⟩) = some segs ∧
        split_se sample_mem sample_csv (Delim.single ⟨44⟩)
          = some (segs.filter (fun s => !s.empty)) :=
  ⟨by decide, by decide,
    split_se_filters_split sample_mem sample_csv (Delim.single ⟨44⟩) (by decide) (by decide)⟩

theorem split_buf_spec_witness :
    parray.readable sample_mem sample_csv ∧
      (Delim.single ⟨44⟩ : Delim Nat).readable sample_mem ∧ 2 ≤ 3 ∧ 3 ≤ sample_buf.length ∧
      ∃ segs buf1, split sample_mem sample_csv (Delim.single ⟨44⟩) = some segs ∧
        split_buf sample_mem sample_csv (Delim.single ⟨44⟩) sample_buf 3
          = some (buf1, min segs.length 3) ∧
        buf1.take (min segs.length (3 - 1)) = segs.take (min segs.length (3 - 1)) ∧
        (3 ≤ segs.length → ∃ w r, segs[3 - 1]? = some w ∧ buf1[3 - 1]? = some r ∧
          r.p = w.p ∧ r.p + r.len = sample_csv.p + sample_csv.len ∧
          (∃ x, deref sample_mem (w.p - 1) = some x ∧
            (Delim.single ⟨44⟩ : Delim Nat).is_match sample_mem x = true) ∧
          split sample_mem r (Delim.single ⟨44⟩) = some (segs.drop (3 - 1))) :=
  ⟨by decide, by decide, by decide, by decide,
    split_buf_spec sample_mem sample_csv (Delim.single ⟨44⟩) sample_buf 3 (by decide)
      (by decide) (by decide) (by decide)⟩

theorem join_split_buf_round_trip_witness :
    parray.readable sample_mem sample_csv ∧ 2 ≤ 3 ∧ 3 ≤ sample_buf.length ∧
      ∃ buf1 count xs,
        split_buf sample_mem sample_csv (Delim.single ⟨44⟩) sample_buf 3 = some (buf1, count) ∧
        sample_csv.vec sample_mem = some xs ∧
        join sample_mem (buf1.take count) 44 = some xs :=
  ⟨by decide, by decide, by decide,
    join_split_buf_round_trip sample_mem sample_csv 44 sample_buf 3 (by decide) (by decide)
      (by decide)⟩

theorem rsplit_reverses_split_witness :
    parray.readable sample_mem sample_words ∧
      (Delim.multi (⟨sample_seps⟩ : multi_delim char_t) : Delim Nat).readable sample_mem ∧
      ∃ segs segs_se,
        split sample_mem sample_words (Delim.multi (⟨sample_seps⟩ : multi_delim char_t))
          = some segs ∧
        split_se sample_mem sample_words (Delim.multi (⟨sample_seps⟩ : multi_delim char_t))
          = some segs_se ∧
        rsplit sample_mem sample_words (Delim.multi (⟨sample_seps⟩ : multi_delim char_t))
          = some segs.reverse ∧
        rsplit_se sample_mem sample_words (Delim.multi (⟨sample_seps⟩ : multi_delim char_t))
          = some segs_se.reverse :=
  ⟨by decide, by decide,
    rsplit_reverses_split sample_mem sample_words _ (by decide) (by decide)⟩

theorem rjoin_rsplit_round_trip_witness :
    parray.readable sample_mem sample_csv ∧
      ∃ rsegs xs, rsplit sample_mem sample_csv (Delim.single ⟨44⟩) = some rsegs ∧
        sample_csv.vec sample_mem = some xs ∧ rjoin sample_mem rsegs 44 = some xs :=
  ⟨by decide, rjoin_rsplit_round_trip sample_mem sample_csv 44 (by decide)⟩

theorem join_se_skips_empty_witness :
    (∀ v ∈ [(⟨0, 14⟩ : parray char_t), ⟨0, 21⟩], v.empty = true) ∧
      join_se sample_mem [(⟨0, 14⟩ : parray char_t), ⟨0, 21⟩] 44 = some [] ∧
      join_se_parray sample_mem [(⟨0, 14⟩ : parray char_t), ⟨0, 21⟩] sample_seps = some [] :=
  ⟨by decide,
    (join_se_skips_empty sample_mem [(⟨0, 14⟩ : parray char_t), ⟨0, 21⟩] 44 sample_seps).2.2
      (by decide)⟩

theorem split_callback_resume_witness :
    parray.readable sample_mem sample_csv ∧
      (Delim.single ⟨44⟩ : Delim Nat).readable sample_mem ∧
      ∃ segs, split sample_mem sample_csv (Delim.single ⟨44⟩) = some segs ∧
        split_f sample_mem sample_csv (Delim.single ⟨44⟩) sample_stop_at_two 0
          = some ((feed sample_stop_at_two 0 segs).1,
              (((feed sample_stop_at_two 0 segs).2.head?).map parray.p).getD nullptr) ∧
        ∀ w rest, (feed sample_stop_at_two 0 segs).2 = w :: rest →
          w.p ≠ nullptr ∧
          (∃ x, deref sample_mem (w.p - 1) = some x ∧
            (Delim.single ⟨44⟩ : Delim Nat).is_match sample_mem x = true) ∧
          split sample_mem (⟨sample_csv.p + sample_csv.len - w.p, w.p⟩ : parray char_t)
            (Delim.single ⟨44⟩) = some (w :: rest) :=
  ⟨by decide, by decide,
    split_callback_resume sample_mem sample_csv (Delim.single ⟨44⟩) sample_stop_at_two 0
      (by decide) (by decide)⟩

theorem split_until_true_witness :
    parray.readable sample_mem sample_csv ∧
      (Delim.single ⟨44⟩ : Delim Nat).readable sample_mem ∧
      ∃ segs segs_se, split sample_mem sample_csv (Delim.single ⟨44⟩) = some segs ∧
        split_se sample_mem sample_csv (Delim.single ⟨44⟩) = some segs_se ∧
        (split_f sample_mem sample_csv (Delim.single ⟨44⟩) sample_stop_at_two 0).map Prod.fst
          = some (feed sample_stop_at_two 0 segs).1 ∧
        (split_se_f sample_mem sample_csv (Delim.single ⟨44⟩) sample_stop_at_two 0).map Prod.fst
          = some (feed sample_stop_at_two 0 segs_se).1 ∧
        (rsplit_f sample_mem sample_csv (Delim.single ⟨44⟩) sample_stop_at_two 0).map Prod.fst
          = some (feed sample_stop_at_two 0 segs.reverse).1 ∧
        (rsplit_se_f sample_mem sample_csv (Delim.single ⟨44⟩) sample_stop_at_two 0).map
            Prod.fst
          = some (feed sample_stop_at_two 0 segs_se.reverse).1 :=
  ⟨by decide, by decide,
    split_until_true sample_mem sample_csv (Delim.single ⟨44⟩) sample_stop_at_two 0
      (by decide) (by decide)⟩

theorem rsplit_bounded_spec_witness :
    parray.readable sample_mem sample_csv ∧ sample_csv.p ≠ nullptr ∧ 2 ≤ 3 ∧
      3 ≤ sample_buf.length ∧ split_value sample_mem sample_csv 44 = some sample_csv_segs ∧
      3 ≤ sample_csv_segs.length ∧
      ∃ buf1 w r xs,
        rsplit_buf sample_mem sample_csv (Delim.single ⟨44⟩) sample_buf 3 = some (buf1, 3) ∧
        buf1.take (3 - 1) = sample_csv_segs.reverse.take (3 - 1) ∧
        sample_csv_segs.reverse[3 - 1]? = some w ∧ buf1[3 - 1]? = some r ∧
        r.p = sample_csv.p ∧ r.p + r.len = w.p + w.len ∧
        deref sample_mem (w.p + w.len) = some 44 ∧
        sample_csv.vec sample_mem = some xs ∧ rjoin sample_mem (buf1.take 3) 44 = some xs :=
  ⟨by decide, by decide, by decide, by decide, by decide, by decide,
    rsplit_bounded_spec sample_mem sample_csv 44 sample_buf sample_csv_segs 3 (by decide)
      (by decide) (by decide) (by decide) (by decide) (by decide)⟩

end adv

namespace adv

/-! ## Trimming -/

section trim_lemmas
variable {α : Type} {T : ElemType}

theorem lead_split (ws : α → Bool) :
    ∀ xs : List α, ∃ pre rest, xs = pre ++ rest ∧ (∀ x ∈ pre, ws x = true) ∧
      (∀ a, rest.head? = some a → ws a = false) := by
  intro xs
  induction xs with
  | nil => exact ⟨[], [], rfl, by simp, by simp⟩
  | cons x xs ih =>
    by_cases hx : ws x = true
    · obtain ⟨pre, rest, h1, h2, h3⟩ := ih
      refine ⟨x :: pre, rest, by rw [h1]; rfl, ?_, h3⟩
      intro y hy
      rcases List.mem_cons.mp hy with rfl | hy
      · exact hx
      · exact h2 y hy
    · refine ⟨[], x :: xs, rfl, by simp, ?_⟩
      intro a ha
      simp only [List.head?_cons, Option.some.injEq] at ha
      subst ha
      simpa using hx

theorem trail_split (ws : α → Bool) (xs : List α) :
    ∃ rest post, xs = rest ++ post ∧ (∀ x ∈ post, ws x = true) ∧
      (∀ b, rest.getLast? = some b → ws b = false) := by
  obtain ⟨pre, rest, h1, h2, h3⟩ := lead_split ws xs.reverse
  refine ⟨rest.reverse, pre.reverse, ?_, ?_, ?_⟩
  · rw [← List.reverse_append, ← h1, List.reverse_reverse]
  · intro x hx
    exact h2 x (List.mem_reverse.mp hx)
  · intro b hb
    rw [List.getLast?_reverse] at hb
    exact h3 b hb

theorem trim_left_loop_spec (ws : α → Bool) (m : Mem α) :
    ∀ (pre rest : List α) (p fuel : Nat),
      read_range m p (pre ++ rest).length = some (pre ++ rest) →
      (∀ x ∈ pre, ws x = true) → (∀ a, rest.head? = some a → ws a = false) →
      pre.length < fuel →
      trim_left_loop ws m (p + (pre ++ rest).length) fuel p = some (p + pre.length) := by
  intro pre
  induction pre with
  | nil =>
    intro rest p fuel hread _ hrest hfuel
    obtain ⟨f, rfl⟩ : ∃ f, fuel = f + 1 := ⟨fuel - 1, by simp at hfuel; omega⟩
    rw [trim_left_loop]
    cases rest with
    | nil => simp
    | cons a rest =>
      have ha : deref m p = some a := by
        have := read_range_get m _ p hread 0 (by simp)
        simpa using this
      have hwa : ws a = false := hrest a rfl
      simp [ha, hwa]
  | cons x pre ih =>
    intro rest p fuel hread hpre hrest hfuel
    obtain ⟨f, rfl⟩ : ∃ f, fuel = f + 1 := ⟨fuel - 1, by simp at hfuel; omega⟩
    rw [trim_left_loop]
    obtain ⟨hx, ht⟩ := (read_range_succ m p _ x (pre ++ rest)).mp hread
    have hwx : ws x = true := hpre x (List.mem_cons_self _ _)
    have hne : p ≠ p + (x :: pre ++ rest).length := by simp
    rw [if_pos hne, hx]
    simp only [hwx, if_true]
    have := ih rest (p + 1) f ht (fun y hy => hpre y (List.mem_cons_of_mem _ hy)) hrest
      (by simpa using hfuel)
    rw [show p + (x :: pre ++ rest).length = p + 1 + (pre ++ rest).length by
      simp only [List.cons_append, List.length_cons]; omega, this]
    congr 1
    simp only [List.length_cons]
    omega

end trim_lemmas
end adv

namespace adv

section trim_right_lemmas
variable {α : Type} {T : ElemType}

theorem deref_prev_last (m : Mem α) (ys : List α) (y : α) (p : Nat)
    (hread : read_range m p (ys ++ [y]).length = some (ys ++ [y])) :
    deref_prev m (p + (ys ++ [y]).length) = some y := by
  have := read_range_get m _ p hread ys.length (by simp)
  unfold deref_prev
  rw [if_neg (by simp), show p + (ys ++ [y]).length - 1 = p + ys.length by
    simp only [List.length_append, List.length_singleton]; omega, this]
  simp

theorem trim_right_loop_spec (ws : α → Bool) (m : Mem α) (rest : List α) (p : Nat)
    (hrest : ∀ b, rest.getLast? = some b → ws b = false) :
    ∀ (post : List α) (fuel : Nat),
      read_range m p (rest ++ post).length = some (rest ++ post) →
      (∀ x ∈ post, ws x = true) → post.length < fuel →
      trim_right_loop ws m p fuel (p + (rest ++ post).length) = some (p + rest.length) := by
  intro post
  induction post using List.reverseRecOn with
  | nil =>
    intro fuel hread _ hfuel
    obtain ⟨f, rfl⟩ : ∃ f, fuel = f + 1 := ⟨fuel - 1, by simp at hfuel; omega⟩
    rw [trim_right_loop, List.append_nil]
    rw [List.append_nil] at hread
    rcases List.eq_nil_or_concat rest with rfl | ⟨init, b, hrb⟩
    · simp
    · rw [List.concat_eq_append] at hrb
      subst hrb
      have hb : ws b = false := hrest b (by simp)
      rw [if_pos (by simp), deref_prev_last m init b p hread]
      simp [hb]
  | append_singleton post y ih =>
    intro fuel hread hpost hfuel
    obtain ⟨f, rfl⟩ : ∃ f, fuel = f + 1 := ⟨fuel - 1, by simp at hfuel; omega⟩
    rw [trim_right_loop]
    rw [← List.append_assoc] at hread ⊢
    have hy : ws y = true := hpost y (by simp)
    rw [if_pos (by simp), deref_prev_last m (rest ++ post) y p hread]
    simp only [hy, if_true]
    have hread2 := (read_range_append m (rest ++ post) [y] p hread).1
    have := ih f hread2 (fun x hx => hpost x (by simp [hx])) (by simpa using hfuel)
    rw [show p + (rest ++ post ++ [y]).length - 1 = p + (rest ++ post).length by
      simp only [List.length_append, List.length_singleton]; omega]
    exact this

theorem trim_back_loop_spec (ws : α → Bool) (m : Mem α) (rest : List α) (p : Nat) (b : α)
    (hlast : rest.getLast? = some b) (hb : ws b = false) :
    ∀ (post : List α) (fuel : Nat),
      read_range m p (rest ++ post).length = some (rest ++ post) →
      (∀ x ∈ post, ws x = true) → post.length < fuel →
      trim_back_loop ws m fuel (p + (rest ++ post).length) = some (p + rest.length) := by
  intro post
  induction post using List.reverseRecOn with
  | nil =>
    intro fuel hread _ hfuel
    obtain ⟨f, rfl⟩ : ∃ f, fuel = f + 1 := ⟨fuel - 1, by simp at hfuel; omega⟩
    rw [trim_back_loop, List.append_nil]
    rw [List.append_nil] at hread
    rcases List.eq_nil_or_concat rest with rfl | ⟨init, c, hrc⟩
    · simp at hlast
    · rw [List.concat_eq_append] at hrc
      subst hrc
      have hc : c = b := by simpa using hlast
      subst hc
      rw [deref_prev_last m init c p hread]
      simp [hb]
  | append_singleton post y ih =>
    intro fuel hread hpost hfuel
    obtain ⟨f, rfl⟩ : ∃ f, fuel = f + 1 := ⟨fuel - 1, by simp at hfuel; omega⟩
    rw [trim_back_loop]
    rw [← List.append_assoc] at hread ⊢
    have hy : ws y = true := hpost y (by simp)
    rw [deref_prev_last m (rest ++ post) y p hread]
    simp only [hy, if_true]
    have hread2 := (read_range_append m (rest ++ post) [y] p hread).1
    have := ih f hread2 (fun x hx => hpost x (by simp [hx])) (by simpa using hfuel)
    rw [show p + (rest ++ post ++ [y]).length - 1 = p + (rest ++ post).length by
      simp only [List.length_append, List.length_singleton]; omega]
    exact this

end trim_right_lemmas
end adv

namespace adv

section trim_forms
variable {α : Type} {T : ElemType}

theorem three_split (ws : α → Bool) (xs : List α) :
    ∃ pre mid post, xs = pre ++ mid ++ post ∧ (∀ x ∈ pre, ws x = true) ∧
      (∀ x ∈ post, ws x = true) ∧ (∀ a, mid.head? = some a → ws a = false) ∧
      (∀ b, mid.getLast? = some b → ws b = false) ∧ (mid = [] → post = []) := by
  obtain ⟨pre, rest, h1, h2, h3⟩ := lead_split ws xs
  obtain ⟨mid, post, h4, h5, h6⟩ := trail_split ws rest
  subst h4
  refine ⟨pre, mid, post, by rw [h1, List.append_assoc], h2, h5, ?_, h6, ?_⟩
  · intro a ha
    cases mid with
    | nil => simp at ha
    | cons c mid => exact h3 a (by simpa using ha)
  · intro hmid
    subst hmid
    cases post with
    | nil => rfl
    | cons y post =>
      have h7 := h3 y (by simp)
      have h8 := h5 y (List.mem_cons_self _ _)
      rw [h7] at h8
      exact absurd h8 (by simp)

theorem trim_left_of_split (ws : α → Bool) (m : Mem α) (v : parray T) (pre rest : List α)
    (hv : v.vec m = some (pre ++ rest)) (hpre : ∀ x ∈ pre, ws x = true)
    (hrest : ∀ a, rest.head? = some a → ws a = false) :
    trim_left ws m v = some ⟨rest.length, v.p + pre.length⟩ := by
  have hlen : (pre ++ rest).length = v.len := read_range_length m _ _ _ hv
  unfold parray.vec at hv
  rw [← hlen] at hv
  unfold trim_left
  simp only [← hlen]
  rw [trim_left_loop_spec ws m pre rest v.p _ hv hpre hrest (by simp; omega)]
  simp only [List.length_append]
  congr 2
  omega

theorem trim_right_of_split (ws : α → Bool) (m : Mem α) (v : parray T) (rest post : List α)
    (hv : v.vec m = some (rest ++ post)) (hpost : ∀ x ∈ post, ws x = true)
    (hrest : ∀ b, rest.getLast? = some b → ws b = false) :
    trim_right ws m v = some ⟨rest.length, v.p⟩ := by
  have hlen : (rest ++ post).length = v.len := read_range_length m _ _ _ hv
  unfold parray.vec at hv
  rw [← hlen] at hv
  unfold trim_right
  simp only [← hlen]
  rw [trim_right_loop_spec ws m rest v.p hrest post _ hv hpost (by simp; omega)]
  simp

theorem trim_of_split (ws : α → Bool) (m : Mem α) (v : parray T) (pre mid post : List α)
    (hv : v.vec m = some (pre ++ mid ++ post)) (hpre : ∀ x ∈ pre, ws x = true)
    (hpost : ∀ x ∈ post, ws x = true) (hhead : ∀ a, mid.head? = some a → ws a = false)
    (hlast : ∀ b, mid.getLast? = some b → ws b = false) (hnil : mid = [] → post = []) :
    trim ws m v = some ⟨mid.length, v.p + pre.length⟩ := by
  have hlen : (pre ++ mid ++ post).length = v.len := read_range_length m _ _ _ hv
  unfold parray.vec at hv
  rw [← hlen] at hv
  have hrest : ∀ a, (mid ++ post).head? = some a → ws a = false := by
    intro a ha
    cases mid with
    | nil => rw [hnil rfl] at ha; simp at ha
    | cons c mid => exact hhead a (by simpa using ha)
  have hv2 : read_range m v.p (pre ++ (mid ++ post)).length = some (pre ++ (mid ++ post)) := by
    rw [← List.append_assoc]; exact hv
  unfold trim
  simp only [← hlen]
  rw [show (pre ++ mid ++ post).length = (pre ++ (mid ++ post)).length by
      rw [List.append_assoc],
    trim_left_loop_spec ws m pre (mid ++ post) v.p _ hv2 hpre hrest (by simp; omega)]
  simp only []
  cases hm : mid with
  | nil =>
    have hp := hnil hm
    subst hm
    subst hp
    simp
  | cons c mid1 =>
    rw [← hm]
    have hne : mid ≠ [] := by rw [hm]; simp
    have hmlen : 0 < mid.length := List.length_pos.mpr hne
    obtain ⟨b, hb⟩ : ∃ b, mid.getLast? = some b :=
      ⟨mid.getLast hne, List.getLast?_eq_getLast _ hne⟩
    have hb2 : (pre ++ mid).getLast? = some b := by
      rw [List.getLast?_append_of_ne_nil _ hne]; exact hb
    rw [if_pos (by simp only [List.length_append]; omega),
      show (pre ++ (mid ++ post)).length = (pre ++ mid ++ post).length by
        rw [List.append_assoc],
      trim_back_loop_spec ws m (pre ++ mid) v.p b hb2 (hlast b hb) post _ hv hpost
        (by simp; omega)]
    simp only [List.length_append]
    congr 2
    omega

theorem read_mid (m : Mem α) (pre mid post : List α) (p : Nat)
    (h : read_range m p (pre ++ mid ++ post).length = some (pre ++ mid ++ post)) :
    read_range m (p + pre.length) mid.length = some mid :=
  (read_range_append m pre mid p (read_range_append m (pre ++ mid) post p h).1).2

end trim_forms
end adv

namespace adv

section trim_claims
variable {α : Type} {T : ElemType}

/-- C26: for a readable view `v` and the whitespace classifier `ws`, `trim(v)` returns a view
`r`. When every element of `v` is whitespace, `r` is empty. When `v` has a non-whitespace
element, the elements of `v` are `pre ++ mid ++ post` with `pre` and `post` all whitespace and
`mid` starting and ending with a non-whitespace element, and `r` is the sub-view of `v` that
holds exactly `mid` (interior whitespace kept). -/
theorem trim_spec (ws : α → Bool) (m : Mem α) (v : parray T) (hv : parray.readable m v) :
    ∃ xs r, v.vec m = some xs ∧ trim ws m v = some r ∧
      ((∀ x ∈ xs, ws x = true) → r.len = 0) ∧
      ((∃ x ∈ xs, ws x = false) →
        ∃ pre mid post a b, xs = pre ++ mid ++ post ∧
          (∀ x ∈ pre, ws x = true) ∧ (∀ x ∈ post, ws x = true) ∧
          mid.head? = some a ∧ ws a = false ∧ mid.getLast? = some b ∧ ws b = false ∧
          r = ⟨mid.length, v.p + pre.length⟩ ∧ r.vec m = some mid) := by
  obtain ⟨xs, hxs⟩ := readable_vec m v hv
  obtain ⟨pre, mid, post, h1, hpre, hpost, hhead, hlast, hnil⟩ := three_split ws xs
  subst h1
  have hlen : (pre ++ mid ++ post).length = v.len := read_range_length m _ _ _ hxs
  have hmid : read_range m (v.p + pre.length) mid.length = some mid := by
    unfold parray.vec at hxs
    rw [← hlen] at hxs
    exact read_mid m pre mid post v.p hxs
  refine ⟨_, _, hxs, trim_of_split ws m v pre mid post hxs hpre hpost hhead hlast hnil, ?_, ?_⟩
  · intro hall
    cases mid with
    | nil => rfl
    | cons c mid =>
      have h1 := hhead c rfl
      have h2 := hall c (by simp)
      rw [h1] at h2
      exact absurd h2 (by simp)
  · rintro ⟨x, hx, hwx⟩
    have hne : mid ≠ [] := by
      intro hmid0
      subst hmid0
      rw [hnil rfl, List.append_nil, List.append_nil] at hx
      have := hpre x hx
      rw [hwx] at this
      exact absurd this (by simp)
    obtain ⟨a, ha⟩ : ∃ a, mid.head? = some a := by
      cases mid with
      | nil => exact absurd rfl hne
      | cons c mid => exact ⟨c, rfl⟩
    exact ⟨pre, mid, post, a, mid.getLast hne, rfl, hpre, hpost, ha, hhead a ha,
      List.getLast?_eq_getLast _ hne, hlast _ (List.getLast?_eq_getLast _ hne), rfl, hmid⟩

/-- C27: for a readable view `v`, `trim_left(v)` is the view of the elements left after the
leading whitespace run `pre` (it starts at the first non-whitespace element and ends where
`v` ends), `trim_right(v)` is the view of the elements before the trailing whitespace run
(it starts where `v` starts and ends at the last non-whitespace element), both are empty when
every element is whitespace, and `trim_right(trim_left(v))` and `trim_left(trim_right(v))`
have the same elements as `trim(v)`. -/
theorem trim_sides_spec (ws : α → Bool) (m : Mem α) (v : parray T)
    (hv : parray.readable m v) :
    ∃ xs l r t, v.vec m = some xs ∧ trim_left ws m v = some l ∧ trim_right ws m v = some r ∧
      trim ws m v = some t ∧
      (∃ pre rest, xs = pre ++ rest ∧ (∀ x ∈ pre, ws x = true) ∧
        (∀ a, rest.head? = some a → ws a = false) ∧
        l = ⟨rest.length, v.p + pre.length⟩ ∧ l.vec m = some rest) ∧
      (∃ rest post, xs = rest ++ post ∧ (∀ x ∈ post, ws x = true) ∧
        (∀ b, rest.getLast? = some b → ws b = false) ∧
        r = ⟨rest.length, v.p⟩ ∧ r.vec m = some rest) ∧
      ((∀ x ∈ xs, ws x = true) → l.len = 0 ∧ r.len = 0) ∧
      (∃ tr tl, trim_right ws m l = some tr ∧ trim_left ws m r = some tl ∧
        tr.vec m = t.vec m ∧ tl.vec m = t.vec m) := by
  obtain ⟨xs, hxs⟩ := readable_vec m v hv
  have hlen : xs.length = v.len := read_range_length m _ _ _ hxs
  have hread : read_range m v.p xs.length = some xs := by
    unfold parray.vec at hxs; rw [hlen]; exact hxs
  obtain ⟨pre, mid, post, h1, hpre, hpost, hhead, hlast, hnil⟩ := three_split ws xs
  obtain ⟨lpre, lrest, hl1, hl2, hl3⟩ := lead_split ws xs
  obtain ⟨rrest, rpost, hr1, hr2, hr3⟩ := trail_split ws xs
  have hlvec : (⟨lrest.length, v.p + lpre.length⟩ : parray T).vec m = some lrest := by
    rw [hl1] at hread
    exact (read_range_append m lpre lrest v.p hread).2
  have hrvec : (⟨rrest.length, v.p⟩ : parray T).vec m = some rrest := by
    rw [hr1] at hread
    exact (read_range_append m rrest rpost v.p hread).1
  have hl := trim_left_of_split ws m v lpre lrest (hl1 ▸ hxs) hl2 hl3
  have hr := trim_right_of_split ws m v rrest rpost (hr1 ▸ hxs) hr2 hr3
  have ht := trim_of_split ws m v pre mid post (h1 ▸ hxs) hpre hpost hhead hlast hnil
  have htvec : (⟨mid.length, v.p + pre.length⟩ : parray T).vec m = some mid := by
    rw [h1] at hread
    exact read_mid m pre mid post v.p hread
  obtain ⟨m1, p1, hm1, hp1, hm1last⟩ := trail_split ws lrest
  obtain ⟨q1, m2, hm2, hq1, hm2head⟩ := lead_split ws rrest
  have htr := trim_right_of_split ws m (⟨lrest.length, v.p + lpre.length⟩ : parray T) m1 p1
    (hm1 ▸ hlvec) hp1 hm1last
  have htl := trim_left_of_split ws m (⟨rrest.length, v.p⟩ : parray T) q1 m2
    (hm2 ▸ hrvec) hq1 hm2head
  have hcore : ∀ (pre1 mid1 post1 : List α), xs = pre1 ++ mid1 ++ post1 →
      (∀ x ∈ pre1, ws x = true) → (∀ x ∈ post1, ws x = true) →
      (∀ a, mid1.head? = some a → ws a = false) →
      (∀ b, mid1.getLast? = some b → ws b = false) → mid1 = mid := by
    intro pre1 mid1 post1 e1 e2 e3 e4 e5
    by_cases hne : mid1 = []
    · subst hne
      have hall : ∀ x ∈ xs, ws x = true := by
        intro x hx
        rw [e1] at hx
        simp only [List.append_nil, List.mem_append] at hx
        rcases hx with hx | hx
        · exact e2 x hx
        · exact e3 x hx
      cases mid with
      | nil => rfl
      | cons c mid =>
        have h2 := hall c (by rw [h1]; simp)
        rw [hhead c rfl] at h2
        exact absurd h2 (by simp)
    · have hmid_ne : mid ≠ [] := by
        intro hmid0
        subst hmid0
        rw [hnil rfl, List.append_nil, List.append_nil] at h1
        obtain ⟨a, ha⟩ : ∃ a, mid1.head? = some a := by
          cases mid1 with
          | nil => exact absurd rfl hne
          | cons c mid1 => exact ⟨c, rfl⟩
        have hmem : a ∈ xs := by
          rw [e1]
          cases mid1 with
          | nil => simp at ha
          | cons c mid1 =>
            simp only [List.head?_cons, Option.some.injEq] at ha
            subst ha
            simp
        have := hpre a (h1 ▸ hmem)
        rw [e4 a ha] at this
        exact absurd this (by simp)
      have t1 := trim_of_split ws m v pre1 mid1 post1 (e1 ▸ hxs) e2 e3 e4 e5
        (fun h => absurd h hne)
      rw [ht] at t1
      have t2 := Option.some.inj t1
      have hplen : pre.length = pre1.length := by
        have := congrArg parray.p t2
        simp only at this
        omega
      have hmlen : mid.length = mid1.length := congrArg parray.len t2
      have hpp : pre = pre1 := by
        have := congrArg (List.take pre.length) (h1.symm.trans e1)
        rw [List.append_assoc, List.append_assoc, List.take_left' rfl,
          List.take_left' hplen.symm] at this
        exact this
      subst hpp
      have h3 := h1.symm.trans e1
      rw [List.append_assoc, List.append_assoc] at h3
      have h4 := List.append_cancel_left h3
      have := congrArg (List.take mid.length) h4
      rw [List.take_left' rfl, List.take_left' hmlen.symm] at this
      exact this.symm
  refine ⟨xs, _, _, _, hxs, hl, hr, ht, ⟨lpre, lrest, hl1, hl2, hl3, rfl, hlvec⟩,
    ⟨rrest, rpost, hr1, hr2, hr3, rfl, hrvec⟩, ?_, ⟨_, _, htr, htl, ?_, ?_⟩⟩
  · intro hall
    constructor
    · cases lrest with
      | nil => rfl
      | cons c lrest =>
        have h2 := hall c (by rw [hl1]; simp)
        rw [hl3 c rfl] at h2
        exact absurd h2 (by simp)
    · rcases List.eq_nil_or_concat rrest with h0 | ⟨init, b, hb⟩
      · rw [h0]; rfl
      · rw [List.concat_eq_append] at hb
        subst hb
        have h2 := hall b (by rw [hr1]; simp)
        rw [hr3 b (by simp)] at h2
        exact absurd h2 (by simp)
  · have hm1mid : m1 = mid := by
      apply hcore lpre m1 p1 (by rw [hl1, hm1, List.append_assoc]) hl2 hp1 ?_ hm1last
      intro a ha
      cases m1 with
      | nil => simp at ha
      | cons c m1 => exact hl3 a (by rw [hm1]; simpa using ha)
    have hvec1 : (⟨m1.length, v.p + lpre.length⟩ : parray T).vec m = some m1 := by
      rw [hm1] at hlvec
      have hlv : read_range m (v.p + lpre.length) (m1 ++ p1).length = some (m1 ++ p1) := hlvec
      exact (read_range_append m m1 p1 _ hlv).1
    rw [htvec, ← hm1mid]
    exact hvec1
  · have hm2mid : m2 = mid := by
      apply hcore q1 m2 rpost (by rw [hr1, hm2]) hq1 hr2 hm2head ?_
      intro b hb
      rcases List.eq_nil_or_concat m2 with h0 | ⟨init, c, hc⟩
      · rw [h0] at hb; simp at hb
      · rw [List.concat_eq_append] at hc
        subst hc
        apply hr3 b
        rw [hm2, ← List.append_assoc]
        simpa using hb
    have hvec2 : (⟨m2.length, v.p + q1.length⟩ : parray T).vec m = some m2 := by
      rw [hm2] at hrvec
      have hrv : read_range m v.p (q1 ++ m2).length = some (q1 ++ m2) := hrvec
      exact (read_range_append m q1 m2 _ hrv).2
    rw [htvec, ← hm2mid]
    exact hvec2

end trim_claims
end adv

namespace adv

/-! ## Containment -/

section search_lemmas
variable {α : Type} [DecidableEq α] {T E : ElemType}

theorem search_at_spec (m : Mem α) :
    ∀ (ys xs : List α) (it s_it fuel : Nat),
      read_range m it xs.length = some xs → read_range m s_it ys.length = some ys →
      ys.length < fuel →
      search_at m (it + xs.length) (s_it + ys.length) fuel it s_it
        = some (if xs.take ys.length = ys then SearchStep.matched
            else if ys.take xs.length = xs then SearchStep.ran_out
            else SearchStep.differs) := by
  intro ys
  induction ys with
  | nil =>
    intro xs it s_it fuel _ _ hfuel
    obtain ⟨f, rfl⟩ : ∃ f, fuel = f + 1 := ⟨fuel - 1, by simp at hfuel; omega⟩
    simp [search_at]
  | cons y ys ih =>
    intro xs it s_it fuel hxs hys hfuel
    obtain ⟨f, rfl⟩ : ∃ f, fuel = f + 1 := ⟨fuel - 1, by simp at hfuel; omega⟩
    obtain ⟨hy, hyt⟩ := (read_range_succ m s_it _ y ys).mp hys
    rw [search_at, if_neg (by simp)]
    cases xs with
    | nil => simp
    | cons x xs =>
      obtain ⟨hx, hxt⟩ := (read_range_succ m it _ x xs).mp hxs
      rw [if_neg (by simp), hx, hy]
      simp only []
      by_cases hxy : x = y
      · subst hxy
        rw [if_pos rfl]
        have := ih xs (it + 1) (s_it + 1) f hxt hyt (by simpa using hfuel)
        rw [show it + (x :: xs).length = it + 1 + xs.length by simp only [List.length_cons]; omega,
          show s_it + (x :: ys).length = s_it + 1 + ys.length by
            simp only [List.length_cons]; omega, this]
        simp
      · rw [if_neg hxy]
        have hyx : ¬ y = x := fun h => hxy h.symm
        simp [hxy, hyx]

omit [DecidableEq α] in
theorem occurs_length (xs ys : List α) (i : Nat) (h : (xs.drop i).take ys.length = ys) :
    ys = [] ∨ i + ys.length ≤ xs.length := by
  have := congrArg List.length h
  rw [List.length_take, List.length_drop] at this
  by_cases h0 : ys.length = 0
  · exact Or.inl (List.length_eq_zero.mp h0)
  · exact Or.inr (by omega)

theorem search_loop_spec (m : Mem α) (ys : List α) (s_first : Nat) (hne : ys ≠ [])
    (hys : read_range m s_first ys.length = some ys) :
    ∀ (xs : List α) (first fuel : Nat),
      read_range m first xs.length = some xs → xs.length < fuel →
      ∃ r, search_loop m (first + xs.length) s_first (s_first + ys.length) fuel first = some r ∧
        ((∃ i, (xs.drop i).take ys.length = ys) →
          ∃ i, r = first + i ∧ (xs.drop i).take ys.length = ys ∧
            ∀ j, j < i → (xs.drop j).take ys.length ≠ ys) ∧
        ((¬ ∃ i, (xs.drop i).take ys.length = ys) → r = first + xs.length) := by
  have hpos : 0 < ys.length := List.length_pos.mpr hne
  intro xs
  induction xs with
  | nil =>
    intro first fuel hxs hfuel
    obtain ⟨f, rfl⟩ : ∃ f, fuel = f + 1 := ⟨fuel - 1, by simp at hfuel; omega⟩
    rw [search_loop, Nat.add_sub_cancel_left,
      search_at_spec m ys [] first s_first _ hxs hys (Nat.lt_succ_self _)]
    have h1 : ¬ (([] : List α).take ys.length = ys) := by
      intro h; rw [List.take_nil] at h; exact hne h.symm
    rw [if_neg h1, if_pos (by simp)]
    refine ⟨_, rfl, ?_, fun _ => rfl⟩
    rintro ⟨i, hi⟩
    rw [List.drop_nil] at hi
    exact absurd hi h1
  | cons x xs ih =>
    intro first fuel hxs hfuel
    obtain ⟨f, rfl⟩ : ∃ f, fuel = f + 1 := ⟨fuel - 1, by simp at hfuel; omega⟩
    obtain ⟨hx, hxt⟩ := (read_range_succ m first _ x xs).mp hxs
    rw [search_loop, Nat.add_sub_cancel_left,
      search_at_spec m ys (x :: xs) first s_first _ hxs hys (Nat.lt_succ_self _)]
    by_cases hm : (x :: xs).take ys.length = ys
    · rw [if_pos hm]
      exact ⟨first, rfl, fun _ => ⟨0, rfl, hm, fun j hj => absurd hj (Nat.not_lt_zero j)⟩,
        fun hno => absurd ⟨0, hm⟩ hno⟩
    · rw [if_neg hm]
      by_cases hr : ys.take (x :: xs).length = x :: xs
      · rw [if_pos hr]
        have hnone : ¬ ∃ i, ((x :: xs).drop i).take ys.length = ys := by
          rintro ⟨i, hi⟩
          rcases occurs_length _ _ i hi with h0 | hle
          · exact hne h0
          · have hl := congrArg List.length hr
            rw [List.length_take] at hl
            have hi0 : i = 0 := by omega
            subst hi0
            exact hm hi
        exact ⟨_, rfl, fun h => absurd h hnone, fun _ => rfl⟩
      · rw [if_neg hr]
        simp only []
        obtain ⟨r, hr1, hr2, hr3⟩ := ih (first + 1) f hxt (by simpa using hfuel)
        have hlast : first + (x :: xs).length = first + 1 + xs.length := by
          simp only [List.length_cons]; omega
        rw [hlast]
        refine ⟨r, hr1, ?_, ?_⟩
        · rintro ⟨i, hi⟩
          cases i with
          | zero => exact absurd hi hm
          | succ k =>
            obtain ⟨i1, e1, e2, e3⟩ := hr2 ⟨k, by simpa using hi⟩
            refine ⟨i1 + 1, by omega, by simpa using e2, ?_⟩
            intro j hj
            cases j with
            | zero => exact hm
            | succ j1 => simpa using e3 j1 (by omega)
        · intro hno
          apply hr3
          rintro ⟨i, hi⟩
          exact hno ⟨i + 1, by simpa using hi⟩

end search_lemmas
end adv

namespace adv

section contains_claims
variable {α : Type} [DecidableEq α] {T E : ElemType}

omit [DecidableEq α] in
theorem read_run (m : Mem α) (xs : List α) (p i n : Nat)
    (h : read_range m p xs.length = some xs) (hi : i + n ≤ xs.length) :
    read_range m (p + i) n = some ((xs.drop i).take n) := by
  have h1 := read_range_drop m xs p i h (by omega)
  rw [← List.length_drop] at h1
  exact read_range_take m (xs.drop i) (p + i) n h1 (by rw [List.length_drop]; omega)

theorem contains_subview (m : Mem α) (v1 : parray T) (v2 : parray E) (hne : v2.len ≠ 0)
    (hsub : v1.p ≤ v2.p ∧ v2.p + v2.len ≤ v1.p + v1.len) :
    contains m v1 v2 = some v2.p := by
  unfold contains
  rw [if_neg (by omega), if_neg hne, if_pos hsub]
  congr 1
  omega

theorem contains_search (m : Mem α) (v1 : parray T) (v2 : parray E) (xs ys : List α)
    (h1 : v1.vec m = some xs) (h2 : v2.vec m = some ys) (hne : v2.len ≠ 0)
    (hnot : ¬ (v1.p ≤ v2.p ∧ v2.p + v2.len ≤ v1.p + v1.len)) :
    ∃ r, contains m v1 v2 = some r ∧
      ((∃ i, (xs.drop i).take ys.length = ys) →
        ∃ i, r = v1.p + i ∧ i + ys.length ≤ xs.length ∧ (xs.drop i).take ys.length = ys ∧
          ∀ j, j < i → (xs.drop j).take ys.length ≠ ys) ∧
      ((¬ ∃ i, (xs.drop i).take ys.length = ys) → r = nullptr) := by
  have hxl : xs.length = v1.len := read_range_length m _ _ _ h1
  have hyl : ys.length = v2.len := read_range_length m _ _ _ h2
  have hyne : ys ≠ [] := by
    intro h; rw [h] at hyl; exact hne hyl.symm
  unfold parray.vec at h1 h2
  rw [← hxl] at h1
  rw [← hyl] at h2
  unfold contains
  by_cases hlt : v1.len < v2.len
  · rw [if_pos hlt]
    refine ⟨_, rfl, ?_, fun _ => rfl⟩
    rintro ⟨i, hi⟩
    rcases occurs_length _ _ i hi with h0 | hle
    · exact absurd h0 hyne
    · omega
  · rw [if_neg hlt, if_neg hne, if_neg hnot]
    unfold search
    obtain ⟨r, hr1, hr2, hr3⟩ := search_loop_spec m ys v2.p hyne h2 xs v1.p
      (v1.p + xs.length - v1.p + 1) h1 (by omega)
    rw [← hxl, ← hyl, hr1]
    refine ⟨_, rfl, ?_, ?_⟩
    · intro hex
      obtain ⟨i, e1, e2, e3⟩ := hr2 hex
      rcases occurs_length _ _ i e2 with h0 | hle
      · exact absurd h0 hyne
      · have hpos : 0 < ys.length := List.length_pos.mpr hyne
        refine ⟨i, ?_, hle, e2, e3⟩
        rw [if_pos (by omega)]
        exact e1
    · intro hno
      rw [hr3 hno]
      simp

/-- C21: for readable views `v1` and `v2` with `v2` non-empty, in a memory whose null address
holds no element, `contains(v1, v2)` returns a position `r`; `r` is null exactly when no run
of `length(v2)` consecutive elements of `v1` equals the elements of `v2`; and a non-null `r`
lies inside `v1` with the `length(v2)` elements starting there equal to those of `v2`. -/
theorem contains_spec (m : Mem α) (v1 : parray T) (v2 : parray E)
    (hnull : deref m nullptr = none) (h1 : parray.readable m v1) (h2 : parray.readable m v2)
    (hne : v2.len ≠ 0) :
    ∃ r xs ys, contains m v1 v2 = some r ∧ v1.vec m = some xs ∧ v2.vec m = some ys ∧
      (r = nullptr ↔ ¬ ∃ i, (xs.drop i).take ys.length = ys) ∧
      (r ≠ nullptr → v1.p ≤ r ∧ r + v2.len ≤ v1.p + v1.len ∧
        read_range m r v2.len = some ys) := by
  obtain ⟨xs, hxs⟩ := readable_vec m v1 h1
  obtain ⟨ys, hys⟩ := readable_vec m v2 h2
  have hxl : xs.length = v1.len := read_range_length m _ _ _ hxs
  have hyl : ys.length = v2.len := read_range_length m _ _ _ hys
  have hxr : read_range m v1.p xs.length = some xs := by
    unfold parray.vec at hxs; rw [hxl]; exact hxs
  have hnz : ∀ (v : parray T), parray.readable m v → v.len ≠ 0 → v.p ≠ nullptr := by
    intro v hv hl hp
    have := hv 0 (by omega)
    rw [Nat.add_zero, hp, hnull] at this
    exact absurd this (by simp)
  by_cases hsub : v1.p ≤ v2.p ∧ v2.p + v2.len ≤ v1.p + v1.len
  · have hp2 : v2.p ≠ nullptr := by
      intro hp
      have := h2 0 (by omega)
      rw [Nat.add_zero, hp, hnull] at this
      exact absurd this (by simp)
    have hocc : (xs.drop (v2.p - v1.p)).take ys.length = ys := by
      have := read_run m xs v1.p (v2.p - v1.p) ys.length hxr (by omega)
      rw [show v1.p + (v2.p - v1.p) = v2.p by omega, hyl] at this
      unfold parray.vec at hys
      rw [hys] at this
      rw [hyl]
      exact (Option.some.inj this).symm
    refine ⟨v2.p, xs, ys, contains_subview m v1 v2 hne hsub, hxs, hys, ?_, ?_⟩
    · exact ⟨fun h => absurd h hp2, fun h => absurd ⟨_, hocc⟩ h⟩
    · intro _
      exact ⟨hsub.1, hsub.2, hys⟩
  · obtain ⟨r, hr1, hr2, hr3⟩ := contains_search m v1 v2 xs ys hxs hys hne hsub
    refine ⟨r, xs, ys, hr1, hxs, hys, ?_, ?_⟩
    · constructor
      · intro hr hex
        obtain ⟨i, e1, e2, _, _⟩ := hr2 hex
        have := hnz v1 h1 (by omega)
        unfold nullptr at hr this
        omega
      · exact hr3
    · intro hr
      by_cases hex : ∃ i, (xs.drop i).take ys.length = ys
      · obtain ⟨i, e1, e2, e3, _⟩ := hr2 hex
        refine ⟨by omega, by omega, ?_⟩
        have := read_run m xs v1.p i ys.length hxr e2
        rw [e3, hyl, ← e1] at this
        exact this
      · exact absurd (hr3 hex) hr

/-- C22 (failing input): for the empty view `parray::zero()` as `v1`, whose pointer is null,
and an empty `v2` (`ntba("")`, or `parray::zero()` again), `contains(v1, v2)` returns `v1.p`,
which is the null pointer, the value that reports "not contained". -/
theorem contains_zero_empty :
    contains sample_text (parray.zero char_t) (ntba char_t 1 31) = some nullptr ∧
      contains sample_text (parray.zero char_t) (parray.zero char_t) = some nullptr := by
  decide

/-- C23: for a non-empty `v2`: when the element range of `v2` lies inside the range of `v1`,
`contains(v1, v2)` returns the start of `v2` itself, whatever the elements are; otherwise, for
readable views, it returns the start of the first run of `v1` equal to `v2`, and null when
there is none. -/
theorem contains_subview_or_first (m : Mem α) (v1 : parray T) (v2 : parray E)
    (hne : v2.len ≠ 0) :
    ((v1.p ≤ v2.p ∧ v2.p + v2.len ≤ v1.p + v1.len) → contains m v1 v2 = some v2.p) ∧
      (¬ (v1.p ≤ v2.p ∧ v2.p + v2.len ≤ v1.p + v1.len) →
        parray.readable m v1 → parray.readable m v2 →
        ∃ r xs ys, contains m v1 v2 = some r ∧ v1.vec m = some xs ∧ v2.vec m = some ys ∧
          ((∃ i, (xs.drop i).take ys.length = ys) →
            ∃ i, r = v1.p + i ∧ (xs.drop i).take ys.length = ys ∧
              ∀ j, j < i → (xs.drop j).take ys.length ≠ ys) ∧
          ((¬ ∃ i, (xs.drop i).take ys.length = ys) → r = nullptr)) := by
  refine ⟨contains_subview m v1 v2 hne, fun hnot h1 h2 => ?_⟩
  obtain ⟨xs, hxs⟩ := readable_vec m v1 h1
  obtain ⟨ys, hys⟩ := readable_vec m v2 h2
  obtain ⟨r, hr1, hr2, hr3⟩ := contains_search m v1 v2 xs ys hxs hys hne hnot
  refine ⟨r, xs, ys, hr1, hxs, hys, fun hex => ?_, hr3⟩
  obtain ⟨i, e1, _, e3, e4⟩ := hr2 hex
  exact ⟨i, e1, e3, e4⟩

end contains_claims
end adv

namespace adv

/-! ## Prefix and suffix tests, length recovery -/

section affix_claims
variable {α : Type} [LinearOrder α] {T E : ElemType}

theorem op_eq_window (m : Mem α) (n l : Nat) (v2 : parray E) (hn : n = v2.len)
    (hl : ∀ i, i < n → (deref m (l + i)).isSome = true) (h2 : parray.readable m v2) :
    ∃ b, parray.op_eq m (⟨n, l⟩ : parray T) v2 = some b ∧
      (b = true ↔ ∀ i, i < v2.len → deref m (l + i) = deref m (v2.p + i)) := by
  subst hn
  unfold parray.op_eq
  simp only []
  rw [eq_generic T E m v2.len l v2.len v2.p hl, if_pos rfl]
  exact generic_eq_spec T E m v2.len l v2.p hl h2

/-- Where `==` of the element type is the equality of values (integer and character types):
for readable views `v1` and `v2`, `starts_with(v1, v2)` returns a value, and it is `true`
exactly when `length(v2) ≤ length(v1)` and `v1[i] = v2[i]` for every `i < length(v2)`;
every readable view starts with every empty view and with itself. -/
theorem starts_with_iff (m : Mem α) (v1 : parray T) (v2 : parray E)
    (h1 : parray.readable m v1) (h2 : parray.readable m v2) :
    (∃ b, starts_with m v1 v2 = some b ∧
      (b = true ↔ v2.len ≤ v1.len ∧
        ∀ i, i < v2.len → parray.index m v1 i = parray.index m v2 i)) ∧
      (∀ e : parray E, e.len = 0 → starts_with m v1 e = some true) ∧
      starts_with m v1 v1 = some true := by
  refine ⟨?_, ?_, ?_⟩
  · unfold starts_with
    by_cases hle : v2.len ≤ v1.len
    · rw [if_pos hle]
      obtain ⟨b, hb, hiff⟩ := op_eq_window (T := T) m v2.len v1.p v2 rfl
        (fun i hi => h1 i (by omega)) h2
      exact ⟨b, hb, by rw [hiff]; simp [hle, parray.index]⟩
    · rw [if_neg hle]
      exact ⟨false, rfl, by simp [hle]⟩
  · intro e he
    unfold starts_with
    rw [if_pos (by omega)]
    obtain ⟨b, hb, hiff⟩ := op_eq_window (T := T) m e.len v1.p e rfl
      (fun i hi => absurd hi (by omega)) (fun i hi => absurd hi (by omega))
    rw [hb, (hiff.mpr (fun i hi => absurd hi (by omega)))]
  · unfold starts_with
    rw [if_pos (Nat.le_refl _)]
    obtain ⟨b, hb, hiff⟩ := op_eq_window (T := T) m v1.len v1.p v1 rfl h1 h1
    rw [hb, (hiff.mpr (fun i _ => rfl))]

/-- Where `==` of the element type is the equality of values (integer and character types):
for readable views `v1` and `v2`, `ends_with(v1, v2)` returns a value, and it is `true`
exactly when `length(v2) ≤ length(v1)` and `v1[length(v1) - length(v2) + i] = v2[i]`
for every `i < length(v2)`; every readable view ends with every empty view and with
itself. -/
theorem ends_with_iff (m : Mem α) (v1 : parray T) (v2 : parray E)
    (h1 : parray.readable m v1) (h2 : parray.readable m v2) :
    (∃ b, ends_with m v1 v2 = some b ∧
      (b = true ↔ v2.len ≤ v1.len ∧
        ∀ i, i < v2.len →
          parray.index m v1 (v1.len - v2.len + i) = parray.index m v2 i)) ∧
      (∀ e : parray E, e.len = 0 → ends_with m v1 e = some true) ∧
      ends_with m v1 v1 = some true := by
  refine ⟨?_, ?_, ?_⟩
  · unfold ends_with
    by_cases hle : v2.len ≤ v1.len
    · rw [if_pos hle]
      have hw : ∀ i, i < v2.len → (deref m (v1.p + v1.len - v2.len + i)).isSome = true := by
        intro i hi
        rw [show v1.p + v1.len - v2.len + i = v1.p + (v1.len - v2.len + i) by omega]
        exact h1 _ (by omega)
      obtain ⟨b, hb, hiff⟩ := op_eq_window (T := T) m v2.len (v1.p + v1.len - v2.len) v2 rfl
        hw h2
      refine ⟨b, hb, ?_⟩
      rw [hiff]
      simp only [hle, true_and, parray.index]
      constructor
      · intro h i hi
        rw [← h i hi]
        congr 1
        omega
      · intro h i hi
        rw [← h i hi]
        congr 1
        omega
    · rw [if_neg hle]
      exact ⟨false, rfl, by simp [hle]⟩
  · intro e he
    unfold ends_with
    rw [if_pos (by omega)]
    obtain ⟨b, hb, hiff⟩ := op_eq_window (T := T) m e.len (v1.p + v1.len - e.len) e rfl
      (fun i hi => absurd hi (by omega)) (fun i hi => absurd hi (by omega))
    rw [hb, (hiff.mpr (fun i hi => absurd hi (by omega)))]
  · unfold ends_with
    rw [if_pos (Nat.le_refl _), Nat.add_sub_cancel]
    obtain ⟨b, hb, hiff⟩ := op_eq_window (T := T) m v1.len v1.p v1 rfl h1 h1
    rw [hb, (hiff.mpr (fun i _ => rfl))]

end affix_claims

section length_claims
variable {α : Type} [LinearOrder α] [Zero α]

/-- C30: when the sequence at `p` holds the zero value at some offset `k` and readable
elements before it, `ntbs_len(p)` returns a value `n ≤ k`, the offset of the first zero
element: `p[n]` is zero and the view `{n, p}`, which is what converting `ntbs(p)` to a view
gives, holds `n` elements none of which is zero. -/
theorem ntbs_len_first_terminator (T : ElemType) (m : Mem α) (p k : Nat)
    (hk : deref m (p + k) = some 0)
    (hread : ∀ i, i < k → (deref m (p + i)).isSome = true) :
    ∃ n xs, n ≤ k ∧ parray_traits.ntbs_len T m p = some n ∧
      (ntbs T p).to_parray m = some ⟨n, p⟩ ∧
      (⟨n, p⟩ : parray T).vec m = some xs ∧ xs.length = n ∧ (∀ x ∈ xs, x ≠ 0) ∧
      deref m (p + n) = some 0 := by
  classical
  have hex : ∃ i, deref m (p + i) = some 0 := ⟨k, hk⟩
  have hle : Nat.find hex ≤ k := Nat.find_min' hex hk
  have hterm : terminated_at m p (Nat.find hex) :=
    ⟨Nat.find_spec hex, fun i hi => ⟨hread i (by omega), Nat.find_min hex hi⟩⟩
  have hlen := ntbs_len_spec T m p _ hterm
  obtain ⟨xs, hxs⟩ := read_range_of_readable m (Nat.find hex) p (terminated_at_readable hterm)
  have hxl : xs.length = Nat.find hex := read_range_length m _ _ _ hxs
  refine ⟨Nat.find hex, xs, hle, hlen, ?_, hxs, hxl, ?_, Nat.find_spec hex⟩
  · unfold ntbs_t.to_parray ntbs
    rw [hlen]
    rfl
  · intro x hx h0
    rw [← hxl] at hxs
    obtain ⟨i, hi, hd⟩ := read_range_mem m xs p hxs x hx
    rw [h0] at hd
    exact Nat.find_min hex (by omega) hd

end length_claims
end adv

namespace adv

/-! ## The bitmap delimiter -/

section bitset_lemmas

theorem and_two_pow_ne_zero (a k : Nat) : a &&& 2 ^ k ≠ 0 ↔ a.testBit k = true := by
  constructor
  · intro h
    obtain ⟨i, hi⟩ := Nat.ne_zero_implies_bit_true h
    rw [Nat.testBit_and, Nat.testBit_two_pow] at hi
    simp only [Bool.and_eq_true, decide_eq_true_eq] at hi
    rw [hi.2]
    exact hi.1
  · intro h h0
    have := Nat.testBit_and a (2 ^ k) k
    rw [h0, Nat.zero_testBit, h, Nat.testBit_two_pow_self] at this
    exact absurd this (by simp)

theorem bitset_delim.get__testBit (b : bitset_delim) (j : Nat) :
    b.get_ j = (b.data.getD (j / b.chunk_bits) 0).testBit (j % b.chunk_bits) := by
  unfold bitset_delim.get_ bitset_delim.idx_ bitset_delim.mask_
  rw [Nat.one_shiftLeft]
  by_cases h : (b.data.getD (j / b.chunk_bits) 0).testBit (j % b.chunk_bits) = true
  · rw [h, decide_eq_true ((and_two_pow_ne_zero _ _).mpr h)]
  · rw [Bool.not_eq_true] at h
    rw [h, decide_eq_false]
    intro hne
    have := (and_two_pow_ne_zero _ _).mp hne
    rw [h] at this
    exact absurd this (by simp)

theorem div_mod_eq_iff (i j c : Nat) : (i / c = j / c ∧ i % c = j % c) ↔ i = j := by
  constructor
  · rintro ⟨h1, h2⟩
    rw [← Nat.div_add_mod i c, ← Nat.div_add_mod j c, h1, h2]
  · rintro rfl
    exact ⟨rfl, rfl⟩

theorem getD_set_zero (l : List Nat) (i j v : Nat) (hi : i < l.length) :
    (l.set i v).getD j 0 = if i = j then v else l.getD j 0 := by
  by_cases h : i = j
  · subst h
    simp [List.getD_eq_getElem?_getD, List.getElem?_set, hi]
  · simp [List.getD_eq_getElem?_getD, List.getElem?_set, h]

theorem bitset_delim.get__set_ (b : bitset_delim) (i j : Nat)
    (hi : b.idx_ i < b.data.length) :
    (b.set_ i).get_ j = (decide (i = j) || b.get_ j) := by
  rw [bitset_delim.get__testBit, bitset_delim.get__testBit]
  unfold bitset_delim.set_ bitset_delim.idx_ bitset_delim.mask_ at *
  simp only []
  rw [getD_set_zero _ _ _ _ hi, Nat.one_shiftLeft]
  by_cases hc : i / b.chunk_bits = j / b.chunk_bits
  · rw [if_pos hc, Nat.testBit_or, Nat.testBit_two_pow, hc]
    by_cases hm : i % b.chunk_bits = j % b.chunk_bits
    · have : i = j := (div_mod_eq_iff i j _).mp ⟨hc, hm⟩
      simp [hm, this]
    · have : i ≠ j := fun h => hm (by rw [h])
      simp [hm, this]
  · have : i ≠ j := fun h => hc (by rw [h])
    rw [if_neg hc]
    simp [this]

theorem bitset_delim.get__clr_ (b : bitset_delim) (i j : Nat) (hcb : 0 < b.chunk_bits)
    (hi : b.idx_ i < b.data.length) :
    (b.clr_ i).get_ j = (!decide (i = j) && b.get_ j) := by
  rw [bitset_delim.get__testBit, bitset_delim.get__testBit]
  unfold bitset_delim.clr_ bitset_delim.idx_ bitset_delim.mask_ at *
  simp only []
  rw [getD_set_zero _ _ _ _ hi, Nat.one_shiftLeft]
  by_cases hc : i / b.chunk_bits = j / b.chunk_bits
  · have hlt : 2 ^ (i % b.chunk_bits) < 2 ^ b.chunk_bits :=
      Nat.pow_lt_pow_right (by omega) (Nat.mod_lt _ hcb)
    rw [if_pos hc, Nat.testBit_and, Nat.sub_sub, Nat.add_comm 1,
      Nat.testBit_two_pow_sub_succ hlt, Nat.testBit_two_pow, hc,
      decide_eq_true (Nat.mod_lt j hcb)]
    by_cases hm : i % b.chunk_bits = j % b.chunk_bits
    · have : i = j := (div_mod_eq_iff i j _).mp ⟨hc, hm⟩
      simp [hm, this]
    · have : i ≠ j := fun h => hm (by rw [h])
      simp [hm, this]
  · have : i ≠ j := fun h => hc (by rw [h])
    rw [if_neg hc]
    simp [this]

theorem IntT.promote_bits (t : IntT) : int_bits ≤ t.promote.bits := by
  unfold IntT.promote
  split
  · exact Nat.le_refl _
  · omega

theorem toNat_div_nonpos (r : Int) (cb : Nat) (hcb : 0 < cb) (hr : r ≤ 0) :
    ((r + cb - 1) / cb).toNat = 0 := by
  have hc : (0 : Int) < cb := by exact_mod_cast hcb
  have : (r + cb - 1) / (cb : Int) < 1 := Int.ediv_lt_of_lt_mul hc (by omega)
  omega

/-- Where the array bound is positive, no intermediate value of `chunk_count` has wrapped and
the bound is the exact quotient. -/
theorem chunk_count_exact (t : IntT) (d : Int) (minV maxV : Int) (cb : Nat) (hcb : 0 < cb)
    (hd : d = maxV - minV) (h0 : 0 ≤ d) (h32 : d < 2 ^ unsigned_bits)
    (hpos : 0 < bitset_delim.chunk_count t minV maxV cb) :
    bitset_delim.chunk_count t minV maxV cb = (((d + 1) + cb - 1) / cb).toNat := by
  have hbits := IntT.promote_bits t
  unfold bitset_delim.chunk_count at hpos ⊢
  rw [← hd] at hpos ⊢
  generalize t.promote = P at hbits hpos ⊢
  obtain ⟨n, s⟩ := P
  simp only [int_bits] at hbits
  simp only [unsigned_bits] at h32
  have hK : (2 : Int) ^ 32 ≤ 2 ^ n := pow_le_pow_right₀ (by norm_num) hbits
  unfold IntT.convert at hpos ⊢
  simp only [] at hpos ⊢
  cases s with
  | false =>
    simp only [Bool.false_eq_true, if_false] at hpos ⊢
    have h1 : d % 2 ^ n = d := Int.emod_eq_of_lt h0 (by omega)
    rw [h1] at hpos ⊢
    by_cases hlt : d + 1 < 2 ^ n
    · rw [Int.emod_eq_of_lt (by omega) hlt]
    · have he : d + 1 = 2 ^ n := by omega
      rw [he, Int.emod_self, toNat_div_nonpos 0 cb hcb (le_refl 0)] at hpos
      exact absurd hpos (by decide)
  | true =>
    simp only [if_true] at hpos ⊢
    obtain ⟨k, hk⟩ : ∃ k, n = k + 1 := ⟨n - 1, by omega⟩
    subst hk
    simp only [Nat.add_sub_cancel] at hpos ⊢
    have hH : (2 : Int) ^ (k + 1) = 2 * 2 ^ k := by rw [pow_succ]; ring
    have hHpos : (0 : Int) < 2 ^ k := by positivity
    rw [hH] at hK hpos ⊢
    generalize (2 : Int) ^ k = H at hK hpos hHpos ⊢
    by_cases hlt : d < H
    · have h1 : (d + H) % (2 * H) = d + H := Int.emod_eq_of_lt (by omega) (by omega)
      rw [h1, show d + H - H = d by ring] at hpos ⊢
      by_cases hlt1 : d + 1 < H
      · rw [Int.emod_eq_of_lt (by omega) (by omega), show d + 1 + H - H = d + 1 by ring]
      · have he : d + 1 + H = 0 + 2 * H := by omega
        rw [he, Int.add_emod_self, Int.zero_emod,
          toNat_div_nonpos (0 - H) cb hcb (by omega)] at hpos
        exact absurd hpos (by decide)
    · have h1 : (d + H) % (2 * H) = d - H := by
        rw [show d + H = (d - H) + 2 * H by ring, Int.add_emod_self]
        exact Int.emod_eq_of_lt (by omega) (by omega)
      rw [h1] at hpos
      have h2 : (d - H - H + 1 + H) % (2 * H) = d - H + 1 := by
        rw [show d - H - H + 1 + H = d - H + 1 by ring]
        exact Int.emod_eq_of_lt (by omega) (by omega)
      rw [h2, toNat_div_nonpos (d - H + 1 - H) cb hcb (by omega)] at hpos
      exact absurd hpos (by decide)

theorem chunk_count_full_range (cb : Nat) (hcb : 0 < cb) :
    bitset_delim.chunk_count ⟨32, false⟩ 0 (2 ^ 32 - 1) cb = 0 := by
  unfold bitset_delim.chunk_count IntT.promote IntT.convert int_bits
  norm_num
  have := toNat_div_nonpos 0 cb hcb (le_refl 0)
  simpa using this

theorem chunk_count_byte (cb : Nat) (hcb : 0 < cb) :
    bitset_delim.chunk_count ⟨8, false⟩ 0 255 cb = (255 + cb) / cb ∧
      0 < bitset_delim.chunk_count ⟨8, false⟩ 0 255 cb := by
  have h : bitset_delim.chunk_count ⟨8, false⟩ 0 255 cb = (255 + cb) / cb := by
    unfold bitset_delim.chunk_count IntT.promote IntT.convert int_bits
    norm_num
    rw [show ((256 : Int) + cb - 1) = ((255 + cb : Nat) : Int) by push_cast; ring,
      ← Int.natCast_div, Int.toNat_natCast]
  refine ⟨h, ?_⟩
  rw [h]
  exact Nat.div_pos (by omega) hcb

theorem byte_bitmap_well_formed (cb : Nat) (hcb : 0 < cb) :
    (bitset_delim.mk_empty ⟨8, false⟩ 0 255 cb).well_formed := by
  refine ⟨hcb, ?_, by norm_num [bitset_delim.mk_empty, unsigned_bits],
    (chunk_count_byte cb hcb).2, by simp [bitset_delim.mk_empty]⟩
  simp only [bitset_delim.mk_empty]
  unfold IntT.promote IntT.convert int_bits
  norm_num

theorem chunk_index_lt (t : IntT) (minV maxV d : Int) (cb : Nat) (hcb : 0 < cb) (h0 : 0 ≤ d)
    (hd : d ≤ maxV - minV) (h32 : maxV - minV < 2 ^ unsigned_bits)
    (hpos : 0 < bitset_delim.chunk_count t minV maxV cb) :
    d.toNat / cb < bitset_delim.chunk_count t minV maxV cb := by
  rw [chunk_count_exact t (maxV - minV) minV maxV cb hcb rfl (by omega) h32 hpos]
  obtain ⟨w, hw⟩ := Int.eq_ofNat_of_zero_le (Int.le_trans h0 hd)
  obtain ⟨e, he⟩ := Int.eq_ofNat_of_zero_le h0
  rw [hw, he, show ((w : Int) + 1 + (cb : Int) - 1) = ((w + cb : Nat) : Int) by
    push_cast; omega]
  rw [← Int.natCast_div, Int.toNat_natCast, Int.toNat_natCast, Nat.add_div_right w hcb]
  have hew : e ≤ w := by rw [hw, he] at hd; exact_mod_cast hd
  exact Nat.lt_succ_of_le (Nat.div_le_div_right hew)

end bitset_lemmas
end adv

namespace adv

section bitset_members

theorem to_unsigned_of_range (d : Int) (h0 : 0 ≤ d) (h : d < 2 ^ unsigned_bits) :
    to_unsigned d = d.toNat := by
  unfold to_unsigned
  rw [Int.emod_eq_of_lt h0 h]

theorem bitset_delim.index_lt (b : bitset_delim) (hwf : b.well_formed) (t : Int)
    (h1 : b.minV ≤ t) (h2 : t ≤ b.maxV) :
    b.idx_ (to_unsigned (t - b.minV)) < b.data.length := by
  obtain ⟨hcb, _, hw, hpos, hlen⟩ := hwf
  rw [to_unsigned_of_range _ (by omega) (by omega), hlen]
  exact chunk_index_lt b.int_t b.minV b.maxV (t - b.minV) b.chunk_bits hcb (by omega)
    (by omega) hw hpos

theorem bitset_delim.index_inj (b : bitset_delim) (hwf : b.well_formed) (s t : Int)
    (hs1 : b.minV ≤ s) (hs2 : s ≤ b.maxV) (ht1 : b.minV ≤ t) (ht2 : t ≤ b.maxV) :
    to_unsigned (s - b.minV) = to_unsigned (t - b.minV) ↔ s = t := by
  obtain ⟨_, _, hw, _, _⟩ := hwf
  rw [to_unsigned_of_range _ (by omega) (by omega),
    to_unsigned_of_range _ (by omega) (by omega)]
  omega

theorem bitset_delim.set_bit_wf (b : bitset_delim) (x : Int) (hwf : b.well_formed) :
    (b.set_bit x).well_formed ∧ (b.set_bit x).int_t = b.int_t ∧
      (b.set_bit x).minV = b.minV ∧ (b.set_bit x).maxV = b.maxV := by
  unfold bitset_delim.set_bit
  simp only []
  split
  · refine ⟨?_, rfl, rfl, rfl⟩
    obtain ⟨h1, h2, h3, h4, h5⟩ := hwf
    exact ⟨h1, h2, h3, h4, by simp only [bitset_delim.set_, List.length_set]; exact h5⟩
  · exact ⟨hwf, rfl, rfl, rfl⟩

theorem bitset_delim.is_set_set_bit (b : bitset_delim) (x y : Int) (hwf : b.well_formed) :
    (b.set_bit x).is_set y
      = ((decide (b.int_t.convert y = b.int_t.convert x) &&
          decide (b.minV ≤ b.int_t.convert x ∧ b.int_t.convert x ≤ b.maxV)) || b.is_set y) := by
  by_cases hx : b.minV ≤ b.int_t.convert x ∧ b.int_t.convert x ≤ b.maxV
  · have hs : b.set_bit x = b.set_ (to_unsigned (b.int_t.convert x - b.minV)) := by
      unfold bitset_delim.set_bit
      simp only []
      rw [if_pos hx]
    rw [hs]
    unfold bitset_delim.is_set
    simp only [show ∀ i, (b.set_ i).int_t = b.int_t from fun _ => rfl,
      show ∀ i, (b.set_ i).minV = b.minV from fun _ => rfl,
      show ∀ i, (b.set_ i).maxV = b.maxV from fun _ => rfl]
    by_cases hy : b.minV ≤ b.int_t.convert y ∧ b.int_t.convert y ≤ b.maxV
    · rw [if_pos hy, if_pos hy,
        bitset_delim.get__set_ b _ _ (bitset_delim.index_lt b hwf _ hx.1 hx.2)]
      have hiff := bitset_delim.index_inj b hwf _ _ hx.1 hx.2 hy.1 hy.2
      by_cases he : b.int_t.convert y = b.int_t.convert x
      · simp [he, hx]
      · have : ¬ to_unsigned (b.int_t.convert x - b.minV)
            = to_unsigned (b.int_t.convert y - b.minV) := fun h => he (hiff.mp h).symm
        simp [he, this]
    · rw [if_neg hy, if_neg hy]
      have he : b.int_t.convert y ≠ b.int_t.convert x := fun h => hy (h ▸ hx)
      simp [he]
  · have hs : b.set_bit x = b := by
      unfold bitset_delim.set_bit
      simp only []
      rw [if_neg hx]
    rw [hs]
    simp [hx]

theorem bitset_delim.is_set_clear_bit (b : bitset_delim) (x y : Int) (hwf : b.well_formed) :
    (b.clear_bit x).is_set y
      = (!decide (b.int_t.convert y = b.int_t.convert x) && b.is_set y) := by
  by_cases hx : b.minV ≤ b.int_t.convert x ∧ b.int_t.convert x ≤ b.maxV
  · have hs : b.clear_bit x = b.clr_ (to_unsigned (b.int_t.convert x - b.minV)) := by
      unfold bitset_delim.clear_bit
      simp only []
      rw [if_pos hx]
    rw [hs]
    unfold bitset_delim.is_set
    simp only [show ∀ i, (b.clr_ i).int_t = b.int_t from fun _ => rfl,
      show ∀ i, (b.clr_ i).minV = b.minV from fun _ => rfl,
      show ∀ i, (b.clr_ i).maxV = b.maxV from fun _ => rfl]
    by_cases hy : b.minV ≤ b.int_t.convert y ∧ b.int_t.convert y ≤ b.maxV
    · rw [if_pos hy, if_pos hy,
        bitset_delim.get__clr_ b _ _ hwf.1 (bitset_delim.index_lt b hwf _ hx.1 hx.2)]
      have hiff := bitset_delim.index_inj b hwf _ _ hx.1 hx.2 hy.1 hy.2
      by_cases he : b.int_t.convert y = b.int_t.convert x
      · simp [he]
      · have : ¬ to_unsigned (b.int_t.convert x - b.minV)
            = to_unsigned (b.int_t.convert y - b.minV) := fun h => he (hiff.mp h).symm
        simp [he, this]
    · rw [if_neg hy, if_neg hy]
      simp
  · have hs : b.clear_bit x = b := by
      unfold bitset_delim.clear_bit
      simp only []
      rw [if_neg hx]
    rw [hs]
    by_cases he : b.int_t.convert y = b.int_t.convert x
    · have hy : ¬ (b.minV ≤ b.int_t.convert y ∧ b.int_t.convert y ≤ b.maxV) := by
        rw [he]; exact hx
      unfold bitset_delim.is_set
      simp only []
      rw [if_neg hy]
      simp
    · simp [he]

theorem bitset_delim.is_set_mk_empty (int_t : IntT) (minV maxV : Int) (cb : Nat) (y : Int) :
    (bitset_delim.mk_empty int_t minV maxV cb).is_set y = false := by
  unfold bitset_delim.is_set
  simp only []
  split
  · rw [bitset_delim.get__testBit]
    unfold bitset_delim.mk_empty
    simp only [List.getD_eq_getElem?_getD, List.getElem?_replicate]
    split <;> simp
  · rfl

end bitset_members
end adv

namespace adv

section bitset_claims
variable {α : Type} {T : ElemType}

theorem bitset_delim.of_parray_loop_spec (val : α → Int) (m : Mem α) :
    ∀ (ds : List α) (p : Nat) (b : bitset_delim),
      read_range m p ds.length = some ds → b.well_formed →
      ∃ b1, bitset_delim.of_parray_loop val m ds.length p b = some b1 ∧ b1.well_formed ∧
        b1.int_t = b.int_t ∧ b1.minV = b.minV ∧ b1.maxV = b.maxV ∧
        ∀ y, b1.is_set y
          = ((ds.any (fun a => decide (b.int_t.convert y = b.int_t.convert (val a))) &&
              decide (b.minV ≤ b.int_t.convert y ∧ b.int_t.convert y ≤ b.maxV)) ||
            b.is_set y) := by
  intro ds
  induction ds with
  | nil =>
    intro p b _ hwf
    exact ⟨b, rfl, hwf, rfl, rfl, rfl, fun y => by simp⟩
  | cons a ds ih =>
    intro p b hread hwf
    obtain ⟨ha, ht⟩ := (read_range_succ m p _ a ds).mp hread
    obtain ⟨hwf1, hi1, hmin1, hmax1⟩ := bitset_delim.set_bit_wf b (val a) hwf
    obtain ⟨b1, h1, h2, h3, h4, h5, h6⟩ := ih (p + 1) (b.set_bit (val a)) ht hwf1
    refine ⟨b1, ?_, h2, h3.trans hi1, h4.trans hmin1, h5.trans hmax1, ?_⟩
    · rw [List.length_cons, bitset_delim.of_parray_loop, ha]
      exact h1
    · intro y
      rw [h6 y, bitset_delim.is_set_set_bit b (val a) y hwf, hi1, hmin1, hmax1,
        List.any_cons]
      by_cases he : b.int_t.convert y = b.int_t.convert (val a)
      · rw [← he]
        cases (ds.any fun a => decide (b.int_t.convert y = b.int_t.convert (val a))) <;>
          cases (decide (b.minV ≤ b.int_t.convert y ∧ b.int_t.convert y ≤ b.maxV)) <;>
          simp
      · simp [he]

theorem convert_byte (v : Int) : (⟨8, false⟩ : IntT).convert v = v % 256 := by
  unfold IntT.convert
  norm_num

/-- C28: a `bitset_delim<>` (one-byte `IntT`, range `[0, 255]`) built from a readable view
`d` whose elements have their values in one window of 256 consecutive integers (`lo = -128`
for `char`/`signed char`, `lo = 0` for `unsigned char`) satisfies the class invariant and
answers `is_set(x)`, for `x` in the same window, with `true` exactly when `x` occurs in `d`.
For every bitmap `b` that satisfies the class invariant and every `x` whose converted value is
in `[minV, maxV]`: after `set_bit(x)` `is_set(x)` is `true`, after `clear_bit(x)` it is
`false`, and for every `y` with another converted value `is_set(y)` is what it was. The
invariant leaves out the instantiation over the whole range of a 32-bit `IntT`: there
`maxV - minV + 1` wraps to `0`, `chunk_count` is `0` and the bitmap has no chunk. -/
theorem bitset_delim_lookup (chunk_bits : Nat) (hcb : 0 < chunk_bits) (val : α → Int)
    (m : Mem α) (d : parray T) (ds : List α) (hd : d.vec m = some ds) (lo : Int)
    (hbyte : ∀ a ∈ ds, lo ≤ val a ∧ val a < lo + 256) :
    (∃ b, bitset_delim.of_parray ⟨8, false⟩ 0 255 chunk_bits val m d = some b ∧
      b.well_formed ∧
      ∀ x, lo ≤ val x → val x < lo + 256 →
        (b.is_set (val x) = true ↔ ∃ a ∈ ds, val a = val x)) ∧
      (∀ (b : bitset_delim) (x : Int), b.well_formed →
        b.minV ≤ b.int_t.convert x → b.int_t.convert x ≤ b.maxV →
        (b.set_bit x).is_set x = true ∧ (b.clear_bit x).is_set x = false ∧
        ∀ y, b.int_t.convert y ≠ b.int_t.convert x →
          (b.set_bit x).is_set y = b.is_set y ∧ (b.clear_bit x).is_set y = b.is_set y) ∧
      (bitset_delim.chunk_count ⟨32, false⟩ 0 (2 ^ 32 - 1) chunk_bits = 0 ∧
        (bitset_delim.mk_empty ⟨32, false⟩ 0 (2 ^ 32 - 1) chunk_bits).data = [] ∧
        ¬ (bitset_delim.mk_empty ⟨32, false⟩ 0 (2 ^ 32 - 1) chunk_bits).well_formed) := by
  refine ⟨?_, ?_, ?_⟩
  · have hlen : ds.length = d.len := read_range_length m _ _ _ hd
    unfold parray.vec at hd
    rw [← hlen] at hd
    have hwf := byte_bitmap_well_formed chunk_bits hcb
    obtain ⟨b, h1, hwf1, _, _, _, h6⟩ :=
      bitset_delim.of_parray_loop_spec val m ds d.p _ hd hwf
    refine ⟨b, ?_, hwf1, ?_⟩
    · unfold bitset_delim.of_parray
      rw [← hlen]
      exact h1
    · intro x hx1 hx2
      rw [h6 (val x), bitset_delim.is_set_mk_empty, Bool.or_false]
      simp only [bitset_delim.mk_empty, convert_byte, Bool.and_eq_true, List.any_eq_true,
        decide_eq_true_eq]
      constructor
      · rintro ⟨⟨a, ha, he⟩, _⟩
        have := hbyte a ha
        exact ⟨a, ha, by omega⟩
      · rintro ⟨a, ha, he⟩
        exact ⟨⟨a, ha, by rw [he]⟩, by omega⟩
  · intro b x hwf hx1 hx2
    refine ⟨?_, ?_, fun y hy => ⟨?_, ?_⟩⟩
    · rw [bitset_delim.is_set_set_bit b x x hwf]
      simp [hx1, hx2]
    · rw [bitset_delim.is_set_clear_bit b x x hwf]
      simp
    · rw [bitset_delim.is_set_set_bit b x y hwf]
      simp [hy]
    · rw [bitset_delim.is_set_clear_bit b x y hwf]
      simp [hy]
  · have h0 := chunk_count_full_range chunk_bits hcb
    refine ⟨h0, ?_, ?_⟩
    · simp only [bitset_delim.mk_empty, h0, List.replicate_zero]
    · intro hwf
      have hpos := hwf.2.2.2.1
      simp only [bitset_delim.mk_empty] at hpos
      rw [h0] at hpos
      exact absurd hpos (by decide)

/-- C29 (failing input): the default `bitset_delim<>` (`unsigned char`, range `[0, 255]`,
64-bit chunks) built from `" ,"` answers `is_set` with `true` for the value 300 of a wider
element type (300 is converted to `unsigned char` first and becomes 44, the code of `','`),
`clear_bit(300)` clears the bit of `','`, and `set_bit(300)` on the empty bitmap sets it. -/
theorem bitset_delim_wide_value :
    (bitset_delim.of_parray ⟨8, false⟩ 0 255 64 (fun (n : Nat) => (n : Int)) sample_mem
        sample_seps).map (fun b => (b.is_set 300, b.is_set 44, (b.clear_bit 300).is_set 44))
      = some (true, true, false) ∧
    ((bitset_delim.mk_empty ⟨8, false⟩ 0 255 64).set_bit 300).is_set 44 = true := by
  decide

end bitset_claims
end adv

namespace adv

/-! ## The tool theorems at the sample data -/

theorem contains_spec_witness :
    deref sample_text nullptr = none ∧ parray.readable sample_text sample_twice ∧
      parray.readable sample_text sample_mid ∧ sample_mid.len ≠ 0 ∧
      ∃ r xs ys, contains sample_text sample_twice sample_mid = some r ∧
        sample_twice.vec sample_text = some xs ∧ sample_mid.vec sample_text = some ys ∧
        (r = nullptr ↔ ¬ ∃ i, (xs.drop i).take ys.length = ys) ∧
        (r ≠ nullptr → sample_twice.p ≤ r ∧
          r + sample_mid.len ≤ sample_twice.p + sample_twice.len ∧
          read_range sample_text r sample_mid.len = some ys) :=
  ⟨by decide, by decide, by decide, by decide,
    contains_spec sample_text sample_twice sample_mid (by decide) (by decide) (by decide)
      (by decide)⟩

theorem contains_subview_or_first_witness :
    sample_second.len ≠ 0 ∧
      (sample_twice.p ≤ sample_second.p ∧
        sample_second.p + sample_second.len ≤ sample_twice.p + sample_twice.len) ∧
      contains sample_text sample_twice sample_second = some sample_second.p ∧
      sample_second.vec sample_text = (⟨3, 16⟩ : parray char_t).vec sample_text ∧
      ¬ (sample_twice.p ≤ sample_123.p ∧
        sample_123.p + sample_123.len ≤ sample_twice.p + sample_twice.len) ∧
      ∃ r xs ys, contains sample_text sample_twice sample_123 = some r ∧
        sample_twice.vec sample_text = some xs ∧ sample_123.vec sample_text = some ys ∧
        ((∃ i, (xs.drop i).take ys.length = ys) →
          ∃ i, r = sample_twice.p + i ∧ (xs.drop i).take ys.length = ys ∧
            ∀ j, j < i → (xs.drop j).take ys.length ≠ ys) ∧
        ((¬ ∃ i, (xs.drop i).take ys.length = ys) → r = nullptr) :=
  ⟨by decide, by decide,
    (contains_subview_or_first sample_text sample_twice sample_second (by decide)).1
      (by decide),
    by decide, by decide,
    (contains_subview_or_first sample_text sample_twice sample_123 (by decide)).2
      (by decide) (by decide) (by decide)⟩

theorem starts_with_iff_witness :
    parray.readable sample_text sample_twice ∧ parray.readable sample_text sample_123 ∧
      (∃ b, starts_with sample_text sample_twice sample_123 = some b ∧
        (b = true ↔ sample_123.len ≤ sample_twice.len ∧
          ∀ i, i < sample_123.len →
            parray.index sample_text sample_twice i = parray.index sample_text sample_123 i)) ∧
      (∀ e : parray char_t, e.len = 0 → starts_with sample_text sample_twice e = some true) ∧
      starts_with sample_text sample_twice sample_twice = some true :=
  ⟨by decide, by decide,
    starts_with_iff sample_text sample_twice sample_123 (by decide) (by decide)⟩

theorem ends_with_iff_witness :
    parray.readable sample_text sample_twice ∧ parray.readable sample_text sample_123 ∧
      (∃ b, ends_with sample_text sample_twice sample_123 = some b ∧
        (b = true ↔ sample_123.len ≤ sample_twice.len ∧
          ∀ i, i < sample_123.len →
            parray.index sample_text sample_twice (sample_twice.len - sample_123.len + i)
              = parray.index sample_text sample_123 i)) ∧
      (∀ e : parray char_t, e.len = 0 → ends_with sample_text sample_twice e = some true) ∧
      ends_with sample_text sample_twice sample_twice = some true :=
  ⟨by decide, by decide,
    ends_with_iff sample_text sample_twice sample_123 (by decide) (by decide)⟩

theorem trim_spec_witness :
    parray.readable sample_text sample_padded ∧
      ∃ xs r, sample_padded.vec sample_text = some xs ∧
        trim c_isspace sample_text sample_padded = some r ∧
        ((∀ x ∈ xs, c_isspace x = true) → r.len = 0) ∧
        ((∃ x ∈ xs, c_isspace x = false) →
          ∃ pre mid post a b, xs = pre ++ mid ++ post ∧
            (∀ x ∈ pre, c_isspace x = true) ∧ (∀ x ∈ post, c_isspace x = true) ∧
            mid.head? = some a ∧ c_isspace a = false ∧
            mid.getLast? = some b ∧ c_isspace b = false ∧
            r = ⟨mid.length, sample_padded.p + pre.length⟩ ∧
            r.vec sample_text = some mid) :=
  ⟨by decide, trim_spec c_isspace sample_text sample_padded (by decide)⟩

theorem trim_sides_spec_witness :
    parray.readable sample_text sample_padded ∧
      ∃ xs l r t, sample_padded.vec sample_text = some xs ∧
        trim_left c_isspace sample_text sample_padded = some l ∧
        trim_right c_isspace sample_text sample_padded = some r ∧
        trim c_isspace sample_text sample_padded = some t ∧
        (∃ pre rest, xs = pre ++ rest ∧ (∀ x ∈ pre, c_isspace x = true) ∧
          (∀ a, rest.head? = some a → c_isspace a = false) ∧
          l = ⟨rest.length, sample_padded.p + pre.length⟩ ∧
          l.vec sample_text = some rest) ∧
        (∃ rest post, xs = rest ++ post ∧ (∀ x ∈ post, c_isspace x = true) ∧
          (∀ b, rest.getLast? = some b → c_isspace b = false) ∧
          r = ⟨rest.length, sample_padded.p⟩ ∧ r.vec sample_text = some rest) ∧
        ((∀ x ∈ xs, c_isspace x = true) → l.len = 0 ∧ r.len = 0) ∧
        (∃ tr tl, trim_right c_isspace sample_text l = some tr ∧
          trim_left c_isspace sample_text r = some tl ∧
          tr.vec sample_text = t.vec sample_text ∧ tl.vec sample_text = t.vec sample_text) :=
  ⟨by decide, trim_sides_spec c_isspace sample_text sample_padded (by decide)⟩

theorem bitset_delim_lookup_witness :
    0 < 64 ∧ sample_seps.vec sample_mem = some [32, 44] ∧
      (∀ a ∈ [32, 44], (0 : Int) ≤ ((a : Nat) : Int) ∧ ((a : Nat) : Int) < 0 + 256) ∧
      (∃ b, bitset_delim.of_parray ⟨8, false⟩ 0 255 64 (fun (n : Nat) => (n : Int))
          sample_mem sample_seps = some b ∧
        b.well_formed ∧
        ∀ x : Nat, (0 : Int) ≤ (x : Int) → (x : Int) < 0 + 256 →
          (b.is_set (x : Int) = true ↔ ∃ a ∈ [32, 44], ((a : Nat) : Int) = (x : Int))) ∧
      (∀ (b : bitset_delim) (x : Int), b.well_formed →
        b.minV ≤ b.int_t.convert x → b.int_t.convert x ≤ b.maxV →
        (b.set_bit x).is_set x = true ∧ (b.clear_bit x).is_set x = false ∧
        ∀ y, b.int_t.convert y ≠ b.int_t.convert x →
          (b.set_bit x).is_set y = b.is_set y ∧ (b.clear_bit x).is_set y = b.is_set y) ∧
      (bitset_delim.chunk_count ⟨32, false⟩ 0 (2 ^ 32 - 1) 64 = 0 ∧
        (bitset_delim.mk_empty ⟨32, false⟩ 0 (2 ^ 32 - 1) 64).data = [] ∧
        ¬ (bitset_delim.mk_empty ⟨32, false⟩ 0 (2 ^ 32 - 1) 64).well_formed) :=
  ⟨by decide, by decide, by decide,
    bitset_delim_lookup (T := char_t) 64 (by decide) (fun (n : Nat) => (n : Int)) sample_mem
      sample_seps [32, 44] (by decide) 0 (by decide)⟩

theorem ntbs_len_first_terminator_witness :
    deref sample_text (16 + 7) = some 0 ∧
      (∀ i, i < 7 → (deref sample_text (16 + i)).isSome = true) ∧
      ∃ n xs, n ≤ 7 ∧ parray_traits.ntbs_len char_t sample_text 16 = some n ∧
        (ntbs char_t 16).to_parray sample_text = some ⟨n, 16⟩ ∧
        (⟨n, 16⟩ : parray char_t).vec sample_text = some xs ∧ xs.length = n ∧
        (∀ x ∈ xs, x ≠ 0) ∧ deref sample_text (16 + n) = some 0 :=
  ⟨by decide, by decide,
    ntbs_len_first_terminator char_t sample_text 16 7 (by decide) (by decide)⟩

end adv

namespace adv
open parray_traits

/-! ## Construction and empty views -/

section construction_claims
variable {α : Type}

/-- C31: for an array of `n ≥ 1` elements `xs` at address `r`, `ntba` gives the view of
length `n - 1` that starts at `r` and holds `xs` without its last element, whatever that
element is, while the array constructor of a non-character array gives the view of length `n`
that holds all of `xs`. -/
theorem ntba_drops_one (T E : ElemType) (m : Mem α) (n r : Nat) (xs : List α) (hn : 1 ≤ n)
    (hxs : read_range m r n = some xs) :
    (ntba T n r).len = n - 1 ∧ (ntba T n r).p = r ∧ (ntba T n r).vec m = some xs.dropLast ∧
      (parray.of_array E n r).len = n ∧ (parray.of_array E n r).p = r ∧
      (parray.of_array E n r).vec m = some xs := by
  have hlen : xs.length = n := read_range_length m _ _ _ hxs
  refine ⟨rfl, rfl, ?_, rfl, rfl, hxs⟩
  rw [← hlen] at hxs
  have := read_range_take m xs r (n - 1) hxs (by omega)
  rw [List.dropLast_eq_take, hlen]
  exact this

end construction_claims

section empty_claims
variable {α : Type} [LinearOrder α] [Zero α] {T E : ElemType}

/-- C32: for a view `l` of length 0, whatever its pointer and whatever the memory holds:
`l == r` is `true` for every view `r` of length 0, `l < r` is `true` for every non-empty view
`r`, and `l == s` and `s == l` are `true` for every handle `s` that points at a zero element.
No hypothesis makes any address of `l` readable, so no element of `l` is read. -/
theorem empty_view_never_read (m : Mem α) (l : parray T) (r : parray E) (s : ntbs_t E)
    (hl : l.len = 0) :
    (r.len = 0 → parray.op_eq m l r = some true) ∧
      (r.len ≠ 0 → parray.op_lt m l r = some true) ∧
      (deref m s.p = some 0 →
        ntbs_t.parray_op_eq m l s = some true ∧ ntbs_t.op_eq_parray m s l = some true) := by
  have hvac : ∀ i, i < l.len → (deref m (l.p + i)).isSome = true :=
    fun i hi => absurd hi (by omega)
  refine ⟨fun hr => ?_, fun hr => ?_, fun hs => ?_⟩
  · unfold parray.op_eq
    rw [eq_generic T E m l.len l.p r.len r.p hvac, if_pos (by omega), hl]
    simp [generic_eq]
  · unfold parray.op_lt
    rw [lt_generic T E m l.len l.p r.len r.p hvac, if_pos (by omega)]
  · have hterm : terminated_at m s.p 0 := ⟨by simpa using hs, fun i hi => absurd hi (by omega)⟩
    have key : ntbs_ar_eq_n T E m l.len l.p s.p = some true := by
      unfold ntbs_ar_eq_n
      rw [ntbs_ar_eq_n_loop_spec T E m 0 l.len l.p s.p _ hterm hvac (by omega),
        if_pos hl, hl]
      simp [generic_eq]
    exact ⟨key, key⟩

end empty_claims

section scenario_claims

/-- C33 (as worded): the keep-empty split of `"1,2,3,, 4 .,"` at `','` gives six segments,
`"1"`, `"2"`, `"3"`, `""`, `" 4 ."`, `""`; the first one is `"1"`, not an empty segment, so
the result is not the seven segments of the scenario. -/
theorem split_tail_counterexample :
    sample_csv_tail.vec sample_mem = some [49, 44, 50, 44, 51, 44, 44, 32, 52, 32, 46, 44] ∧
      (split_value sample_mem sample_csv_tail 44).map
          (fun segs => segs.map (fun s => s.vec sample_mem))
        = some [some [49], some [50], some [51], some [], some [32, 52, 32, 46], some []] ∧
      (split_value sample_mem sample_csv_tail 44).map
          (fun segs => segs.map (fun s => s.vec sample_mem))
        ≠ some [some [], some [49], some [50], some [51], some [], some [32, 52, 32, 46],
            some []] := by
  decide

/-- C33 (amended): the keep-empty split of `",1,2,3,, 4 .,"` at `','` gives the seven
segments `""`, `"1"`, `"2"`, `"3"`, `""`, `" 4 ."`, `""`. -/
theorem split_csv_scenario :
    sample_csv.vec sample_mem
        = some [44, 49, 44, 50, 44, 51, 44, 44, 32, 52, 32, 46, 44] ∧
      split_value sample_mem sample_csv 44 = some sample_csv_segs ∧
      sample_csv_segs.map (fun s => s.vec sample_mem)
        = [some [], some [49], some [50], some [51], some [], some [32, 52, 32, 46],
            some []] := by
  decide

end scenario_claims

section shortcut_claims
variable {α : Type} [LinearOrder α]

end shortcut_claims
end adv

namespace adv
open parray_traits

/-! ## The order on views -/

section order_claims
variable {α : Type} [LinearOrder α] {T E U : ElemType}

theorem op_eq_true_iff (m : Mem α) (a : parray T) (b : parray E)
    (ha : parray.readable m a) (hb : parray.readable m b) :
    parray.op_eq m a b = some true ↔
      a.len = b.len ∧ ∀ i, i < a.len → deref m (a.p + i) = deref m (b.p + i) := by
  unfold parray.op_eq
  rw [eq_generic T E m a.len a.p b.len b.p ha]
  by_cases hlen : a.len = b.len
  · rw [if_pos hlen]
    obtain ⟨e, he, hiff⟩ := generic_eq_spec T E m a.len a.p b.p ha (hlen ▸ hb)
    rw [he]
    constructor
    · intro h
      exact ⟨hlen, hiff.mp (Option.some.inj h)⟩
    · intro h
      rw [hiff.mpr h.2]
  · rw [if_neg hlen]
    constructor
    · intro h; exact absurd (Option.some.inj h) (by simp)
    · intro h; exact absurd h.1 hlen

theorem op_lt_true_iff (m : Mem α) (a : parray T) (b : parray E)
    (ha : parray.readable m a) (hb : parray.readable m b) :
    parray.op_lt m a b = some true ↔
      a.len < b.len ∨ (a.len = b.len ∧ ∃ i, i < a.len ∧
        (∀ j, j < i → deref m (a.p + j) = deref m (b.p + j)) ∧
        ∃ x y, deref m (a.p + i) = some x ∧ deref m (b.p + i) = some y ∧ x < y) := by
  unfold parray.op_lt
  rw [lt_generic T E m a.len a.p b.len b.p ha]
  by_cases hlt : a.len < b.len
  · rw [if_pos hlt]
    exact ⟨fun _ => Or.inl hlt, fun _ => rfl⟩
  · rw [if_neg hlt]
    by_cases hlen : a.len = b.len
    · rw [if_pos hlen]
      obtain ⟨e, he, hiff⟩ := generic_lt_spec T E m a.len a.p b.p ha (hlen ▸ hb)
      rw [he]
      constructor
      · intro h
        obtain ⟨i, hi, hpre, x, y, hx, hy, _, hxy⟩ := hiff.mp (Option.some.inj h)
        exact Or.inr ⟨hlen, i, hi, hpre, x, y, hx, hy, hxy⟩
      · rintro (h | ⟨_, i, hi, hpre, x, y, hx, hy, hxy⟩)
        · exact absurd h hlt
        · rw [hiff.mpr ⟨i, hi, hpre, x, y, hx, hy, ne_of_lt hxy, hxy⟩]
    · rw [if_neg hlen]
      constructor
      · intro h; exact absurd (Option.some.inj h) (by simp)
      · rintro (h | ⟨h, _⟩)
        · exact absurd h hlt
        · exact absurd h hlen

/-- C39: on readable views over a linearly ordered element type, `<` is a strict order:
`a < a` is `false`, and `a < b` with `b < c` gives `a < c`, for views of any lengths; and `==`
is reflexive, symmetric and transitive. -/
theorem lt_strict_order (m : Mem α) (a : parray T) (b : parray E) (c : parray U)
    (ha : parray.readable m a) (hb : parray.readable m b) (hc : parray.readable m c) :
    parray.op_lt m a a = some false ∧
      (parray.op_lt m a b = some true → parray.op_lt m b c = some true →
        parray.op_lt m a c = some true) ∧
      parray.op_eq m a a = some true ∧
      (parray.op_eq m a b = some true → parray.op_eq m b a = some true) ∧
      (parray.op_eq m a b = some true → parray.op_eq m b c = some true →
        parray.op_eq m a c = some true) := by
  refine ⟨?_, ?_, ?_, ?_, ?_⟩
  · unfold parray.op_lt
    rw [lt_generic T T m a.len a.p a.len a.p ha, if_neg (Nat.lt_irrefl _), if_pos rfl]
    exact generic_lt_self T T m a.len a.p ha
  · intro hab hbc
    rw [op_lt_true_iff m a b ha hb] at hab
    rw [op_lt_true_iff m b c hb hc] at hbc
    rw [op_lt_true_iff m a c ha hc]
    rcases hab with hab | ⟨hab, i, hi, hpi, x, y, hx, hy, hxy⟩
    · rcases hbc with hbc | ⟨hbc, _⟩
      · exact Or.inl (by omega)
      · exact Or.inl (by omega)
    · rcases hbc with hbc | ⟨hbc, k, hk, hpk, y1, z, hy1, hz, hyz⟩
      · exact Or.inl (by omega)
      · refine Or.inr ⟨by omega, ?_⟩
        rcases Nat.lt_trichotomy i k with hik | hik | hik
        · refine ⟨i, hi, fun j hj => (hpi j hj).trans (hpk j (by omega)), x, y, hx, ?_, hxy⟩
          rw [← hpk i hik]; exact hy
        · subst hik
          rw [hy] at hy1
          cases hy1
          exact ⟨i, hi, fun j hj => (hpi j hj).trans (hpk j hj), x, z, hx, hz,
            lt_trans hxy hyz⟩
        · refine ⟨k, by omega, fun j hj => (hpi j (by omega)).trans (hpk j hj), y1, z, ?_, hz,
            hyz⟩
          rw [hpi k hik]; exact hy1
  · exact (op_eq_true_iff m a a ha ha).mpr ⟨rfl, fun _ _ => rfl⟩
  · intro hab
    obtain ⟨h1, h2⟩ := (op_eq_true_iff m a b ha hb).mp hab
    exact (op_eq_true_iff m b a hb ha).mpr ⟨h1.symm, fun i hi => (h2 i (by omega)).symm⟩
  · intro hab hbc
    obtain ⟨h1, h2⟩ := (op_eq_true_iff m a b ha hb).mp hab
    obtain ⟨h3, h4⟩ := (op_eq_true_iff m b c hb hc).mp hbc
    exact (op_eq_true_iff m a c ha hc).mpr
      ⟨h1.trans h3, fun i hi => (h2 i hi).trans (h4 i (by omega))⟩

end order_claims
end adv

namespace adv

/-! ## Reserved capacity and the join/split round trip -/

section capacity_claims
variable {α : Type} {T E : ElemType}

theorem readable_chunks (m : Mem α) :
    ∀ (segs : List (parray T)), (∀ s ∈ segs, parray.readable m s) →
      ∃ chunks, List.Forall₂
        (fun (seg : parray T) chunk => read_range m seg.p seg.len = some chunk) segs chunks := by
  intro segs
  induction segs with
  | nil => intro _; exact ⟨[], List.Forall₂.nil⟩
  | cons s segs ih =>
    intro h
    obtain ⟨c, hc⟩ := readable_vec m s (h s (List.mem_cons_self _ _))
    obtain ⟨cs, hcs⟩ := ih (fun x hx => h x (List.mem_cons_of_mem _ hx))
    exact ⟨c :: cs, List.Forall₂.cons hc hcs⟩

theorem chunk_lengths (m : Mem α) (segs : List (parray T)) (chunks : List (List α))
    (h : List.Forall₂
      (fun (seg : parray T) chunk => read_range m seg.p seg.len = some chunk) segs chunks) :
    chunks.map List.length = segs.map parray.len := by
  induction h with
  | nil => rfl
  | cons hc _ ih =>
    rw [List.map_cons, List.map_cons, ih, read_range_length _ _ _ _ hc]

theorem total_len_fold (d : Nat) :
    ∀ (rest : List (parray T)) (acc : Nat),
      rest.foldl (fun len w => len + (d + w.len)) acc
        = acc + (rest.map parray.len).sum + d * rest.length := by
  intro rest
  induction rest with
  | nil => intro acc; simp
  | cons w rest ih =>
    intro acc
    rw [List.foldl_cons, ih, List.map_cons, List.sum_cons, List.length_cons, Nat.mul_succ]
    omega

theorem total_len_formula (d : Nat) (segs : List (parray T)) :
    total_len_ d segs = (segs.map parray.len).sum + d * (segs.length - 1) := by
  cases segs with
  | nil => rfl
  | cons v rest =>
    rw [total_len_, total_len_fold, List.map_cons, List.sum_cons, List.length_cons,
      Nat.add_sub_cancel]

theorem intercalate_length (ds : List α) :
    ∀ (chunks : List (List α)),
      (ds.intercalate chunks).length
        = (chunks.map List.length).sum + ds.length * (chunks.length - 1) := by
  intro chunks
  cases chunks with
  | nil => simp [List.intercalate]
  | cons c cs =>
    rw [intercalate_cons, List.length_append, List.map_cons, List.sum_cons, List.length_cons,
      Nat.add_sub_cancel, Nat.add_assoc]
    congr 1
    induction cs with
    | nil => simp
    | cons e cs ih =>
      rw [List.map_cons, List.flatten_cons, List.length_append, ih, List.length_append,
        List.map_cons, List.sum_cons, List.length_cons, Nat.mul_succ]
      omega

theorem total_len_se_rest_filter (d : Nat) :
    ∀ (rest : List (parray T)) (acc : Nat),
      total_len_se_rest d rest acc
        = (rest.filter (fun v => !v.empty)).foldl (fun len w => len + (d + w.len)) acc := by
  intro rest
  induction rest with
  | nil => intro acc; rfl
  | cons v rest ih =>
    intro acc
    rw [total_len_se_rest]
    by_cases hv : (!v.empty) = true
    · rw [if_pos hv, List.filter_cons, if_pos hv, List.foldl_cons, ih]
    · rw [if_neg hv, List.filter_cons, if_neg hv, ih]

theorem total_len_se_filter (d : Nat) :
    ∀ (segs : List (parray T)),
      total_len_se_ d segs = total_len_ d (segs.filter (fun v => !v.empty)) := by
  intro segs
  induction segs with
  | nil => rfl
  | cons v rest ih =>
    rw [total_len_se_]
    by_cases hv : (!v.empty) = true
    · rw [if_pos hv, List.filter_cons, if_pos hv, total_len_, total_len_se_rest_filter]
    · rw [if_neg hv, List.filter_cons, if_neg hv, ih]

theorem join__length (m : Mem α) (segs : List (parray T)) (delim : parray E)
    (hsegs : ∀ s ∈ segs, parray.readable m s) (hd : parray.readable m delim) :
    ∃ r, join_ m segs delim = some r ∧ r.length = total_len_ delim.len segs := by
  obtain ⟨chunks, hchunks⟩ := readable_chunks m segs hsegs
  obtain ⟨ds, hds⟩ := readable_vec m delim hd
  refine ⟨_, join__spec m delim ds hds segs chunks hchunks, ?_⟩
  rw [intercalate_length, total_len_formula, chunk_lengths m segs chunks hchunks,
    hchunks.length_eq, read_range_length _ _ _ _ hds]

/-- C38: for readable segments and a readable delimiter view, `join_` returns a buffer whose
length is `total_len_(…, delim.len)`, the sum of the segment lengths plus `delim.len` times
the segment count less one (0 for the empty list); and `join_se_` returns a buffer whose
length is `total_len_se_(…, delim.len)`, the same formula over the non-empty segments. -/
theorem total_len_matches_join (m : Mem α) (segs : List (parray T)) (delim : parray E)
    (hsegs : ∀ s ∈ segs, parray.readable m s) (hd : parray.readable m delim) :
    (∃ r, join_ m segs delim = some r ∧ r.length = total_len_ delim.len segs) ∧
      total_len_ delim.len segs
        = (segs.map parray.len).sum + delim.len * (segs.length - 1) ∧
      (∃ r, join_se_ m segs delim = some r ∧ r.length = total_len_se_ delim.len segs) ∧
      total_len_se_ delim.len segs
        = ((segs.filter (fun v => !v.empty)).map parray.len).sum
          + delim.len * ((segs.filter (fun v => !v.empty)).length - 1) := by
  refine ⟨join__length m segs delim hsegs hd, total_len_formula _ _, ?_, ?_⟩
  · have hse : join_se_ m segs delim = join_ m (segs.filter (fun v => !v.empty)) delim := by
      unfold join_se_ join_
      exact join_se_f_filter _ _ _ _
    rw [hse, total_len_se_filter]
    exact join__length m _ delim (fun s hs => hsegs s (List.mem_of_mem_filter hs)) hd
  · rw [total_len_se_filter, total_len_formula]

end capacity_claims

section inverse_claims
variable {α : Type} [DecidableEq α] {T : ElemType}

omit [DecidableEq α] in
theorem forall₂_same_chunks (m m1 : Mem α) :
    ∀ (segs1 segs : List (parray T)) (chunks : List (List α)),
      List.Forall₂ (fun (s : parray T) c => read_range m1 s.p s.len = some c) segs1 chunks →
      List.Forall₂ (fun (s : parray T) c => read_range m s.p s.len = some c) segs chunks →
      List.Forall₂ (fun (s1 s : parray T) => s1.vec m1 = s.vec m) segs1 segs := by
  intro segs1 segs chunks h1
  induction h1 generalizing segs with
  | nil =>
    intro h2
    cases h2
    exact List.Forall₂.nil
  | cons hc _ ih =>
    intro h2
    cases h2 with
    | cons hd ht => exact List.Forall₂.cons (hc.trans hd.symm) (ih _ ht)

/-- C40: for a non-empty list of readable segments none of which holds the element `d`,
`join(segs, d)` returns a buffer `r`, and for every view `v` that holds `r`, `split(v, d)`
returns a list of the same length as `segs` whose segments hold, one by one, the elements of
the segments of `segs`. For the empty list `join` returns the empty buffer, and `split` of
any empty view returns one empty segment, so the round trip gives a list of length 1. -/
theorem split_join_round_trip (m : Mem α) (segs : List (parray T)) (d : α)
    (hsegs : ∀ s ∈ segs, parray.readable m s) (hne : segs ≠ [])
    (hd : ∀ s ∈ segs, ∀ i, i < s.len → deref m (s.p + i) ≠ some d) :
    (∃ r, join m segs d = some r ∧
      ∀ (m1 : Mem α) (v : parray T), v.vec m1 = some r →
        ∃ segs1, split_value m1 v d = some segs1 ∧ segs1.length = segs.length ∧
          List.Forall₂ (fun (s1 s : parray T) => s1.vec m1 = s.vec m) segs1 segs) ∧
      join m ([] : List (parray T)) d = some [] ∧
      ∀ (m1 : Mem α) (v : parray T), v.len = 0 →
        split_value m1 v d = some [⟨0, v.p⟩] := by
  obtain ⟨chunks, hchunks⟩ := readable_chunks m segs hsegs
  have hcne : chunks ≠ [] := by
    intro h
    rw [h] at hchunks
    cases hchunks
    exact hne rfl
  have hnot : ∀ c ∈ chunks, d ∉ c := by
    have : ∀ (ss : List (parray T)) (cs : List (List α)),
        List.Forall₂ (fun (s : parray T) c => read_range m s.p s.len = some c) ss cs →
        (∀ s ∈ ss, ∀ i, i < s.len → deref m (s.p + i) ≠ some d) → ∀ c ∈ cs, d ∉ c := by
      intro ss cs h
      induction h with
      | nil => intro _ c hc; simp at hc
      | @cons s c ss1 cs1 hr _ ih =>
        intro hall e he
        rcases List.mem_cons.mp he with rfl | he
        · intro hmem
          have hl := read_range_length _ _ _ _ hr
          rw [← hl] at hr
          obtain ⟨i, hi, hdi⟩ := read_range_mem m e s.p hr d hmem
          exact hall s (List.mem_cons_self _ _) i (by omega) hdi
        · exact ih (fun s1 hs1 => hall s1 (List.mem_cons_of_mem _ hs1)) e he
    exact this segs chunks hchunks hd
  refine ⟨⟨_, join_reads m d segs chunks hchunks, ?_⟩, rfl, ?_⟩
  · intro m1 v hv
    have hdr : (Delim.single ⟨d⟩ : Delim α).readable m1 := trivial
    have hread := split_views_read m1 v (Delim.single ⟨d⟩) _ hv hdr
    have hsplit : ([d].intercalate chunks).splitOnP
        ((Delim.single ⟨d⟩ : Delim α).is_match m1) = chunks := by
      rw [single_is_match]
      exact List.splitOn_intercalate chunks d hnot hcne
    rw [hsplit] at hread
    refine ⟨_, split_eq m1 v _ _ hv hdr, ?_, forall₂_same_chunks m m1 _ _ _ hread hchunks⟩
    rw [hread.length_eq, hchunks.length_eq]
  · intro m1 v hv
    have hvec : v.vec m1 = some [] := by
      unfold parray.vec
      rw [hv]
      rfl
    have hdr : (Delim.single ⟨d⟩ : Delim α).readable m1 := trivial
    unfold split_value
    rw [split_eq m1 v (Delim.single ⟨d⟩) [] hvec hdr]
    simp [keep_cuts, cuts_at, fwd_view, hv]

end inverse_claims
end adv

namespace adv

/-! ## Bounded skip-empty split -/

section bounded_se
variable {α : Type} [DecidableEq α] {T : ElemType}

omit [DecidableEq α] in
theorem skip_cuts_drop_pos (q : α → Bool) (xs : List α) (j : Nat) (c : Nat × Nat)
    (rest : List (Nat × Nat)) (h : (skip_cuts q xs).drop j = c :: rest) (hj : 0 < j) :
    0 < c.1 := by
  unfold skip_cuts keep_cuts at h
  cases hs : xs.splitOnP q with
  | nil => exact absurd hs (List.splitOnP_ne_nil q xs)
  | cons c0 cs =>
    rw [hs, cuts_at] at h
    have htail : ∀ e ∈ (cuts_at (0 + c0.length + 1) cs).filter
        (fun c => decide (c.1 < c.2)), 0 < e.1 := by
      intro e he
      have := (cuts_at_bounds cs _ e (List.mem_of_mem_filter he)).1
      omega
    obtain ⟨j1, rfl⟩ : ∃ j1, j = j1 + 1 := ⟨j - 1, by omega⟩
    rw [List.filter_cons] at h
    split at h
    · rw [List.drop_succ_cons] at h
      exact htail c (List.mem_of_mem_drop (by rw [h]; exact List.mem_cons_self _ _))
    · exact htail c (List.mem_of_mem_drop (by rw [h]; exact List.mem_cons_self _ _))

theorem split_se_buf_short (m : Mem α) (v : parray T) (delim : Delim α) (xs : List α)
    (buf : List (parray T)) (k : Nat)
    (hv : v.vec m = some xs) (hd : delim.readable m) (hk : 2 ≤ k) (hbuf : k ≤ buf.length)
    (hm : ((skip_cuts (delim.is_match m) xs).map (fwd_view v.p : _ → parray T)).length < k) :
    ∃ buf1, split_se_buf m v delim buf k
        = some (buf1, ((skip_cuts (delim.is_match m) xs).map
            (fwd_view v.p : _ → parray T)).length) ∧
      buf1.take ((skip_cuts (delim.is_match m) xs).map (fwd_view v.p : _ → parray T)).length
        = (skip_cuts (delim.is_match m) xs).map (fwd_view v.p) := by
  generalize hsegs : (skip_cuts (delim.is_match m) xs).map (fwd_view v.p : _ → parray T)
    = segs at hm ⊢
  have hmin : min segs.length (k - 1 - 0) = segs.length := by omega
  obtain ⟨buf1, h1, _, h3⟩ := feed_buf_push (k - 1) segs buf 0 (by omega) (by omega)
  rw [hmin, Nat.zero_add] at h1 h3
  refine ⟨buf1, ?_, by simpa using h3⟩
  unfold split_se_buf
  simp only [split_se_f_spec m v delim xs _ _ hv hd, hsegs, h1]
  simp

theorem split_se_buf_full (m : Mem α) (v : parray T) (delim : Delim α) (xs : List α)
    (buf : List (parray T)) (k : Nat)
    (hv : v.vec m = some xs) (hd : delim.readable m) (hk : 2 ≤ k) (hbuf : k ≤ buf.length)
    (hm : k ≤ (skip_cuts (delim.is_match m) xs).length) :
    ∃ buf1 c rest, (skip_cuts (delim.is_match m) xs).drop (k - 1) = c :: rest ∧
      split_se_buf m v delim buf k = some (buf1, k) ∧
      buf1.take (k - 1)
        = ((skip_cuts (delim.is_match m) xs).map (fwd_view v.p)).take (k - 1) ∧
      buf1[k - 1]? = some ⟨v.len - c.1, v.p + c.1⟩ := by
  cases hc : (skip_cuts (delim.is_match m) xs).drop (k - 1) with
  | nil =>
    have := congrArg List.length hc
    rw [List.length_drop, List.length_nil] at this
    omega
  | cons c rest =>
    have h0 := skip_cuts_drop_pos _ xs (k - 1) c rest hc (by omega)
    generalize hsegs : (skip_cuts (delim.is_match m) xs).map (fwd_view v.p : _ → parray T)
      = segs
    have hlen : segs.length = (skip_cuts (delim.is_match m) xs).length := by
      rw [← hsegs, List.length_map]
    have hmin : min segs.length (k - 1 - 0) = k - 1 := by omega
    obtain ⟨buf1, h1, h2, h3⟩ := feed_buf_push (k - 1) segs buf 0 (by omega) (by omega)
    rw [hmin, Nat.zero_add] at h1 h3
    have hrest : segs.drop (k - 1) = fwd_view v.p c :: rest.map (fwd_view v.p) := by
      rw [← hsegs, ← List.map_drop, hc, List.map_cons]
    refine ⟨(buf1.set (k - 1) ⟨v.len - c.1, v.p + c.1⟩), c, rest, rfl, ?_, ?_, ?_⟩
    · unfold split_se_buf
      simp only [split_se_f_spec m v delim xs _ _ hv hd, hsegs, h1, hrest]
      have hp : v.p + c.1 ≠ nullptr := by unfold nullptr; omega
      simp [fwd_view, hp]
      omega
    · rw [take_set_same, h3]
      simp
    · rw [List.getElem?_set_self (by omega)]

/-- C34: bounded-buffer `split_se` with capacity `k ≥ 2` into an array of at least `k` slots,
for a readable view `v` and any delimiter; `segs` is the result of the collecting `split_se`.
The call returns `min segs.length k`; the first `min segs.length (k - 1)` slots hold the
first segments of `segs` in order (all of them when `segs.length < k`); when
`segs.length ≥ k`, slot `k - 1` holds the view that starts where the `k`-th segment starts
and ends where `v` ends; and every slot written has length at least 1. -/
theorem split_se_bounded_spec (m : Mem α) (v : parray T) (delim : Delim α)
    (buf : List (parray T)) (k : Nat) (hv : parray.readable m v) (hd : delim.readable m)
    (hk : 2 ≤ k) (hbuf : k ≤ buf.length) :
    ∃ segs buf1, split_se m v delim = some segs ∧
      split_se_buf m v delim buf k = some (buf1, min segs.length k) ∧
      buf1.take (min segs.length (k - 1)) = segs.take (min segs.length (k - 1)) ∧
      (k ≤ segs.length → ∃ w r, segs[k - 1]? = some w ∧ buf1[k - 1]? = some r ∧
        r.p = w.p ∧ r.p + r.len = v.p + v.len) ∧
      (∀ s ∈ buf1.take (min segs.length k), 1 ≤ s.len) := by
  obtain ⟨xs, hxs⟩ := readable_vec m v hv
  have hlen : xs.length = v.len := read_range_length m _ _ _ hxs
  have hseg_len : ∀ s ∈ (skip_cuts (delim.is_match m) xs).map (fwd_view v.p : _ → parray T),
      1 ≤ s.len := by
    intro s hs
    obtain ⟨c, hc, rfl⟩ := List.mem_map.mp hs
    have := skip_cuts_bounds _ _ c hc
    simp only [fwd_view]
    omega
  by_cases hm : ((skip_cuts (delim.is_match m) xs).map (fwd_view v.p : _ → parray T)).length < k
  · obtain ⟨buf1, h1, h2⟩ := split_se_buf_short m v delim xs buf k hxs hd hk hbuf hm
    refine ⟨_, buf1, split_se_eq m v delim xs hxs hd, ?_, ?_, fun h => absurd h (by omega), ?_⟩
    · rw [h1, Nat.min_eq_left (by omega)]
    · rw [Nat.min_eq_left (by omega), h2, List.take_length]
    · rw [Nat.min_eq_left (by omega), h2]
      exact hseg_len
  · have hm2 : k ≤ (skip_cuts (delim.is_match m) xs).length := by
      rw [List.length_map] at hm; omega
    obtain ⟨buf1, c, rest, hc, h1, h2, h3⟩ :=
      split_se_buf_full m v delim xs buf k hxs hd hk hbuf hm2
    have hcmem : c ∈ skip_cuts (delim.is_match m) xs :=
      List.mem_of_mem_drop (by rw [hc]; exact List.mem_cons_self _ _)
    have hcb := skip_cuts_bounds _ _ c hcmem
    refine ⟨_, buf1, split_se_eq m v delim xs hxs hd, ?_, ?_, fun _ => ?_, ?_⟩
    · rw [h1, List.length_map, Nat.min_eq_right hm2]
    · rw [List.length_map, Nat.min_eq_right (by omega), h2]
    · refine ⟨fwd_view v.p c, ⟨v.len - c.1, v.p + c.1⟩, ?_, h3, rfl, ?_⟩
      · rw [List.getElem?_map, ← List.head?_drop, hc]
        rfl
      · show v.p + c.1 + (v.len - c.1) = v.p + v.len
        omega
    · rw [List.length_map, Nat.min_eq_right hm2]
      intro s hs
      rw [show k = (k - 1) + 1 by omega, List.take_succ, h3] at hs
      rcases List.mem_append.mp hs with hs | hs
      · rw [h2] at hs
        exact hseg_len s (List.mem_of_mem_take hs)
      · simp only [Option.toList, List.mem_singleton] at hs
        rw [hs]
        show 1 ≤ v.len - c.1
        omega

end bounded_se
end adv

namespace adv
open parray_traits

/-! ## Reads of the null-terminated comparisons -/

section bounds_claims
variable {α : Type} [LinearOrder α] [Zero α]

omit [Zero α] in
theorem generic_eq_congr (L R : ElemType) (m m1 : Mem α) :
    ∀ (len l r : Nat), (∀ i, i < len → deref m1 (l + i) = deref m (l + i)) →
      (∀ i, i < len → deref m1 (r + i) = deref m (r + i)) →
      generic_eq L R m1 len l r = generic_eq L R m len l r := by
  intro len
  induction len with
  | zero => intro l r _ _; simp [generic_eq]
  | succ n ih =>
    intro l r hl hr
    have h0l := hl 0 (Nat.succ_pos _)
    have h0r := hr 0 (Nat.succ_pos _)
    rw [Nat.add_zero] at h0l h0r
    unfold generic_eq
    rw [h0l, h0r, ih (l + 1) (r + 1)
      (fun i hi => by rw [show l + 1 + i = l + (i + 1) by omega]; exact hl _ (by omega))
      (fun i hi => by rw [show r + 1 + i = r + (i + 1) by omega]; exact hr _ (by omega))]

omit [Zero α] in
theorem generic_lt_congr (L R : ElemType) (m m1 : Mem α) :
    ∀ (len l r : Nat), (∀ i, i < len → deref m1 (l + i) = deref m (l + i)) →
      (∀ i, i < len → deref m1 (r + i) = deref m (r + i)) →
      generic_lt L R m1 len l r = generic_lt L R m len l r := by
  intro len
  induction len with
  | zero => intro l r _ _; simp [generic_lt]
  | succ n ih =>
    intro l r hl hr
    have h0l := hl 0 (Nat.succ_pos _)
    have h0r := hr 0 (Nat.succ_pos _)
    rw [Nat.add_zero] at h0l h0r
    unfold generic_lt
    rw [h0l, h0r, ih (l + 1) (r + 1)
      (fun i hi => by rw [show l + 1 + i = l + (i + 1) by omega]; exact hl _ (by omega))
      (fun i hi => by rw [show r + 1 + i = r + (i + 1) by omega]; exact hr _ (by omega))]

omit [LinearOrder α] in
theorem terminated_at_congr (m m1 : Mem α) (p n : Nat) (h : terminated_at m p n)
    (hagree : ∀ i, i ≤ n → deref m1 (p + i) = deref m (p + i)) : terminated_at m1 p n := by
  refine ⟨by rw [hagree n (Nat.le_refl _)]; exact h.1, fun i hi => ?_⟩
  rw [hagree i (by omega)]
  exact h.2 i hi

omit [Zero α] in
theorem generic_eq_some (L R : ElemType) (m : Mem α) (len l r : Nat)
    (hl : ∀ i, i < len → (deref m (l + i)).isSome = true)
    (hr : ∀ i, i < len → (deref m (r + i)).isSome = true) :
    ∃ b, generic_eq L R m len l r = some b := by
  obtain ⟨b, hb, _⟩ := generic_eq_spec L R m len l r hl hr
  exact ⟨b, hb⟩

omit [Zero α] in
theorem generic_lt_some (L R : ElemType) (m : Mem α) (len l r : Nat)
    (hl : ∀ i, i < len → (deref m (l + i)).isSome = true)
    (hr : ∀ i, i < len → (deref m (r + i)).isSome = true) :
    ∃ b, generic_lt L R m len l r = some b := by
  obtain ⟨b, hb, _⟩ := generic_lt_spec L R m len l r hl hr
  exact ⟨b, hb⟩

/-- C36: `p` and `q` are sequences with their first zero elements at offsets `np` and `nq`,
and `a` is a run of `k` readable elements. Each comparison of `ntbs_ar_eq` and `ntbs_ar_lt`
in all their forms returns a value, and returns the same value in every memory `m1` that
agrees with `m` on the cells `p .. p + np`, `q .. q + nq` and `a .. a + k - 1`. The other
cells of `m1` are arbitrary and may hold no element, in which case reading one of them would
leave no result; so no cell past a first terminator or at an index `≥ k` is read. -/
theorem ntbs_compare_reads_in_bounds (L R : ElemType) (m m1 : Mem α) (p q a np nq k : Nat)
    (hp : terminated_at m p np) (hq : terminated_at m q nq)
    (ha : ∀ i, i < k → (deref m (a + i)).isSome = true)
    (hp1 : ∀ i, i ≤ np → deref m1 (p + i) = deref m (p + i))
    (hq1 : ∀ i, i ≤ nq → deref m1 (q + i) = deref m (q + i))
    (ha1 : ∀ i, i < k → deref m1 (a + i) = deref m (a + i)) :
    (∃ b, ntbs_ar_eq L R m p q = some b ∧ ntbs_ar_eq L R m1 p q = some b) ∧
      (∃ b, ntbs_ar_lt L R m p q = some b ∧ ntbs_ar_lt L R m1 p q = some b) ∧
      (∃ b, ntbs_ar_eq_n L R m k a q = some b ∧ ntbs_ar_eq_n L R m1 k a q = some b) ∧
      (∃ b, ntbs_ar_lt_n L R m k a q = some b ∧ ntbs_ar_lt_n L R m1 k a q = some b) ∧
      (∃ b, ntbs_ar_lt_rn L R m p k a = some b ∧ ntbs_ar_lt_rn L R m1 p k a = some b) := by
  have hp' := terminated_at_congr m m1 p np hp hp1
  have hq' := terminated_at_congr m m1 q nq hq hq1
  have ha' : ∀ i, i < k → (deref m1 (a + i)).isSome = true := by
    intro i hi; rw [ha1 i hi]; exact ha i hi
  have hpr := terminated_at_readable hp
  have hqr := terminated_at_readable hq
  refine ⟨?_, ?_, ?_, ?_, ?_⟩
  · unfold ntbs_ar_eq
    rw [ntbs_ar_eq_loop_spec L R m np nq p q _ hp hq (terminated_at_lt_length hp),
      ntbs_ar_eq_loop_spec L R m1 np nq p q _ hp' hq' (terminated_at_lt_length hp')]
    by_cases h : np = nq
    · rw [if_pos h, if_pos h, generic_eq_congr L R m m1 np p q
        (fun i hi => hp1 i (by omega)) (fun i hi => hq1 i (by omega))]
      obtain ⟨b, hb⟩ := generic_eq_some L R m np p q hpr (fun i hi => hqr i (by omega))
      exact ⟨b, hb, hb⟩
    · rw [if_neg h, if_neg h]
      exact ⟨false, rfl, rfl⟩
  · unfold ntbs_ar_lt
    rw [ntbs_ar_lt_loop_spec L R m np nq p q _ hp hq (terminated_at_lt_length hp),
      ntbs_ar_lt_loop_spec L R m1 np nq p q _ hp' hq' (terminated_at_lt_length hp')]
    by_cases h1 : np < nq
    · rw [if_pos h1, if_pos h1]
      exact ⟨true, rfl, rfl⟩
    · rw [if_neg h1, if_neg h1]
      by_cases h : np = nq
      · rw [if_pos h, if_pos h, generic_lt_congr L R m m1 np p q
          (fun i hi => hp1 i (by omega)) (fun i hi => hq1 i (by omega))]
        obtain ⟨b, hb⟩ := generic_lt_some L R m np p q hpr (fun i hi => hqr i (by omega))
        exact ⟨b, hb, hb⟩
      · rw [if_neg h, if_neg h]
        exact ⟨false, rfl, rfl⟩
  · unfold ntbs_ar_eq_n
    rw [ntbs_ar_eq_n_loop_spec L R m nq k a q _ hq ha (terminated_at_lt_length hq),
      ntbs_ar_eq_n_loop_spec L R m1 nq k a q _ hq' ha' (terminated_at_lt_length hq')]
    by_cases h : k = nq
    · rw [if_pos h, if_pos h, generic_eq_congr L R m m1 k a q ha1
        (fun i hi => hq1 i (by omega))]
      obtain ⟨b, hb⟩ := generic_eq_some L R m k a q ha (fun i hi => hqr i (by omega))
      exact ⟨b, hb, hb⟩
    · rw [if_neg h, if_neg h]
      exact ⟨false, rfl, rfl⟩
  · unfold ntbs_ar_lt_n
    rw [ntbs_ar_lt_n_loop_spec L R m nq k a q _ hq ha (terminated_at_lt_length hq),
      ntbs_ar_lt_n_loop_spec L R m1 nq k a q _ hq' ha' (terminated_at_lt_length hq')]
    by_cases h1 : k < nq
    · rw [if_pos h1, if_pos h1]
      exact ⟨true, rfl, rfl⟩
    · rw [if_neg h1, if_neg h1]
      by_cases h : k = nq
      · rw [if_pos h, if_pos h, generic_lt_congr L R m m1 k a q ha1
          (fun i hi => hq1 i (by omega))]
        obtain ⟨b, hb⟩ := generic_lt_some L R m k a q ha (fun i hi => hqr i (by omega))
        exact ⟨b, hb, hb⟩
      · rw [if_neg h, if_neg h]
        exact ⟨false, rfl, rfl⟩
  · unfold ntbs_ar_lt_rn
    rw [ntbs_ar_lt_rn_loop_spec L R m np k p a _ hp ha (terminated_at_lt_length hp),
      ntbs_ar_lt_rn_loop_spec L R m1 np k p a _ hp' ha' (terminated_at_lt_length hp')]
    by_cases h1 : np < k
    · rw [if_pos h1, if_pos h1]
      exact ⟨true, rfl, rfl⟩
    · rw [if_neg h1, if_neg h1]
      by_cases h : np = k
      · rw [if_pos h, if_pos h, generic_lt_congr L R m m1 np p a
          (fun i hi => hp1 i (by omega)) (fun i hi => ha1 i (by omega))]
        obtain ⟨b, hb⟩ := generic_lt_some L R m np p a hpr (fun i hi => ha i (by omega))
        exact ⟨b, hb, hb⟩
      · rw [if_neg h, if_neg h]
        exact ⟨false, rfl, rfl⟩

end bounds_claims
end adv

namespace adv

/-! ## The bitmap delimiter against the set-of-values delimiter -/

section bitset_split
variable {α : Type} [DecidableEq α] {T E : ElemType}

omit [DecidableEq α] in
theorem splitOnP_congr (p q : α → Bool) :
    ∀ xs : List α, (∀ x ∈ xs, p x = q x) → xs.splitOnP p = xs.splitOnP q := by
  intro xs
  induction xs with
  | nil => intro _; rfl
  | cons x xs ih =>
    intro h
    rw [List.splitOnP_cons, List.splitOnP_cons, h x (List.mem_cons_self _ _),
      ih (fun y hy => h y (List.mem_cons_of_mem _ hy))]

omit [DecidableEq α] in
theorem of_parray_byte (chunk_bits : Nat) (hcb : 0 < chunk_bits) (val : α → Int)
    (m : Mem α) (d : parray E) (ds : List α) (hd : d.vec m = some ds) (lo : Int)
    (hbyte : ∀ a ∈ ds, lo ≤ val a ∧ val a < lo + 256) :
    ∃ b, bitset_delim.of_parray ⟨8, false⟩ 0 255 chunk_bits val m d = some b ∧
      ∀ x : Int, lo ≤ x → x < lo + 256 → (b.is_set x = true ↔ ∃ a ∈ ds, val a = x) := by
  have hlen : ds.length = d.len := read_range_length m _ _ _ hd
  unfold parray.vec at hd
  rw [← hlen] at hd
  have hwf := byte_bitmap_well_formed chunk_bits hcb
  obtain ⟨b, h1, _, _, _, _, h6⟩ := bitset_delim.of_parray_loop_spec val m ds d.p _ hd hwf
  refine ⟨b, ?_, ?_⟩
  · unfold bitset_delim.of_parray
    rw [← hlen]
    exact h1
  · intro x hx1 hx2
    rw [h6 x, bitset_delim.is_set_mk_empty, Bool.or_false]
    simp only [bitset_delim.mk_empty, convert_byte, Bool.and_eq_true, List.any_eq_true,
      decide_eq_true_eq]
    constructor
    · rintro ⟨⟨a, ha, he⟩, _⟩
      have := hbyte a ha
      exact ⟨a, ha, by omega⟩
    · rintro ⟨a, ha, he⟩
      exact ⟨⟨a, ha, by rw [he]⟩, by omega⟩

omit [DecidableEq α] in
theorem vec_readable (m : Mem α) (v : parray E) (xs : List α) (h : v.vec m = some xs) :
    ∀ i, i < v.len → (deref m (v.p + i)).isSome = true := by
  have hlen : xs.length = v.len := read_range_length m _ _ _ h
  unfold parray.vec at h
  rw [← hlen] at h ⊢
  intro i hi
  rw [read_range_get m xs v.p h i hi, List.getElem?_eq_getElem hi]
  rfl

theorem multi_is_match (m : Mem α) (d : parray E) (ds : List α) (h : d.vec m = some ds)
    (a : α) :
    (Delim.multi (⟨d⟩ : multi_delim E) : Delim α).is_match m a = decide (a ∈ ds) := by
  have hlen : ds.length = d.len := read_range_length m _ _ _ h
  unfold parray.vec at h
  rw [← hlen] at h
  show decide (∃ i, i < d.len ∧ deref m (d.p + i) = some a) = decide (a ∈ ds)
  congr 1
  apply propext
  constructor
  · rintro ⟨i, hi, hd⟩
    exact read_range_getElem m ds d.p h i a hd (by omega)
  · intro ha
    obtain ⟨i, hi, hd⟩ := read_range_mem m ds d.p h a ha
    exact ⟨i, by omega, hd⟩

/-- C35: `v` is a view with elements `xs` and `d` a view of delimiter elements `ds`, all of
them one-byte elements: distinct elements have distinct values, and the values lie in one
window of 256 consecutive integers. The `bitset_delim<>` built from `d` and the
set-of-values delimiter `d` give the same result for `split`, `split_se`, `rsplit` and
`rsplit_se` of `v`, and that result is a segment list. -/
theorem bitset_split_agrees (chunk_bits : Nat) (hcb : 0 < chunk_bits) (val : α → Int)
    (hval : Function.Injective val) (m : Mem α) (v : parray T) (d : parray E)
    (xs ds : List α) (hv : v.vec m = some xs) (hd : d.vec m = some ds) (lo : Int)
    (hbyte : ∀ a ∈ xs ++ ds, lo ≤ val a ∧ val a < lo + 256) :
    ∃ b segs, bitset_delim.of_parray ⟨8, false⟩ 0 255 chunk_bits val m d = some b ∧
      split m v (Delim.multi (⟨d⟩ : multi_delim E)) = some segs ∧
      split m v (Delim.bitset b val) = split m v (Delim.multi (⟨d⟩ : multi_delim E)) ∧
      split_se m v (Delim.bitset b val)
        = split_se m v (Delim.multi (⟨d⟩ : multi_delim E)) ∧
      rsplit m v (Delim.bitset b val) = rsplit m v (Delim.multi (⟨d⟩ : multi_delim E)) ∧
      rsplit_se m v (Delim.bitset b val)
        = rsplit_se m v (Delim.multi (⟨d⟩ : multi_delim E)) := by
  obtain ⟨b, hb, hset⟩ := of_parray_byte chunk_bits hcb val m d ds hd lo
    (fun a ha => hbyte a (List.mem_append_right _ ha))
  have hdm : (Delim.multi (⟨d⟩ : multi_delim E) : Delim α).readable m :=
    vec_readable m d ds hd
  have hdb : (Delim.bitset b val : Delim α).readable m := trivial
  have hagree : ∀ x ∈ xs, (Delim.bitset b val : Delim α).is_match m x
      = (Delim.multi (⟨d⟩ : multi_delim E) : Delim α).is_match m x := by
    intro x hx
    rw [multi_is_match m d ds hd x]
    show b.is_set (val x) = decide (x ∈ ds)
    have hxb := hbyte x (List.mem_append_left _ hx)
    have hiff := hset (val x) hxb.1 hxb.2
    by_cases hmem : x ∈ ds
    · rw [decide_eq_true hmem]
      exact hiff.mpr ⟨x, hmem, rfl⟩
    · rw [decide_eq_false hmem]
      cases hs : b.is_set (val x) with
      | false => rfl
      | true =>
        obtain ⟨a, ha, he⟩ := hiff.mp hs
        exact absurd (hval he ▸ ha) hmem
  have hcuts : keep_cuts ((Delim.bitset b val : Delim α).is_match m) xs
      = keep_cuts ((Delim.multi (⟨d⟩ : multi_delim E) : Delim α).is_match m) xs := by
    unfold keep_cuts
    rw [splitOnP_congr _ _ xs hagree]
  have hskip : skip_cuts ((Delim.bitset b val : Delim α).is_match m) xs
      = skip_cuts ((Delim.multi (⟨d⟩ : multi_delim E) : Delim α).is_match m) xs := by
    unfold skip_cuts
    rw [hcuts]
  refine ⟨b, _, hb, split_eq m v _ xs hv hdm, ?_, ?_, ?_, ?_⟩
  · rw [split_eq m v _ xs hv hdm, split_eq m v _ xs hv hdb, hcuts]
  · rw [split_se_eq m v _ xs hv hdm, split_se_eq m v _ xs hv hdb, hskip]
  · rw [rsplit_eq m v _ xs hv hdm, rsplit_eq m v _ xs hv hdb, hcuts]
  · rw [rsplit_se_eq m v _ xs hv hdm, rsplit_se_eq m v _ xs hv hdb, hskip]

end bitset_split
end adv

namespace adv
open parray_traits

/-! ## The last theorems at the sample data -/

theorem ntba_drops_one_witness :
    1 ≤ 3 ∧ read_range sample_mem 1 3 = some [122, 122, 0] ∧
      (ntba char_t 3 1).len = 3 - 1 ∧ (ntba char_t 3 1).p = 1 ∧
      (ntba char_t 3 1).vec sample_mem = some [122, 122, 0].dropLast ∧
      (parray.of_array int_t 3 1).len = 3 ∧ (parray.of_array int_t 3 1).p = 1 ∧
      (parray.of_array int_t 3 1).vec sample_mem = some [122, 122, 0] :=
  ⟨by decide, by decide,
    ntba_drops_one char_t int_t sample_mem 3 1 [122, 122, 0] (by decide) (by decide)⟩

theorem empty_view_never_read_witness :
    (⟨0, 1000⟩ : parray char_t).len = 0 ∧ deref sample_mem 1000 = none ∧
      ((parray.zero cv_char_t).len = 0 →
        parray.op_eq sample_mem (⟨0, 1000⟩ : parray char_t) (parray.zero cv_char_t)
          = some true) ∧
      ((parray.zero cv_char_t).len ≠ 0 →
        parray.op_lt sample_mem (⟨0, 1000⟩ : parray char_t) (parray.zero cv_char_t)
          = some true) ∧
      (deref sample_mem (ntbs cv_char_t 3).p = some 0 →
        ntbs_t.parray_op_eq sample_mem (⟨0, 1000⟩ : parray char_t) (ntbs cv_char_t 3)
          = some true ∧
        ntbs_t.op_eq_parray sample_mem (ntbs cv_char_t 3) (⟨0, 1000⟩ : parray char_t)
          = some true) :=
  ⟨by decide, by decide,
    empty_view_never_read sample_mem (⟨0, 1000⟩ : parray char_t) (parray.zero cv_char_t)
      (ntbs cv_char_t 3) (by decide)⟩

theorem split_se_bounded_spec_witness :
    parray.readable sample_mem sample_csv ∧
      (Delim.single ⟨44⟩ : Delim Nat).readable sample_mem ∧ 2 ≤ 3 ∧ 3 ≤ sample_buf.length ∧
      ∃ segs buf1, split_se sample_mem sample_csv (Delim.single ⟨44⟩) = some segs ∧
        split_se_buf sample_mem sample_csv (Delim.single ⟨44⟩) sample_buf 3
          = some (buf1, min segs.length 3) ∧
        buf1.take (min segs.length (3 - 1)) = segs.take (min segs.length (3 - 1)) ∧
        (3 ≤ segs.length → ∃ w r, segs[3 - 1]? = some w ∧ buf1[3 - 1]? = some r ∧
          r.p = w.p ∧ r.p + r.len = sample_csv.p + sample_csv.len) ∧
        (∀ s ∈ buf1.take (min segs.length 3), 1 ≤ s.len) :=
  ⟨by decide, by decide, by decide, by decide,
    split_se_bounded_spec sample_mem sample_csv (Delim.single ⟨44⟩) sample_buf 3 (by decide)
      (by decide) (by decide) (by decide)⟩

theorem bitset_split_agrees_witness :
    0 < 64 ∧ Function.Injective (fun (n : Nat) => (n : Int)) ∧
      sample_words.vec sample_mem = some [49, 32, 50, 44, 32, 51] ∧
      sample_seps.vec sample_mem = some [32, 44] ∧
      (∀ a ∈ [49, 32, 50, 44, 32, 51] ++ [32, 44],
        (0 : Int) ≤ ((a : Nat) : Int) ∧ ((a : Nat) : Int) < 0 + 256) ∧
      ∃ b segs, bitset_delim.of_parray ⟨8, false⟩ 0 255 64 (fun (n : Nat) => (n : Int))
          sample_mem sample_seps = some b ∧
        split sample_mem sample_words (Delim.multi (⟨sample_seps⟩ : multi_delim char_t))
          = some segs ∧
        split sample_mem sample_words (Delim.bitset b (fun (n : Nat) => (n : Int)))
          = split sample_mem sample_words
              (Delim.multi (⟨sample_seps⟩ : multi_delim char_t)) ∧
        split_se sample_mem sample_words (Delim.bitset b (fun (n : Nat) => (n : Int)))
          = split_se sample_mem sample_words
              (Delim.multi (⟨sample_seps⟩ : multi_delim char_t)) ∧
        rsplit sample_mem sample_words (Delim.bitset b (fun (n : Nat) => (n : Int)))
          = rsplit sample_mem sample_words
              (Delim.multi (⟨sample_seps⟩ : multi_delim char_t)) ∧
        rsplit_se sample_mem sample_words (Delim.bitset b (fun (n : Nat) => (n : Int)))
          = rsplit_se sample_mem sample_words
              (Delim.multi (⟨sample_seps⟩ : multi_delim char_t)) :=
  ⟨by decide, fun _ _ h => Int.ofNat.inj h, by decide, by decide, by decide,
    bitset_split_agrees 64 (by decide) (fun (n : Nat) => (n : Int))
      (fun _ _ h => Int.ofNat.inj h) sample_mem sample_words sample_seps
      [49, 32, 50, 44, 32, 51] [32, 44] (by decide) (by decide) 0 (by decide)⟩

theorem ntbs_compare_reads_in_bounds_witness :
    terminated_at sample_mem 1 2 ∧ terminated_at sample_mem 4 3 ∧
      (∀ i, i < 2 → (deref sample_mem (8 + i)).isSome = true) ∧
      (∀ i, i ≤ 2 → deref sample_masked (1 + i) = deref sample_mem (1 + i)) ∧
      (∀ i, i ≤ 3 → deref sample_masked (4 + i) = deref sample_mem (4 + i)) ∧
      (∀ i, i < 2 → deref sample_masked (8 + i) = deref sample_mem (8 + i)) ∧
      deref sample_masked 10 = none ∧
      (∃ b, ntbs_ar_eq char_t char_t sample_mem 1 4 = some b ∧
        ntbs_ar_eq char_t char_t sample_masked 1 4 = some b) ∧
      (∃ b, ntbs_ar_lt char_t char_t sample_mem 1 4 = some b ∧
        ntbs_ar_lt char_t char_t sample_masked 1 4 = some b) ∧
      (∃ b, ntbs_ar_eq_n char_t char_t sample_mem 2 8 4 = some b ∧
        ntbs_ar_eq_n char_t char_t sample_masked 2 8 4 = some b) ∧
      (∃ b, ntbs_ar_lt_n char_t char_t sample_mem 2 8 4 = some b ∧
        ntbs_ar_lt_n char_t char_t sample_masked 2 8 4 = some b) ∧
      (∃ b, ntbs_ar_lt_rn char_t char_t sample_mem 1 2 8 = some b ∧
        ntbs_ar_lt_rn char_t char_t sample_masked 1 2 8 = some b) :=
  ⟨by decide, by decide, by decide, by decide, by decide, by decide, by decide,
    ntbs_compare_reads_in_bounds char_t char_t sample_mem sample_masked 1 4 8 2 3 2
      (by decide) (by decide) (by decide) (by decide) (by decide) (by decide)⟩

theorem total_len_matches_join_witness :
    (∀ s ∈ sample_digits, parray.readable sample_mem s) ∧
      parray.readable sample_mem sample_seps ∧
      (∃ r, join_ sample_mem sample_digits sample_seps = some r ∧
        r.length = total_len_ sample_seps.len sample_digits) ∧
      total_len_ sample_seps.len sample_digits
        = (sample_digits.map parray.len).sum + sample_seps.len * (sample_digits.length - 1) ∧
      (∃ r, join_se_ sample_mem sample_digits sample_seps = some r ∧
        r.length = total_len_se_ sample_seps.len sample_digits) ∧
      total_len_se_ sample_seps.len sample_digits
        = ((sample_digits.filter (fun v => !v.empty)).map parray.len).sum
          + sample_seps.len * ((sample_digits.filter (fun v => !v.empty)).length - 1) :=
  ⟨by decide, by decide,
    total_len_matches_join sample_mem sample_digits sample_seps (by decide) (by decide)⟩

theorem lt_strict_order_witness :
    parray.readable sample_mem sample_ab ∧ parray.readable sample_mem sample_ac ∧
      parray.readable sample_mem sample_zz ∧
      parray.op_lt sample_mem sample_ab sample_ab = some false ∧
      (parray.op_lt sample_mem sample_ab sample_ac = some true →
        parray.op_lt sample_mem sample_ac sample_zz = some true →
        parray.op_lt sample_mem sample_ab sample_zz = some true) ∧
      parray.op_eq sample_mem sample_ab sample_ab = some true ∧
      (parray.op_eq sample_mem sample_ab sample_ac = some true →
        parray.op_eq sample_mem sample_ac sample_ab = some true) ∧
      (parray.op_eq sample_mem sample_ab sample_ac = some true →
        parray.op_eq sample_mem sample_ac sample_zz = some true →
        parray.op_eq sample_mem sample_ab sample_zz = some true) :=
  ⟨by decide, by decide, by decide,
    lt_strict_order sample_mem sample_ab sample_ac sample_zz (by decide) (by decide)
      (by decide)⟩

theorem split_join_round_trip_witness :
    (∀ s ∈ sample_digits, parray.readable sample_mem s) ∧ sample_digits ≠ [] ∧
      (∀ s ∈ sample_digits, ∀ i, i < s.len → deref sample_mem (s.p + i) ≠ some 44) ∧
      (∃ r, join sample_mem sample_digits 44 = some r ∧
        ∀ (m1 : Mem Nat) (v : parray char_t), v.vec m1 = some r →
          ∃ segs1, split_value m1 v 44 = some segs1 ∧ segs1.length = sample_digits.length ∧
            List.Forall₂ (fun (s1 s : parray char_t) => s1.vec m1 = s.vec sample_mem)
              segs1 sample_digits) ∧
      join sample_mem ([] : List (parray char_t)) 44 = some [] ∧
      ∀ (m1 : Mem Nat) (v : parray char_t), v.len = 0 →
        split_value m1 v 44 = some [⟨0, v.p⟩] :=
  ⟨by decide, by decide, by decide,
    split_join_round_trip sample_mem sample_digits 44 (by decide) (by decide) (by decide)⟩

end adv

namespace adv

/-! ## Equality with the element type's own `==` -/

section by_op_lemmas
variable {α : Type} [LinearOrder α] {T E : ElemType}

theorem by_op.elem_eq_value (L R : ElemType) (a b : α) :
    by_op.elem_eq (fun x y => decide (x = y)) L R a b = parray_traits.elem_eq L R a b := rfl

theorem by_op.generic_eq_of_decide (op : α → α → Bool) (L R : ElemType) (m : Mem α)
    (hop : ∀ a b, by_op.elem_eq op L R a b = decide (a = b)) (len l r : Nat) :
    by_op.generic_eq op L R m len l r = parray_traits.generic_eq L R m len l r := by
  induction len generalizing l r with
  | zero => simp [by_op.generic_eq, parray_traits.generic_eq]
  | succ n ih =>
    unfold by_op.generic_eq parray_traits.generic_eq
    cases hl : deref m l <;> cases hr : deref m r <;> simp only []
    rw [hop, adv.elem_eq_decide, ih]

theorem by_op.op_eq_decide (m : Mem α) (l : parray T) (r : parray E) :
    by_op.op_eq (fun x y => decide (x = y)) m l r = parray.op_eq m l r := by
  unfold by_op.op_eq by_op.eq parray.op_eq parray_traits.eq by_op.ar_eq_ parray_traits.ar_eq_
    by_op.ar_eq parray_traits.ar_eq
  rw [by_op.generic_eq_of_decide _ T E m (fun a b => adv.elem_eq_decide T E a b)]

end by_op_lemmas
end adv

namespace adv

section by_op_claims
variable {α : Type} [LinearOrder α] {T E : ElemType}

end by_op_claims
end adv

namespace adv

/-! ## The equality theorems at the sample doubles -/

end adv
